import Mathlib

/-!
# psum3_gmp: data-parallel sum / factorial over `[1..n]`

A shallow embedding of `src/psum3_gmp.c` and theorems about it.

Conventions of the embedding.

* `ui` (`unsigned long`) and `long` values are carried as natural numbers below
  `2 ^ 64` (for `long`, the 64-bit pattern); every C operation on them is
  followed by an explicit reduction modulo `2 ^ 64`.
* `mpz_t` values are `Int`, `mpq_t` values are `ℚ`: GMP arithmetic is exact.
* A C loop whose termination is not evident from its shape takes a `fuel`
  argument; `none` means that the fuel ran out before the loop ended.
* The compile-time switch `DO_FACT` is the `Mode` argument, `DEBUG` a `Bool`.
* `from` and `to` are written `from_` and `to_`.
* Not modelled: the timers (`MPI_Wtime`, `times[]`), printing, and a failing
  `malloc`.
-/

namespace Psum

/-! ## Machine integers -/

/-- Number of values of `unsigned long` (the type `ui`) on a 64-bit target. -/
def ULONG_MOD : Nat := 2 ^ 64

/-- The constant `GMP_STR_SIZE` (line 40). -/
def GMP_STR_SIZE : Nat := 9000000

/-- The two builds of the program: `DO_FACT` undefined (sum) or defined (factorial). -/
inductive Mode where
  | sum
  | fact
  deriving DecidableEq, Repr

/-! ## Exact arithmetic: `sum`, `prod`, `fact` (lines 57-96) -/

/-- The loop `for (i=m; i <= n; ++i) { t = p; p = t + i; }` of `sum`, entered with
counter `i` and accumulator `p`. The counter is a `ui`, so `++i` wraps. -/
def sumLoop : Nat → Nat → Nat → Int → Option Int
  | 0, i, n, p => if i ≤ n then none else some p
  | fuel + 1, i, n, p =>
    if i ≤ n then sumLoop fuel ((i + 1) % ULONG_MOD) n (p + (i : Int)) else some p

/-- Function `sum(res, m, n)`: `p = 0`, the loop, then `mpq_set_z(res, p)`. -/
def sum (fuel m n : Nat) : Option ℚ :=
  (sumLoop fuel m n 0).map fun p => (p : ℚ)

/-- The loop `for (i=m; i <= n; ++i) { t = p; p = p * i; }` of `prod`. -/
def prodLoop : Nat → Nat → Nat → Int → Option Int
  | 0, i, n, p => if i ≤ n then none else some p
  | fuel + 1, i, n, p =>
    if i ≤ n then prodLoop fuel ((i + 1) % ULONG_MOD) n (p * (i : Int)) else some p

/-- Function `prod(res, m, n)`: `p = 1`, the loop, then `mpq_set_z(res, p)`. -/
def prod (fuel m n : Nat) : Option ℚ :=
  (prodLoop fuel m n 1).map fun p => (p : ℚ)

/-- Function `fact(res, n)`, which is `prod(res, 1ul, n)`. -/
def fact (fuel n : Nat) : Option ℚ := prod fuel 1 n

/-! ## Accumulation in the coordinator (lines 234-239, 280-286, 328-334) -/

/-- Initial value of `result`: `mpq_set_ui(result, 1, 1)` under `DO_FACT`,
`mpq_set_ui(result, 0, 1)` otherwise. -/
def initResult : Mode → ℚ
  | Mode.sum => 0
  | Mode.fact => 1

/-- One absorption `tmp_res = result; result = tmp_res (+|*) v`. -/
def absorb : Mode → ℚ → ℚ → ℚ
  | Mode.sum, result, v => result + v
  | Mode.fact, result, v => result * v

/-- The accumulated result after absorbing the partial results `vs` in list order. -/
def accumulate (mode : Mode) (vs : List ℚ) : ℚ :=
  vs.foldl (absorb mode) (initResult mode)

/-- The configured reduction of a range: `prod` under `DO_FACT`, `sum` otherwise
(lines 540-544). -/
def reduce : Mode → Nat → Nat → Nat → Option ℚ
  | Mode.sum, fuel, m, n => sum fuel m n
  | Mode.fact, fuel, m, n => prod fuel m n

/-- The exact value of the configured reduction over `[m, n]`, written with the
big operators of the library: what `reduce` is compared with. -/
def rangeValue : Mode → Nat → Nat → ℚ
  | Mode.sum, m, n => ∑ j in Finset.Icc m n, (j : ℚ)
  | Mode.fact, m, n => ∏ j in Finset.Icc m n, (j : ℚ)

/-! ## Text form of a result (`"%Qd"`)

`gmp_sprintf` and `gmp_sscanf` belong to the GMP library, which is not part of
the sources; their `"%Qd"` conversion is modelled here. -/

/-- Modelled from the spec: the decimal numeral of an integer as the GMP
library (absent from the sources) writes it for `"%Qd"`: an optional `-`
followed by the decimal digits. -/
def intText : Int → List Char
  | Int.ofNat n => Nat.toDigits 10 n
  | Int.negSucc n => '-' :: Nat.toDigits 10 (n + 1)

/-- Modelled from the spec: `gmp_sprintf(buf, "%Qd", v)` of the GMP library
(absent from the sources), the canonical text of a rational: `num/den`, or
just `num` when the denominator is 1. -/
def gmp_sprintf_Qd (v : ℚ) : List Char :=
  if v.den = 1 then intText v.num else intText v.num ++ '/' :: Nat.toDigits 10 v.den

/-- Modelled from the spec: the value of a decimal digit character, for the reader of
the GMP library's numerals (absent from the sources). -/
def digitVal (c : Char) : Nat := c.toNat - 48

/-- Modelled from the spec: reading an unsigned decimal numeral; fails unless the
text is a non-empty string of digits. -/
def readNat (s : List Char) : Option Nat :=
  if s ≠ [] ∧ s.all Char.isDigit = true then
    some (s.foldl (fun a c => 10 * a + digitVal c) 0)
  else none

/-- Modelled from the spec: reading a decimal numeral with an optional sign. -/
def readInt : List Char → Option Int
  | [] => none
  | c :: r =>
    if c = '-' then (readNat r).map fun v => -(v : Int)
    else (readNat (c :: r)).map fun v => (v : Int)

/-- Modelled from the spec: splits a text at its first `/`, the separator of the GMP
library's rational literals (absent from the sources). -/
def splitSlash : List Char → List Char × Option (List Char)
  | [] => ([], none)
  | c :: r => if c = '/' then ([], some r) else ((splitSlash r).1.cons c, (splitSlash r).2)

/-- Modelled from the spec: `gmp_sscanf(str, "%Qd", &res)` of the GMP library
(absent from the sources): the text must be a complete rational literal
`num` or `num/den`; `none` stands for the return value 0 (nothing stored). -/
def gmp_sscanf_Qd (s : List Char) : Option ℚ :=
  match splitSlash s with
  | (a, none) => (readInt a).map fun z => (z : ℚ)
  | (a, some b) =>
    match readInt a, readNat b with
    | some z, some d => if d = 0 then none else some ((z : ℚ) / (d : ℚ))
    | _, _ => none

/-- Modelled from the spec: `mpz_sizeinbase(z, 10)` of the GMP library, taken
as the exact number of decimal digits of the absolute value. -/
def mpz_sizeinbase10 (z : Int) : Nat := (Nat.toDigits 10 z.natAbs).length

/-- Function `getSize` (line 115). -/
def getSize (op : ℚ) : Nat :=
  (mpz_sizeinbase10 op.num + mpz_sizeinbase10 (op.den : Int) + 3) % ULONG_MOD

/-! ## The worker (lines 494-589) -/

/-- What one pass through the body of the worker's `while (1)` does after the
two `MPI_Recv` of `from` and `to`. -/
inductive WorkerStep where
  /-- The test `from==0ul && to==0ul` holds: `break`, nothing is sent. -/
  | terminated
  /-- The three `MPI_Send` of lines 570-573: `len`, `buf`, `elapsed_time`. -/
  | reply (len : Nat) (buf : List Char)
  /-- Call of `MPI_Abort(MPI_COMM_WORLD, code)`. -/
  | abort (code : Nat)
  /-- the reduction did not end within the fuel -/
  | outOfFuel
  deriving DecidableEq

/-- Body of the worker loop for a received range (lines 530-573). `debug` is the
compile-time switch `DEBUG`. -/
def workerStep (mode : Mode) (debug : Bool) (fuel from_ to_ : Nat) : WorkerStep :=
  if from_ = 0 ∧ to_ = 0 then WorkerStep.terminated
  else
    match reduce mode fuel from_ to_ with
    | none => WorkerStep.outOfFuel
    | some res =>
      if debug = true ∧ getSize res > GMP_STR_SIZE then WorkerStep.abort 7
      else
        let buf := gmp_sprintf_Qd res
        let len := buf.length
        if len = 0 ∨ len ≥ GMP_STR_SIZE then WorkerStep.abort 2
        else WorkerStep.reply len buf

/-- Messages and calls of a worker, in order. -/
inductive WorkerEvent where
  | recvRange (from_ to_ : Nat)
  | sendLen (len : Nat)
  | sendBuf (buf : List Char)
  | sendTime
  | abort (code : Nat)
  deriving DecidableEq

/-- Control state of a worker. -/
inductive WorkerState where
  /-- blocked in `MPI_Recv(&from, ...)` -/
  | awaitingRange
  /-- left the loop -/
  | terminated
  | aborted (code : Nat)
  | outOfFuel
  deriving DecidableEq

/-- The worker loop `while (1)` run against the ranges the coordinator sends it,
in order: the events it produces and the state it ends in. -/
def workerLoop (mode : Mode) (debug : Bool) (fuel : Nat) :
    List (Nat × Nat) → List WorkerEvent × WorkerState
  | [] => ([], WorkerState.awaitingRange)
  | (from_, to_) :: rest =>
    match workerStep mode debug fuel from_ to_ with
    | WorkerStep.terminated => ([WorkerEvent.recvRange from_ to_], WorkerState.terminated)
    | WorkerStep.reply len buf =>
      (WorkerEvent.recvRange from_ to_ :: WorkerEvent.sendLen len :: WorkerEvent.sendBuf buf ::
        WorkerEvent.sendTime :: (workerLoop mode debug fuel rest).1,
        (workerLoop mode debug fuel rest).2)
    | WorkerStep.abort code =>
      ([WorkerEvent.recvRange from_ to_, WorkerEvent.abort code], WorkerState.aborted code)
    | WorkerStep.outOfFuel => ([WorkerEvent.recvRange from_ to_], WorkerState.outOfFuel)

/-! ## The coordinator (lines 168-352) -/

/-- The values fixed before the dispatch loop starts. -/
structure Config where
  mode : Mode
  /-- compile-time switch `DEBUG` -/
  debug : Bool
  /-- upper end of the whole range -/
  n : Nat
  /-- group size (`MPI_Comm_size`): one coordinator and `p - 1` workers -/
  p : Nat
  /-- chunk size after lines 224-228 -/
  z : Nat
  /-- number of large chunks after lines 224-228 (`r == p`: size given on the command line) -/
  r : Nat

/-- Lines 224-228: `if (z == 0) { z = n/(p-1); r = n%(p-1); } else { r = p; }`
(meant for `p ≥ 2`, where the division is defined in C). -/
def mkConfig (mode : Mode) (debug : Bool) (p n z : Nat) : Config :=
  if z = 0 then
    { mode := mode, debug := debug, n := n, p := p, z := n / (p - 1), r := n % (p - 1) }
  else
    { mode := mode, debug := debug, n := n, p := p, z := z, r := p }

/-- Calls of the coordinator that are visible to the workers or to its own result. -/
inductive Event where
  /-- the two `MPI_Send` of `from` and `to` to a rank (lines 258-259 and 350-351) -/
  | send (rank from_ to_ : Nat)
  /-- the coordinator reduces a range itself (lines 266-289) -/
  | own (from_ to_ : Nat)
  /-- a result received from a rank and absorbed (lines 295-334) -/
  | recv (rank : Nat)
  deriving DecidableEq, Repr

/-- The variables of the coordinator, the trace of its calls so far, and the
ranges each rank has been sent and has not answered yet (oldest first). -/
structure Coord where
  from_ : Nat
  to_ : Nat
  i : Nat
  p0 : Nat
  result : ℚ
  trace : List Event
  pending : Nat → List (Nat × Nat)

/-- Lines 254-255 (and the same two lines 267-268): the upper end of the next chunk.
`from+z-1` and `from+z` are computed in `unsigned long`; `to>n` is an unsigned
comparison. -/
def chunkEnd (c : Config) (i from_ : Nat) : Nat :=
  let t :=
    if c.r = c.p then (from_ + c.z + (ULONG_MOD - 1)) % ULONG_MOD
    else if i ≤ c.r then (from_ + c.z) % ULONG_MOD
    else (from_ + c.z + (ULONG_MOD - 1)) % ULONG_MOD
  if t > c.n then c.n else t

/-- A worker as the coordinator sees it: the text it sends back for a range it
was sent (`rank`, `from`, `to`), or `none` when no answer ever arrives. -/
abbrev Workers := Nat → Nat → Nat → Option (List Char)

/-- The workers of this program: each runs `workerStep`. -/
def programWorkers (mode : Mode) (debug : Bool) (fuel : Nat) : Workers :=
  fun _ from_ to_ =>
    match workerStep mode debug fuel from_ to_ with
    | WorkerStep.reply _ buf => some buf
    | _ => none

/-- How a run of the coordinator (or of a part of it) ends. -/
inductive Outcome where
  /-- ran to its end -/
  | done (s : Coord)
  /-- Call of `MPI_Abort(MPI_COMM_WORLD, code)`. -/
  | abort (code : Nat) (s : Coord)
  /-- waits in `MPI_Recv` for a message that never comes (the rank was sent nothing,
  or does not exist) -/
  | blocked (s : Coord)
  /-- the fuel ran out -/
  | outOfFuel (s : Coord)

/-- The state in which a run ended or stopped. -/
def Outcome.state : Outcome → Coord
  | Outcome.done s => s
  | Outcome.abort _ s => s
  | Outcome.blocked s => s
  | Outcome.outOfFuel s => s

/-- Whether the run reached its end. -/
def Outcome.isDone : Outcome → Bool
  | Outcome.done _ => true
  | _ => false

/-- The send loop `for (i=1; i<p; i++)` of lines 253-263, with `k = p - i`
iterations still to go. -/
def sendLoop (c : Config) : Nat → Coord → Coord
  | 0, s => s
  | k + 1, s =>
    let t := chunkEnd c s.i s.from_
    let s1 : Coord :=
      { s with
        to_ := t
        from_ := (t + 1) % ULONG_MOD
        trace := s.trace ++ [Event.send s.i s.from_ t]
        pending := Function.update s.pending s.i (s.pending s.i ++ [(s.from_, t)]) }
    if t = c.n then { s1 with p0 := s.i + 1 }
    else sendLoop c k { s1 with i := s.i + 1 }

/-- Lines 266-289: the coordinator's own chunk. Line 276 calls `prod` in both builds. -/
def ownChunk (c : Config) (fuel : Nat) (s : Coord) : Outcome :=
  if s.to_ ≠ c.n then
    let t := chunkEnd c s.i s.from_
    match prod fuel s.from_ t with
    | none => Outcome.outOfFuel s
    | some tres =>
      Outcome.done
        { s with
          to_ := t
          result := absorb c.mode s.result tres
          from_ := (t + 1) % ULONG_MOD
          trace := s.trace ++ [Event.own s.from_ t] }
  else Outcome.done s

/-- The receive loop `for (i=1; i<bound; i++)` of lines 294-337, with
`k = bound - i` iterations still to go. -/
def recvLoop (c : Config) (w : Workers) : Nat → Coord → Outcome
  | 0, s => Outcome.done s
  | k + 1, s =>
    match s.pending s.i with
    | [] => Outcome.blocked s
    | (from_, to_) :: rest =>
      match w s.i from_ to_ with
      | none => Outcome.blocked s
      | some buf =>
        let s1 : Coord := { s with pending := Function.update s.pending s.i rest }
        if buf.length = 0 then Outcome.done s1
        else if c.debug = true ∧ buf.length > GMP_STR_SIZE then Outcome.abort 6 s1
        else
          match gmp_sscanf_Qd buf with
          | none => Outcome.abort 2 s1
          | some res =>
            recvLoop c w k
              { s1 with
                result := absorb c.mode s.result res
                trace := s.trace ++ [Event.recv s.i]
                i := s.i + 1 }

/-- One pass through the body of `while (to<n)` (lines 252-337). -/
def wave (c : Config) (w : Workers) (fuel : Nat) (s : Coord) : Outcome :=
  match ownChunk c fuel (sendLoop c (c.p - 1) { s with i := 1 }) with
  | Outcome.done s2 =>
    recvLoop c w ((if s2.to_ = c.n then s2.p0 else c.p) - 1) { s2 with i := 1 }
  | o => o

/-- The loop `while (to<n)` of lines 250-346; `k` bounds the number of passes. -/
def whileLoop (c : Config) (w : Workers) (fuel : Nat) : Nat → Coord → Outcome
  | 0, s => if s.to_ < c.n then Outcome.outOfFuel s else Outcome.done s
  | k + 1, s =>
    if s.to_ < c.n then
      match wave c w fuel s with
      | Outcome.done s1 => whileLoop c w fuel k s1
      | o => o
    else Outcome.done s

/-- The state at line 249: `from=1; to=1; i=1;`, `result` at its initial value.
The variable `p0` is declared without an initial value (line 148); the argument
`p0` is the value it happens to hold (a negative one behaves like 0). -/
def initCoord (mode : Mode) (p0 : Nat) : Coord :=
  { from_ := 1, to_ := 1, i := 1, p0 := p0, result := initResult mode, trace := [],
    pending := fun _ => [] }

/-- The coordinator from line 223 to the end of the dispatch loop (line 346). -/
def dispatch (mode : Mode) (debug : Bool) (w : Workers) (p0 fuel p n z : Nat) : Outcome :=
  whileLoop (mkConfig mode debug p n z) w fuel fuel (initCoord mode p0)

/-- The loop of lines 349-352 that sends `from = 0, to = 0` to every worker, with
`k = p - i` iterations still to go. -/
def sentinelLoop : Nat → Coord → Coord
  | 0, s => s
  | k + 1, s => sentinelLoop k { s with trace := s.trace ++ [Event.send s.i 0 0], i := s.i + 1 }

/-- The coordinator from line 223 to line 352. -/
def coordinator (mode : Mode) (debug : Bool) (w : Workers) (p0 fuel p n z : Nat) : Outcome :=
  match dispatch mode debug w p0 fuel p n z with
  | Outcome.done s => Outcome.done (sentinelLoop (p - 1) { s with from_ := 0, to_ := 0, i := 1 })
  | o => o

/-- The ranges created by the dispatch loop, in order of creation. -/
def ranges : List Event → List (Nat × Nat)
  | [] => []
  | Event.send _ from_ to_ :: es => (from_, to_) :: ranges es
  | Event.own from_ to_ :: es => (from_, to_) :: ranges es
  | Event.recv _ :: es => ranges es

/-- Follows a list of ranges from the cursor `a`: every range must start at the
cursor and have `from <= to`, and moves the cursor to `to + 1`. -/
def chainEnd : Nat → List (Nat × Nat) → Option Nat
  | a, [] => some a
  | a, (from_, to_) :: rs => if from_ = a ∧ from_ ≤ to_ then chainEnd (to_ + 1) rs else none

/-- The ranges partition `[1,n]`: the first starts at 1, each later one starts
right after the one before, every one has `from <= to`, and the last ends at `n`. -/
def Partitions (n : Nat) (rs : List (Nat × Nat)) : Prop :=
  rs ≠ [] ∧ chainEnd 1 rs = some (n + 1)

instance (n : Nat) (rs : List (Nat × Nat)) : Decidable (Partitions n rs) := by
  unfold Partitions
  infer_instance

/-- The ranges sent to one rank, in order. -/
def sentTo (rank : Nat) : List Event → List (Nat × Nat)
  | [] => []
  | Event.send k from_ to_ :: es =>
    if k = rank then (from_, to_) :: sentTo rank es else sentTo rank es
  | _ :: es => sentTo rank es

/-! ## Predicates used in the statements and proofs about the coordinator -/

/-- The workers answer every well-formed range inside `[1,n]` with a non-empty text
that `gmp_sscanf` accepts (and that passes the `DEBUG` length check). This asks
more than a run needs; it is the property under which the invariants of the
dispatch loop are proved. The theorems about runs assume only `Answers`, and
`answers_replies` carries the invariants over. -/
def Replies (debug : Bool) (n : Nat) (w : Workers) : Prop :=
  ∀ rank from_ to_, 1 ≤ from_ → from_ ≤ to_ → to_ ≤ n →
    ∃ buf v, w rank from_ to_ = some buf ∧ buf ≠ [] ∧
      (debug = true → buf.length ≤ GMP_STR_SIZE) ∧ gmp_sscanf_Qd buf = some v

/-- A configuration in which no computation of the cursor wraps: `n` and `z` are
below `2^63`, there is at least one worker, and a chunk size 0 can only come
from `n/(p-1)` with `n < p-1`. -/
def Sane (c : Config) : Prop :=
  2 ≤ c.p ∧ c.n < 2 ^ 63 ∧ c.z < 2 ^ 63 ∧ (c.z = 0 → c.r ≠ c.p ∧ c.r = c.n ∧ c.n + 1 < c.p)

/-- Every range still awaited from a worker is a well-formed range inside `[1,n]`. -/
def PendingOk (c : Config) (s : Coord) : Prop :=
  ∀ j, ∀ e ∈ s.pending j, 1 ≤ e.1 ∧ e.1 ≤ e.2 ∧ e.2 ≤ c.n

/-- The ranges created so far cover `[1, from-1]` and the cursor has not reached `n`. -/
def Ready (c : Config) (s : Coord) : Prop :=
  chainEnd 1 (ranges s.trace) = some s.from_ ∧ 1 ≤ s.from_ ∧ s.from_ ≤ c.n ∧ s.to_ < c.n ∧
    PendingOk c s

/-- The ranges created so far cover `[1, n]` and the cursor is at `n`. -/
def Final (c : Config) (s : Coord) : Prop :=
  chainEnd 1 (ranges s.trace) = some (c.n + 1) ∧ ranges s.trace ≠ [] ∧ s.to_ = c.n ∧
    PendingOk c s

/-- What the send loop guarantees about the state `s1` it returns when entered in `s`. -/
def SendPost (c : Config) (s s1 : Coord) : Prop :=
  s1.result = s.result ∧ s.from_ ≤ s1.from_ ∧
    ((Final c s1 ∧ s1.p0 = s1.i + 1 ∧ s1.i < c.p ∧ 1 ≤ s1.i ∧
        ∀ j, 1 ≤ j → j ≤ s1.i → s1.pending j ≠ []) ∨
      (Ready c s1 ∧ s1.i = c.p ∧ (c.z = 0 → s1.from_ = s1.i) ∧ s1.p0 = s.p0 ∧
        ∀ j, 1 ≤ j → j < c.p → s1.pending j ≠ []))

/-- What the receive loop guarantees about its outcome `o` when entered in `s` with
`k` iterations to go. -/
def RecvPost (c : Config) (k : Nat) (s : Coord) (o : Outcome) : Prop :=
  ranges o.state.trace = ranges s.trace ∧ (∀ r, sentTo r o.state.trace = sentTo r s.trace) ∧
    o.state.from_ = s.from_ ∧ o.state.to_ = s.to_ ∧ o.state.p0 = s.p0 ∧ PendingOk c o.state ∧
    ((∀ j, s.i ≤ j → j < s.i + k → s.pending j ≠ []) → o.isDone = true)

/-- A state from which, for `n = 2^64 - 1` and chunk size 2, the cursor never
reaches `n`: `from` is odd. -/
def OddCursor (s : Coord) : Prop :=
  s.from_ % 2 = 1 ∧ s.from_ < ULONG_MOD ∧ s.to_ < ULONG_MOD - 1

/-! ## The verifier (lines 382-484) -/

/-- Function `fact_ui` (line 99): `(n==1) ? 1ul : n*fact_ui(n-1)`, computed in
`unsigned long`. The result carries, besides the value, whether any product
`n*fact_ui(n-1)` of the call exceeded `2^64 - 1` (and so wrapped). -/
def fact_ui : Nat → Nat → Option (Nat × Bool)
  | 0, _ => none
  | fuel + 1, n =>
    if n = 1 then some (1, false)
    else
      (fact_ui fuel ((n + (ULONG_MOD - 1)) % ULONG_MOD)).map fun r =>
        ((n * r.1) % ULONG_MOD, r.2 || decide (ULONG_MOD ≤ n * r.1))

/-- Modelled from the spec: `mpq_set_str(q, str, 10)` of the GMP library (absent from
the sources), which reads a rational literal in base 10. -/
def mpq_set_str10 (str : List Char) : Option ℚ := gmp_sscanf_Qd str

/-- Modelled from the spec: `mpz_fac_ui` of the GMP library (absent from the sources),
the trusted independent factorial routine. -/
def mpz_fac_ui (n : Nat) : Int := (n.factorial : Int)

/-- The value `resq_check` the verifier of the factorial build compares `result`
with (lines 384-456). -/
def expectedFact (fuel n : Nat) : Option ℚ :=
  if n < 21 then (fact_ui fuel n).map fun r => ((r.1 : Nat) : ℚ)
  else if n < 50 then prod fuel 1 n
  else if n = 50 then mpq_set_str10 ['5', '0']
  else if n = 1000 then mpq_set_str10 ['1', '0', '0', '0']
  else some ((mpz_fac_ui n : Int) : ℚ)

/-- The verdict of the verifier of the factorial build: `true` for
`++ Result OK`, `false` for `** Result WRONG` (`mpq_cmp(result, resq_check)==0`). -/
def checkFact (fuel n : Nat) (result : ℚ) : Option Bool :=
  (expectedFact fuel n).map fun e => decide (result = e)

/-- Line 474: `res_exp = (n % 2) ? ((n+1ul)/2)*n : (n/2)*(n+1)`, in `unsigned long`. -/
def res_exp (n : Nat) : Nat :=
  if n % 2 ≠ 0 then (((n + 1) % ULONG_MOD) / 2 * n) % ULONG_MOD
  else (n / 2 * ((n + 1) % ULONG_MOD)) % ULONG_MOD

/-- The verdict of the closed-form check of the sum build (lines 475-482): `true` for
`++ Result OK`, `false` for `** Result WRONG`. -/
def checkClosedForm (n : Nat) (result : ℚ) : Bool :=
  decide (result = ((res_exp n : Nat) : ℚ))

/-! ## Reading the arguments: `readIntK` (lines 117-145) -/

/-- How a call of `readIntK` ends. -/
inductive ReadResult where
  /-- The call returns `val * multiplyBy`. -/
  | value (v : Nat)
  /-- The call ends the program with `exit(code)`. -/
  | exit (code : Nat)
  deriving DecidableEq

/-- The multiplier the `switch` of lines 126-134 selects for the last character,
`none` for the `default` branch. -/
def suffixMultiplier (c : Char) : Option Nat :=
  if c = 'k' ∨ c = 'K' then some 1000
  else if c = 'm' ∨ c = 'M' then some 1000000
  else if c = 'g' ∨ c = 'G' then some 1000000000
  else none

/-- Function `readIntK` (lines 118-145). `atol` belongs to the C library, which is
not part of the sources: it is the parameter `atol`, returning a `long`. The
empty string, for which `str[len-1]` is read out of bounds, gives `none`. -/
def readIntK (atol : List Char → Int) (str : List Char) : Option ReadResult :=
  match str.getLast? with
  | none => none
  | some c =>
    let multiplyBy := (suffixMultiplier c).getD 1
    let numeral := if (suffixMultiplier c).isSome then str.dropLast else str
    let maxVal := ULONG_MOD - 1
    let val := (atol numeral % (ULONG_MOD : Int)).toNat
    if val > maxVal / multiplyBy then some (ReadResult.exit 3)
    else some (ReadResult.value ((val * multiplyBy) % ULONG_MOD))

/-- What the C standard guarantees of `atol`: the value of a decimal numeral that
fits a `long`. -/
def AtolSpec (atol : List Char → Int) : Prop :=
  ∀ ds v, readNat ds = some v → v ≤ 2 ^ 63 - 1 → atol ds = (v : Int)

/-- Modelled from the spec: an `atol` as the C library (absent from the sources)
commonly implements it, through `strtol`: the value of the decimal numeral, or
`LONG_MAX` when it does not fit a `long`; 0 for a text that is no numeral. -/
def atolSaturating (s : List Char) : Int :=
  match readNat s with
  | some v => if v ≤ 2 ^ 63 - 1 then (v : Int) else 2 ^ 63 - 1
  | none => 0

/-! ## Shape of the plan of chunks -/

/-- What the automatic sizing prescribes for an event: a chunk sent to rank `i` has
size `z + 1` when `i ≤ r` and `z` otherwise, and the coordinator takes no chunk. -/
def AutoOk (c : Config) : Event → Prop
  | Event.send i from_ to_ => from_ ≤ to_ ∧ to_ + 1 - from_ = c.z + (if i ≤ c.r then 1 else 0)
  | Event.own _ _ => False
  | Event.recv _ => True

/-- Whether an event creates a chunk. -/
def isChunk : Event → Bool
  | Event.recv _ => false
  | _ => true

/-- The chunks created by the dispatch loop, in order of creation. -/
def chunks (tr : List Event) : List Event := tr.filter isChunk

/-- The lower bound `from` of the chunk an event creates. -/
def eventFrom : Event → Nat
  | Event.send _ from_ _ => from_
  | Event.own from_ _ => from_
  | Event.recv _ => 0

/-- What the round-robin prescribes for the chunk with number `k` (counted from 0)
among `p` processes: with `k mod p < p - 1` it is sent to rank `(k mod p) + 1`, with
`k mod p = p - 1` the coordinator computes it; the upper end is the one computed
by lines 254-256 and 267-269. -/
def ChunkOk (c : Config) (k : Nat) : Event → Prop
  | Event.send i from_ to_ => k % c.p + 1 < c.p ∧ i = k % c.p + 1 ∧ to_ = chunkEnd c i from_
  | Event.own from_ to_ => k % c.p + 1 = c.p ∧ to_ = chunkEnd c c.p from_
  | Event.recv _ => False

/-- Every chunk of the list, numbered from `k` on, is as the round-robin prescribes. -/
def Shaped (c : Config) : Nat → List Event → Prop
  | _, [] => True
  | k, e :: es => ChunkOk c k e ∧ Shaped c (k + 1) es

/-- The chunks in order of increasing `from` (a stable insertion sort). -/
def byFrom (es : List Event) : List Event :=
  es.insertionSort (fun a b => eventFrom a ≤ eventFrom b)

/-! ## The cursor of the dispatch loop -/

/-- The values of the cursor `to` at the successive evaluations of the test of
`while (to<n)` (line 250) in the run of `whileLoop`: the value on entry, and after
each pass that reaches its end the value it leaves. -/
def cursors (c : Config) (w : Workers) (fuel : Nat) : Nat → Coord → List Nat
  | 0, s => [s.to_]
  | k + 1, s =>
    s.to_ ::
      (if s.to_ < c.n then
        match wave c w fuel s with
        | Outcome.done s1 => cursors c w fuel k s1
        | _ => []
      else [])

/-- The cursor values of the run of `dispatch`. -/
def dispatchCursors (mode : Mode) (debug : Bool) (w : Workers) (p0 fuel p n z : Nat) :
    List Nat :=
  cursors (mkConfig mode debug p n z) w fuel fuel (initCoord mode p0)

/-! ## Workers that answer the ranges they are sent -/

/-- The workers answer a `send` event: the rank returns, for the range it was sent,
a non-empty text that `gmp_sscanf` accepts (and that passes the `DEBUG` length
check of line 313). Other events ask nothing of the workers. -/
def Answered (debug : Bool) (w : Workers) : Event → Prop
  | Event.send rank from_ to_ =>
    ∃ buf v, w rank from_ to_ = some buf ∧ buf ≠ [] ∧
      (debug = true → buf.length ≤ GMP_STR_SIZE) ∧ gmp_sscanf_Qd buf = some v
  | _ => True

/-- Every worker answers the ranges it is sent in the trace `tr`. -/
def Answers (debug : Bool) (w : Workers) (tr : List Event) : Prop :=
  ∀ e ∈ tr, Answered debug w e

/-- Whether the last chunk created in the trace is one the coordinator took itself
(lines 266-289) rather than one sent to a worker. -/
def ownLast (tr : List Event) : Bool :=
  match (chunks tr).getLast? with
  | some (Event.own _ _) => true
  | _ => false

/-- Every range still awaited from a worker was sent to it in the trace. -/
def PendingSent (s : Coord) : Prop :=
  ∀ j, ∀ e ∈ s.pending j, Event.send j e.1 e.2 ∈ s.trace

/-! ## Lemmas on the exact arithmetic -/

theorem sumLoop_eq (n : Nat) (hn : n + 1 < ULONG_MOD) :
    ∀ (fuel i : Nat) (p : Int), n + 1 ≤ fuel + i →
      sumLoop fuel i n p = some (p + ∑ j in Finset.Icc i n, (j : Int)) := by
  intro fuel
  induction fuel with
  | zero =>
    intro i p hf
    have : ¬ i ≤ n := by omega
    simp [sumLoop, this, Finset.Icc_eq_empty_of_lt (show n < i by omega)]
  | succ fuel ih =>
    intro i p hf
    by_cases h : i ≤ n
    · have hmod : (i + 1) % ULONG_MOD = i + 1 := Nat.mod_eq_of_lt (by omega)
      rw [sumLoop, if_pos h, hmod, ih (i + 1) _ (by omega)]
      rw [← Finset.sum_Ioc_add_eq_sum_Icc h, ← Nat.Icc_succ_left]
      congr 1
      ring
    · simp [sumLoop, h, Finset.Icc_eq_empty_of_lt (show n < i by omega)]

theorem prodLoop_eq (n : Nat) (hn : n + 1 < ULONG_MOD) :
    ∀ (fuel i : Nat) (p : Int), n + 1 ≤ fuel + i →
      prodLoop fuel i n p = some (p * ∏ j in Finset.Icc i n, (j : Int)) := by
  intro fuel
  induction fuel with
  | zero =>
    intro i p hf
    have : ¬ i ≤ n := by omega
    simp [prodLoop, this, Finset.Icc_eq_empty_of_lt (show n < i by omega)]
  | succ fuel ih =>
    intro i p hf
    by_cases h : i ≤ n
    · have hmod : (i + 1) % ULONG_MOD = i + 1 := Nat.mod_eq_of_lt (by omega)
      rw [prodLoop, if_pos h, hmod, ih (i + 1) _ (by omega)]
      rw [← Finset.prod_Ioc_mul_eq_prod_Icc h, ← Nat.Icc_succ_left]
      congr 1
      ring
    · simp [prodLoop, h, Finset.Icc_eq_empty_of_lt (show n < i by omega)]

/-- With the bound `ULONG_MAX` the condition `i <= n` can never fail. -/
theorem sumLoop_max_none :
    ∀ (fuel i : Nat) (p : Int), i < ULONG_MOD → sumLoop fuel i (ULONG_MOD - 1) p = none := by
  intro fuel
  induction fuel with
  | zero =>
    intro i p hi
    simp [sumLoop, show i ≤ ULONG_MOD - 1 by omega]
  | succ fuel ih =>
    intro i p hi
    rw [sumLoop, if_pos (show i ≤ ULONG_MOD - 1 by omega)]
    exact ih _ _ (Nat.mod_lt _ (by decide))

theorem prodLoop_max_none :
    ∀ (fuel i : Nat) (p : Int), i < ULONG_MOD → prodLoop fuel i (ULONG_MOD - 1) p = none := by
  intro fuel
  induction fuel with
  | zero =>
    intro i p hi
    simp [prodLoop, show i ≤ ULONG_MOD - 1 by omega]
  | succ fuel ih =>
    intro i p hi
    rw [prodLoop, if_pos (show i ≤ ULONG_MOD - 1 by omega)]
    exact ih _ _ (Nat.mod_lt _ (by decide))

theorem gauss_Icc (n : Nat) : (∑ j in Finset.Icc 1 n, (j : ℚ)) = (n : ℚ) * (n + 1) / 2 := by
  induction n with
  | zero => simp
  | succ k ih =>
    rw [Finset.sum_Icc_succ_top (by omega), ih]
    push_cast
    ring

theorem factorial_Icc (n : Nat) : (∏ j in Finset.Icc 1 n, (j : ℚ)) = (n.factorial : ℚ) := by
  induction n with
  | zero => simp
  | succ k ih =>
    rw [Finset.prod_Icc_succ_top (by omega), ih, Nat.factorial_succ]
    push_cast
    ring

/-- Value of `sum(res, m, n)` when the counter does not wrap. -/
theorem sum_eq (fuel m n : Nat) (hn : n + 1 < ULONG_MOD)
    (hf : n + 1 ≤ fuel + m) : sum fuel m n = some (∑ j in Finset.Icc m n, (j : ℚ)) := by
  simp [sum, sumLoop_eq n hn fuel m 0 hf]

/-- Value of `prod(res, m, n)` when the counter does not wrap. -/
theorem prod_eq (fuel m n : Nat) (hn : n + 1 < ULONG_MOD)
    (hf : n + 1 ≤ fuel + m) : prod fuel m n = some (∏ j in Finset.Icc m n, (j : ℚ)) := by
  simp [prod, prodLoop_eq n hn fuel m 1 hf]

/-! ## The exact arithmetic engine: claims C4 and C5 -/

/-- C4, amended: for every `n` with `1 ≤ n < 2^64 - 1`, the call `sum(res, 1, n)`
returns (fuel `n` is enough) and sets `res` to exactly `n(n+1)/2`. -/
theorem sum_one_eq_gauss (fuel n : Nat) (h1 : 1 ≤ n) (hn : n < ULONG_MOD - 1) (hf : n ≤ fuel) :
    sum fuel 1 n = some ((n : ℚ) * (n + 1) / 2) := by
  rw [sum_eq fuel 1 n (by omega) (by omega), gauss_Icc]

/-- Witness of C4 at `n = 100`. -/
theorem sum_one_eq_gauss_witness : sum 100 1 100 = some 5050 := by
  rw [sum_one_eq_gauss 100 100 (by decide) (by decide) (by decide)]
  norm_num

/-- Counterexample to C4 as stated: for `n = 2^64 - 1` (`ULONG_MAX`) the test
`i <= n` never fails, the counter wraps, and `sum(res, 1, n)` never returns. -/
theorem sum_one_max_never_returns : ¬ ∃ fuel v, sum fuel 1 (ULONG_MOD - 1) = some v := by
  rintro ⟨fuel, v, h⟩
  simp [sum, sumLoop_max_none fuel 1 0 (by decide)] at h

/-- C5, amended: for every `n` with `0 ≤ n < 2^64 - 1`, the calls `prod(res, 1, n)` and
`fact(res, n)` return (fuel `n` is enough) and set `res` to exactly `n!`; for `n = 0`
the loop body never runs and the result is 1. -/
theorem prod_one_eq_factorial (fuel n : Nat) (hn : n < ULONG_MOD - 1) (hf : n ≤ fuel) :
    prod fuel 1 n = some (n.factorial : ℚ) ∧ fact fuel n = some (n.factorial : ℚ) ∧
      prod fuel 1 0 = some 1 := by
  have h : prod fuel 1 n = some (n.factorial : ℚ) := by
    rw [prod_eq fuel 1 n (by omega) (by omega), factorial_Icc]
  refine ⟨h, h, ?_⟩
  rw [prod_eq fuel 1 0 (by decide) (by omega)]
  simp

/-- Witness of C5 at `n = 10`. -/
theorem prod_one_eq_factorial_witness :
    prod 10 1 10 = some 3628800 ∧ fact 10 10 = some 3628800 ∧ prod 10 1 0 = some 1 := by
  have h := prod_one_eq_factorial 10 10 (by decide) (by decide)
  have e : ((Nat.factorial 10 : ℕ) : ℚ) = 3628800 := by norm_num [Nat.factorial]
  rw [e] at h
  exact h

/-- Counterexample to C5 as stated: for `n = 2^64 - 1` (`ULONG_MAX`) the test
`i <= n` never fails and `prod(res, 1, n)` never returns. -/
theorem prod_one_max_never_returns : ¬ ∃ fuel v, prod fuel 1 (ULONG_MOD - 1) = some v := by
  rintro ⟨fuel, v, h⟩
  simp [prod, prodLoop_max_none fuel 1 1 (by decide)] at h

/-! ## Order of absorption: claim C7 -/

theorem foldl_absorb_sum (vs : List ℚ) (a : ℚ) :
    vs.foldl (absorb Mode.sum) a = a + vs.sum := by
  induction vs generalizing a with
  | nil => simp
  | cons v vs ih => simp [List.foldl_cons, ih, absorb, add_assoc]

theorem foldl_absorb_fact (vs : List ℚ) (a : ℚ) :
    vs.foldl (absorb Mode.fact) a = a * vs.prod := by
  induction vs generalizing a with
  | nil => simp
  | cons v vs ih => simp [List.foldl_cons, ih, absorb, mul_assoc]

/-- C7: for a fixed list of partial results, absorbing them into the accumulated
result (started at 0 in sum mode, at 1 in product mode) in any permuted order
gives the same accumulated result. -/
theorem accumulate_perm (mode : Mode) (vs ws : List ℚ) (h : vs.Perm ws) :
    accumulate mode vs = accumulate mode ws := by
  cases mode with
  | sum => simp only [accumulate, foldl_absorb_sum, h.sum_eq]
  | fact => simp only [accumulate, foldl_absorb_fact, h.prod_eq]

/-- Witness of C7: three partial results absorbed in two orders. -/
theorem accumulate_perm_witness :
    accumulate Mode.fact [6, 120, 504] = accumulate Mode.fact [504, 6, 120] :=
  accumulate_perm Mode.fact [6, 120, 504] [504, 6, 120] (by decide)

/-! ## The text form of a result: claim C6 -/

theorem digitVal_digitChar (d : Nat) (h : d < 10) : digitVal (Nat.digitChar d) = d := by
  interval_cases d <;> rfl

theorem isDigit_digitChar (d : Nat) (h : d < 10) : (Nat.digitChar d).isDigit = true := by
  interval_cases d <;> rfl

theorem toDigitsCore_isDigit :
    ∀ (fuel n : Nat) (ds : List Char), (∀ c ∈ ds, c.isDigit = true) →
      ∀ c ∈ Nat.toDigitsCore 10 fuel n ds, c.isDigit = true := by
  intro fuel
  induction fuel with
  | zero =>
    intro n ds h
    simpa [Nat.toDigitsCore] using h
  | succ fuel ih =>
    intro n ds h
    have hd : ∀ c ∈ Nat.digitChar (n % 10) :: ds, c.isDigit = true := by
      intro c hc
      rcases List.mem_cons.1 hc with rfl | hc
      · exact isDigit_digitChar _ (Nat.mod_lt _ (by decide))
      · exact h c hc
    rw [Nat.toDigitsCore]
    by_cases h0 : n / 10 = 0
    · simpa [h0] using hd
    · simpa [h0] using ih (n / 10) _ hd

theorem toDigitsCore_ne_nil :
    ∀ (fuel n : Nat) (ds : List Char), 0 < fuel → Nat.toDigitsCore 10 fuel n ds ≠ [] := by
  intro fuel
  induction fuel with
  | zero => intro n ds h; omega
  | succ fuel ih =>
    intro n ds _
    rw [Nat.toDigitsCore]
    by_cases h0 : n / 10 = 0
    · simp [h0]
    · simp only [h0, if_false]
      cases fuel with
      | zero => simp [Nat.toDigitsCore]
      | succ k => exact ih _ _ (Nat.succ_pos k)

theorem toDigitsCore_value :
    ∀ (fuel n : Nat) (ds : List Char), n < fuel →
      (Nat.toDigitsCore 10 fuel n ds).foldl (fun a c => 10 * a + digitVal c) 0 =
        ds.foldl (fun a c => 10 * a + digitVal c) n := by
  intro fuel
  induction fuel with
  | zero => intro n ds h; omega
  | succ fuel ih =>
    intro n ds h
    rw [Nat.toDigitsCore]
    by_cases h0 : n / 10 = 0
    · have hn : n % 10 = n := Nat.mod_eq_of_lt (by omega)
      have hv := digitVal_digitChar _ (Nat.mod_lt n (by decide : 0 < 10))
      rw [hn] at hv
      simp [h0, hn, hv]
    · simp only [h0, if_false]
      rw [ih (n / 10) _ (by omega)]
      simp only [List.foldl_cons, digitVal_digitChar _ (Nat.mod_lt n (by decide))]
      congr 1
      omega

theorem toDigits_isDigit (n : Nat) : ∀ c ∈ Nat.toDigits 10 n, c.isDigit = true :=
  toDigitsCore_isDigit (n + 1) n [] (by simp)

theorem toDigits_ne_nil (n : Nat) : Nat.toDigits 10 n ≠ [] :=
  toDigitsCore_ne_nil (n + 1) n [] (Nat.succ_pos n)

/-- Reading back the decimal numeral of a natural number. -/
theorem readNat_toDigits (n : Nat) : readNat (Nat.toDigits 10 n) = some n := by
  have hall : (Nat.toDigits 10 n).all Char.isDigit = true :=
    List.all_eq_true.2 (toDigits_isDigit n)
  have hv := toDigitsCore_value (n + 1) n [] (Nat.lt_succ_self n)
  simp only [List.foldl_nil] at hv
  have hne := toDigits_ne_nil n
  unfold readNat
  rw [if_pos ⟨hne, hall⟩]
  exact congrArg some hv

theorem isDigit_ne_minus (c : Char) (h : c.isDigit = true) : c ≠ '-' := by
  rintro rfl
  exact absurd h (by decide)

theorem isDigit_ne_slash (c : Char) (h : c.isDigit = true) : c ≠ '/' := by
  rintro rfl
  exact absurd h (by decide)

/-- Reading back the numeral of an integer. -/
theorem readInt_intText (z : Int) : readInt (intText z) = some z := by
  cases z with
  | ofNat n =>
    have hne := toDigits_ne_nil n
    have hd := toDigits_isDigit n
    have hr := readNat_toDigits n
    simp only [intText]
    cases hL : Nat.toDigits 10 n with
    | nil => exact absurd hL hne
    | cons c r =>
      rw [hL] at hd hr
      have hc : c ≠ '-' := isDigit_ne_minus c (hd c (List.mem_cons_self c r))
      simp [readInt, hc, hr]
  | negSucc n =>
    simp [intText, readInt, readNat_toDigits, Int.negSucc_eq]

theorem intText_no_slash (z : Int) : ∀ c ∈ intText z, c ≠ '/' := by
  cases z with
  | ofNat n =>
    intro c hc
    exact isDigit_ne_slash c (toDigits_isDigit n c hc)
  | negSucc n =>
    intro c hc
    simp only [intText, List.mem_cons] at hc
    rcases hc with rfl | hc
    · decide
    · exact isDigit_ne_slash c (toDigits_isDigit _ c hc)

theorem splitSlash_no_slash (a : List Char) (h : ∀ c ∈ a, c ≠ '/') :
    splitSlash a = (a, none) := by
  induction a with
  | nil => rfl
  | cons c r ih =>
    have hc : c ≠ '/' := h c (List.mem_cons_self c r)
    have hr := ih (fun x hx => h x (List.mem_cons_of_mem c hx))
    simp [splitSlash, hc, hr]

theorem splitSlash_append (a b : List Char) (h : ∀ c ∈ a, c ≠ '/') :
    splitSlash (a ++ '/' :: b) = (a, some b) := by
  induction a with
  | nil => simp [splitSlash]
  | cons c r ih =>
    have hc : c ≠ '/' := h c (List.mem_cons_self c r)
    have hr := ih (fun x hx => h x (List.mem_cons_of_mem c hx))
    simp [splitSlash, hc, hr]

theorem sscanf_sprintf_int (v : ℚ) (hden : v.den = 1) :
    gmp_sscanf_Qd (gmp_sprintf_Qd v) = some v := by
  unfold gmp_sprintf_Qd
  rw [if_pos hden]
  unfold gmp_sscanf_Qd
  rw [splitSlash_no_slash _ (intText_no_slash v.num)]
  simp only [readInt_intText, Option.map_some']
  exact congrArg some (Rat.den_eq_one_iff v |>.1 hden)

theorem sscanf_sprintf_frac (v : ℚ) (hden : ¬ v.den = 1) :
    gmp_sscanf_Qd (gmp_sprintf_Qd v) = some v := by
  unfold gmp_sprintf_Qd
  rw [if_neg hden]
  unfold gmp_sscanf_Qd
  rw [splitSlash_append _ _ (intText_no_slash v.num)]
  simp only [readInt_intText, readNat_toDigits, v.den_nz, if_false]
  exact congrArg some (Rat.num_div_den v)

/-- C6: for every rational `v`, reading (`gmp_sscanf` with `"%Qd"`, coordinator side)
the text written for `v` (`gmp_sprintf` with `"%Qd"`, worker side) stores a value
equal to `v`. -/
theorem sscanf_sprintf_roundtrip (v : ℚ) : gmp_sscanf_Qd (gmp_sprintf_Qd v) = some v := by
  by_cases hden : v.den = 1
  · exact sscanf_sprintf_int v hden
  · exact sscanf_sprintf_frac v hden

/-! ## The worker loop: claim C10 -/

/-- The reduction of a range returns its exact value when the loop counter does
not wrap and the fuel covers the length of the range. -/
theorem reduce_eq (mode : Mode) (fuel m n : Nat) (hn : n + 1 < ULONG_MOD)
    (hf : n + 1 ≤ fuel + m) : reduce mode fuel m n = some (rangeValue mode m n) := by
  cases mode with
  | sum => exact sum_eq fuel m n hn hf
  | fact => exact prod_eq fuel m n hn hf

theorem intText_ne_nil (z : Int) : intText z ≠ [] := by
  cases z with
  | ofNat n => exact toDigits_ne_nil n
  | negSucc n => simp [intText]

theorem sprintf_ne_nil (v : ℚ) : gmp_sprintf_Qd v ≠ [] := by
  unfold gmp_sprintf_Qd
  split
  · exact intText_ne_nil _
  · simp [intText_ne_nil]

/-- The worker's answer to a range whose text is short enough. -/
theorem workerStep_reply (mode : Mode) (debug : Bool) (fuel from_ to_ : Nat)
    (hne : ¬ (from_ = 0 ∧ to_ = 0)) (hto : to_ + 1 < ULONG_MOD) (hf : to_ + 1 ≤ fuel + from_)
    (hsz : debug = true → getSize (rangeValue mode from_ to_) ≤ GMP_STR_SIZE)
    (hlen : (gmp_sprintf_Qd (rangeValue mode from_ to_)).length < GMP_STR_SIZE) :
    workerStep mode debug fuel from_ to_ =
      WorkerStep.reply (gmp_sprintf_Qd (rangeValue mode from_ to_)).length
        (gmp_sprintf_Qd (rangeValue mode from_ to_)) := by
  have hpos : (gmp_sprintf_Qd (rangeValue mode from_ to_)).length ≠ 0 := by
    intro h
    exact sprintf_ne_nil _ (List.length_eq_zero.1 h)
  have hdbg : ¬ (debug = true ∧ getSize (rangeValue mode from_ to_) > GMP_STR_SIZE) := by
    rintro ⟨hd, hgt⟩
    exact absurd (hsz hd) (by omega)
  have hab : ¬ ((gmp_sprintf_Qd (rangeValue mode from_ to_)).length = 0 ∨
      (gmp_sprintf_Qd (rangeValue mode from_ to_)).length ≥ GMP_STR_SIZE) := by
    rintro (h | h)
    · exact hpos h
    · omega
  unfold workerStep
  rw [if_neg hne, reduce_eq mode fuel from_ to_ hto hf]
  simp only [if_neg hdbg, if_neg hab]

/-- C10, amended: a worker that receives `{0,0}` leaves the loop, sends nothing and
touches none of the ranges after it; a worker that receives any other range whose
reduction ends (`to < 2^64 - 1`) and whose text is shorter than `GMP_STR_SIZE`
characters sends exactly one response (length, bytes, elapsed time) and goes on
with the next range. -/
theorem workerLoop_protocol (mode : Mode) (debug : Bool) (fuel from_ to_ : Nat)
    (rest : List (Nat × Nat))
    (hne : ¬ (from_ = 0 ∧ to_ = 0)) (hto : to_ < ULONG_MOD - 1) (hf : to_ + 1 ≤ fuel + from_)
    (hsz : debug = true → getSize (rangeValue mode from_ to_) ≤ GMP_STR_SIZE)
    (hlen : (gmp_sprintf_Qd (rangeValue mode from_ to_)).length < GMP_STR_SIZE) :
    workerLoop mode debug fuel ((0, 0) :: rest) =
        ([WorkerEvent.recvRange 0 0], WorkerState.terminated) ∧
      workerLoop mode debug fuel ((from_, to_) :: rest) =
        (WorkerEvent.recvRange from_ to_ ::
          WorkerEvent.sendLen (gmp_sprintf_Qd (rangeValue mode from_ to_)).length ::
          WorkerEvent.sendBuf (gmp_sprintf_Qd (rangeValue mode from_ to_)) ::
          WorkerEvent.sendTime :: (workerLoop mode debug fuel rest).1,
          (workerLoop mode debug fuel rest).2) := by
  constructor
  · simp [workerLoop, workerStep]
  · rw [workerLoop, workerStep_reply mode debug fuel from_ to_ hne (by omega) hf hsz hlen]

/-- Witness of C10: the range `[1,4]` in sum mode, followed by the sentinel. -/
theorem workerLoop_protocol_witness :
    workerLoop Mode.sum false 4 [(0, 0), (0, 0)] =
        ([WorkerEvent.recvRange 0 0], WorkerState.terminated) ∧
      workerLoop Mode.sum false 4 [(1, 4), (0, 0)] =
        (WorkerEvent.recvRange 1 4 ::
          WorkerEvent.sendLen (gmp_sprintf_Qd (rangeValue Mode.sum 1 4)).length ::
          WorkerEvent.sendBuf (gmp_sprintf_Qd (rangeValue Mode.sum 1 4)) ::
          WorkerEvent.sendTime :: (workerLoop Mode.sum false 4 [(0, 0)]).1,
          (workerLoop Mode.sum false 4 [(0, 0)]).2) :=
  workerLoop_protocol Mode.sum false 4 1 4 [(0, 0)] (by decide) (by decide) (by decide)
    (by decide) (by decide!)

theorem factorial_ge_pow (N : Nat) (h : 10 ≤ N) : 10 ^ (N - 10) ≤ N.factorial := by
  induction N with
  | zero => omega
  | succ k ih =>
    by_cases hk : 10 ≤ k
    · have e : k + 1 - 10 = (k - 10) + 1 := by omega
      rw [e, pow_succ, Nat.factorial_succ, Nat.mul_comm]
      exact Nat.mul_le_mul (by omega) (ih hk)
    · have e : k = 9 := by omega
      subst e
      decide

theorem toDigitsCore_length_ge :
    ∀ (fuel n k : Nat) (ds : List Char), n < fuel → 10 ^ k ≤ n →
      ds.length + k + 1 ≤ (Nat.toDigitsCore 10 fuel n ds).length := by
  intro fuel
  induction fuel with
  | zero => intro n k ds h; omega
  | succ fuel ih =>
    intro n k ds h hk
    rw [Nat.toDigitsCore]
    by_cases h0 : n / 10 = 0
    · have hn : n < 10 := by omega
      have hk0 : k = 0 := by
        by_contra hne
        have : 10 ^ 1 ≤ 10 ^ k := Nat.pow_le_pow_right (by decide) (by omega)
        omega
      simp [h0, hk0]
    · simp only [h0, if_false]
      cases k with
      | zero =>
        have := ih (n / 10) 0 (Nat.digitChar (n % 10) :: ds) (by omega) (by simp; omega)
        simp only [List.length_cons] at this
        omega
      | succ j =>
        have hj : 10 ^ j ≤ n / 10 := by
          rw [Nat.le_div_iff_mul_le (by decide)]
          rw [pow_succ] at hk
          exact hk
        have := ih (n / 10) j (Nat.digitChar (n % 10) :: ds) (by omega) hj
        simp only [List.length_cons] at this
        omega

/-- The text of `N!` has more than `N - 10` characters. -/
theorem sprintf_factorial_length (N : Nat) (h : 10 ≤ N) :
    N - 10 + 1 ≤ (gmp_sprintf_Qd (N.factorial : ℚ)).length := by
  have hden : ((N.factorial : ℕ) : ℚ).den = 1 := Rat.den_natCast _
  have hnum : ((N.factorial : ℕ) : ℚ).num = Int.ofNat N.factorial := Rat.num_natCast _
  unfold gmp_sprintf_Qd
  rw [if_pos hden, hnum]
  have := toDigitsCore_length_ge (N.factorial + 1) N.factorial (N - 10) []
    (Nat.lt_succ_self _) (factorial_ge_pow N h)
  simpa [intText, Nat.toDigits] using this

/-- In the default build a result whose text is too long makes the worker abort
the group with code 2. -/
theorem workerStep_oversize (fuel from_ to_ : Nat) (mode : Mode)
    (hne : ¬ (from_ = 0 ∧ to_ = 0)) (hto : to_ + 1 < ULONG_MOD) (hf : to_ + 1 ≤ fuel + from_)
    (hlen : GMP_STR_SIZE ≤ (gmp_sprintf_Qd (rangeValue mode from_ to_)).length) :
    workerStep mode false fuel from_ to_ = WorkerStep.abort 2 := by
  unfold workerStep
  rw [if_neg hne, reduce_eq mode fuel from_ to_ hto hf]
  have hdbg : ¬ ((false : Bool) = true ∧ getSize (rangeValue mode from_ to_) > GMP_STR_SIZE) := by
    simp
  simp only [if_neg hdbg]
  rw [if_pos (Or.inr hlen)]

/-- Counterexample to C10 as stated: in product mode the worker that receives the
range `[1, 9000010]`, which is not `{0,0}`, sends no response: the text of
`9000010!` has more than `GMP_STR_SIZE` characters and the worker aborts the
group with code 2. -/
theorem worker_oversize_no_response :
    workerLoop Mode.fact false 9000010 [(1, 9000010), (0, 0)] =
      ([WorkerEvent.recvRange 1 9000010, WorkerEvent.abort 2], WorkerState.aborted 2) := by
  have hlen : GMP_STR_SIZE ≤ (gmp_sprintf_Qd (rangeValue Mode.fact 1 9000010)).length := by
    have h := sprintf_factorial_length 9000010 (by decide)
    rw [rangeValue, factorial_Icc]
    have e : GMP_STR_SIZE ≤ 9000010 - 10 + 1 := by decide
    exact le_trans e h
  rw [workerLoop, workerStep_oversize 9000010 1 9000010 Mode.fact (by decide) (by decide)
    (by decide) hlen]

/-! ## The dispatch loop: lemmas -/

theorem ranges_append (a b : List Event) : ranges (a ++ b) = ranges a ++ ranges b := by
  induction a with
  | nil => rfl
  | cons e es ih => cases e <;> simp [ranges, ih]

theorem sentTo_append (rank : Nat) (a b : List Event) :
    sentTo rank (a ++ b) = sentTo rank a ++ sentTo rank b := by
  induction a with
  | nil => rfl
  | cons e es ih =>
    cases e with
    | send k f t => by_cases h : k = rank <;> simp [sentTo, h, ih]
    | own f t => simp [sentTo, ih]
    | recv k => simp [sentTo, ih]

theorem sentTo_subset_ranges (rank : Nat) (tr : List Event) :
    ∀ e ∈ sentTo rank tr, e ∈ ranges tr := by
  induction tr with
  | nil => simp [sentTo]
  | cons ev es ih =>
    intro e he
    cases ev with
    | send k f t =>
      by_cases h : k = rank
      · simp only [sentTo, h, if_true, List.mem_cons] at he
        rcases he with rfl | he
        · simp [ranges]
        · simp [ranges, ih e he]
      · simp only [sentTo, h, if_false] at he
        simp [ranges, ih e he]
    | own f t =>
      simp only [sentTo] at he
      simp [ranges, ih e he]
    | recv k =>
      simp only [sentTo] at he
      simp [ranges, ih e he]

theorem chainEnd_snoc (rs : List (Nat × Nat)) (a f t : Nat)
    (h : chainEnd a rs = some f) (hft : f ≤ t) : chainEnd a (rs ++ [(f, t)]) = some (t + 1) := by
  induction rs generalizing a with
  | nil =>
    simp only [chainEnd, Option.some.injEq] at h
    simp [chainEnd, h, hft]
  | cons r rs ih =>
    obtain ⟨f0, t0⟩ := r
    simp only [chainEnd, List.cons_append] at h ⊢
    by_cases hc : f0 = a ∧ f0 ≤ t0
    · rw [if_pos hc] at h ⊢
      exact ih _ h
    · rw [if_neg hc] at h
      exact absurd h (by simp)

theorem chainEnd_lower (rs : List (Nat × Nat)) (a b : Nat) (h : chainEnd a rs = some b) :
    a ≤ b ∧ ∀ e ∈ rs, a ≤ e.1 := by
  induction rs generalizing a with
  | nil =>
    simp only [chainEnd, Option.some.injEq] at h
    simp [h]
  | cons r rs ih =>
    obtain ⟨f0, t0⟩ := r
    simp only [chainEnd] at h
    by_cases hc : f0 = a ∧ f0 ≤ t0
    · rw [if_pos hc] at h
      obtain ⟨h1, h2⟩ := ih _ h
      refine ⟨by omega, ?_⟩
      intro e he
      rcases List.mem_cons.1 he with rfl | he
      · simp [hc.1]
      · have := h2 e he
        omega
    · rw [if_neg hc] at h
      exact absurd h (by simp)

/-- The configuration built by lines 224-228 is sane when `n` and `z` are below `2^63`. -/
theorem mkConfig_sane (mode : Mode) (debug : Bool) (w n z : Nat) (hw : 1 ≤ w)
    (hn : n < 2 ^ 63) (hz : z < 2 ^ 63) : Sane (mkConfig mode debug (w + 1) n z) := by
  unfold mkConfig Sane
  by_cases h0 : z = 0
  · simp only [h0, if_true, Nat.add_sub_cancel]
    refine ⟨by omega, hn, lt_of_le_of_lt (Nat.div_le_self n w) hn, ?_⟩
    intro hq
    have hlt : n < w := by
      rcases Nat.lt_or_ge n w with h | h
      · exact h
      · have := Nat.div_pos h (by omega)
        omega
    have hmod : n % w = n := Nat.mod_eq_of_lt hlt
    rw [hmod]
    omega
  · rw [if_neg h0]
    exact ⟨Nat.succ_le_succ hw, hn, hz, fun h => absurd h h0⟩

/-- The upper end of the next chunk lies between the cursor and `n`. -/
theorem chunkEnd_bounds (c : Config) (hc : Sane c) (i from_ : Nat)
    (h2 : from_ ≤ c.n) (hz : c.z = 0 → i ≤ c.r) :
    from_ ≤ chunkEnd c i from_ ∧ chunkEnd c i from_ ≤ c.n := by
  obtain ⟨_, hn, hzb, hauto⟩ := hc
  have hn' : c.n < 9223372036854775808 := by simpa using hn
  have hz' : c.z < 9223372036854775808 := by simpa using hzb
  unfold chunkEnd ULONG_MOD
  simp only [show (2 : Nat) ^ 64 = 18446744073709551616 by norm_num]
  by_cases hr : c.r = c.p
  · have hzpos : 1 ≤ c.z := by
      rcases Nat.eq_zero_or_pos c.z with h | h
      · exact absurd hr (hauto h).1
      · exact h
    simp only [hr, if_true]
    split <;> omega
  · simp only [hr, if_false]
    by_cases hi : i ≤ c.r
    · simp only [hi, if_true]
      split <;> omega
    · have hzpos : 1 ≤ c.z := by
        rcases Nat.eq_zero_or_pos c.z with h | h
        · exact absurd (hz h) hi
        · exact h
      simp only [hi, if_false]
      split <;> omega

theorem chunkEnd_zero (c : Config) (hc : Sane c) (i from_ : Nat) (hz : c.z = 0)
    (hi : i ≤ c.r) (h2 : from_ ≤ c.n) : chunkEnd c i from_ = from_ := by
  obtain ⟨_, hn, _, hauto⟩ := hc
  have hn' : c.n < 9223372036854775808 := by simpa using hn
  have hr := (hauto hz).1
  unfold chunkEnd ULONG_MOD
  simp only [show (2 : Nat) ^ 64 = 18446744073709551616 by norm_num, hr, if_false, hi, if_true,
    hz, Nat.add_zero]
  split <;> omega

theorem mod_succ_of_le (t n : Nat) (h : t ≤ n) (hn : n < 2 ^ 63) :
    (t + 1) % ULONG_MOD = t + 1 := by
  have hn' : n < 9223372036854775808 := by simpa using hn
  unfold ULONG_MOD
  simp only [show (2 : Nat) ^ 64 = 18446744073709551616 by norm_num]
  omega

theorem sendLoop_spec (c : Config) (hc : Sane c) :
    ∀ (k : Nat) (s : Coord), Ready c s → (c.z = 0 → s.from_ = s.i) → s.i + k = c.p → 1 ≤ s.i →
      (∀ j, 1 ≤ j → j < s.i → s.pending j ≠ []) → SendPost c s (sendLoop c k s) := by
  intro k
  induction k with
  | zero =>
    intro s hR hz0 hik _ hpend
    refine ⟨rfl, le_refl _, Or.inr ⟨hR, by simpa using hik, hz0, rfl, ?_⟩⟩
    intro j h1 h2
    exact hpend j h1 (by omega)
  | succ k ih =>
    intro s hR hz0 hik hi1 hpend
    obtain ⟨hchain, hf1, hfn, hto, hpok⟩ := hR
    have hzr : c.z = 0 → s.i ≤ c.r := by
      intro h
      have := (hc.2.2.2 h).2.1
      have := hz0 h
      omega
    obtain ⟨hb1, hb2⟩ := chunkEnd_bounds c hc s.i s.from_ hfn hzr
    have hmod := mod_succ_of_le _ _ hb2 hc.2.1
    have hchain2 : chainEnd 1 (ranges (s.trace ++ [Event.send s.i s.from_ (chunkEnd c s.i s.from_)])) =
        some (chunkEnd c s.i s.from_ + 1) := by
      rw [ranges_append]
      exact chainEnd_snoc _ _ _ _ hchain hb1
    have hpok2 : ∀ j, ∀ e ∈ Function.update s.pending s.i
        (s.pending s.i ++ [(s.from_, chunkEnd c s.i s.from_)]) j, 1 ≤ e.1 ∧ e.1 ≤ e.2 ∧ e.2 ≤ c.n := by
      intro j e he
      by_cases hj : j = s.i
      · subst hj
        rw [Function.update_same] at he
        rcases List.mem_append.1 he with he | he
        · exact hpok _ e he
        · simp only [List.mem_singleton] at he
          subst he
          exact ⟨hf1, hb1, hb2⟩
      · rw [Function.update_noteq hj] at he
        exact hpok j e he
    have hpend2 : ∀ j, 1 ≤ j → j ≤ s.i → Function.update s.pending s.i
        (s.pending s.i ++ [(s.from_, chunkEnd c s.i s.from_)]) j ≠ [] := by
      intro j h1 h2
      by_cases hj : j = s.i
      · subst hj
        rw [Function.update_same]
        simp
      · rw [Function.update_noteq hj]
        exact hpend j h1 (by omega)
    rw [sendLoop]
    by_cases ht : chunkEnd c s.i s.from_ = c.n
    · simp only [ht, if_true]
      refine ⟨rfl, ?_, Or.inl ⟨⟨?_, ?_, rfl, ?_⟩, rfl, by show s.i < c.p; omega, hi1, ?_⟩⟩
      · show s.from_ ≤ (c.n + 1) % ULONG_MOD
        rw [← ht, hmod]; omega
      · show chainEnd 1 (ranges (s.trace ++ [Event.send s.i s.from_ c.n])) = some (c.n + 1)
        rw [← ht]; exact hchain2
      · show ranges (s.trace ++ [Event.send s.i s.from_ c.n]) ≠ []
        rw [ranges_append]; simp [ranges]
      · intro j e he
        rw [← ht] at he
        exact hpok2 j e he
      · intro j h1 h2
        show Function.update s.pending s.i (s.pending s.i ++ [(s.from_, c.n)]) j ≠ []
        rw [← ht]
        exact hpend2 j h1 h2
    · simp only [ht, if_false]
      have hlt : chunkEnd c s.i s.from_ < c.n := lt_of_le_of_ne hb2 ht
      have hR3 : Ready c
          { s with
            to_ := chunkEnd c s.i s.from_
            from_ := (chunkEnd c s.i s.from_ + 1) % ULONG_MOD
            trace := s.trace ++ [Event.send s.i s.from_ (chunkEnd c s.i s.from_)]
            pending := Function.update s.pending s.i
              (s.pending s.i ++ [(s.from_, chunkEnd c s.i s.from_)])
            i := s.i + 1 } := by
        refine ⟨?_, ?_, ?_, hlt, hpok2⟩
        · show chainEnd 1 _ = some ((chunkEnd c s.i s.from_ + 1) % ULONG_MOD)
          rw [hmod]; exact hchain2
        · show 1 ≤ (chunkEnd c s.i s.from_ + 1) % ULONG_MOD
          rw [hmod]; omega
        · show (chunkEnd c s.i s.from_ + 1) % ULONG_MOD ≤ c.n
          rw [hmod]; omega
      have h3 := ih _ hR3
        (by
          intro h
          show (chunkEnd c s.i s.from_ + 1) % ULONG_MOD = s.i + 1
          rw [hmod, chunkEnd_zero c hc _ _ h (hzr h) hfn, hz0 h])
        (by show s.i + 1 + k = c.p; omega) (by show 1 ≤ s.i + 1; omega)
        (by
          intro j h1 h2
          exact hpend2 j h1 (by
            have : j < s.i + 1 := h2
            omega))
      obtain ⟨hres, hfrom, hcase⟩ := h3
      refine ⟨hres, ?_, ?_⟩
      · have : s.from_ ≤ (chunkEnd c s.i s.from_ + 1) % ULONG_MOD := by rw [hmod]; omega
        exact le_trans this hfrom
      · rcases hcase with h | h
        · exact Or.inl h
        · exact Or.inr h


theorem ownChunk_spec (c : Config) (hc : Sane c) (fuel : Nat) (hf : c.n ≤ fuel) (s : Coord)
    (hR : Ready c s) (hi : s.i = c.p) (hz0 : c.z = 0 → s.from_ = s.i) :
    ∃ s1, ownChunk c fuel s = Outcome.done s1 ∧ s.from_ < s1.from_ ∧ s1.p0 = s.p0 ∧
      s1.pending = s.pending ∧ (Final c s1 ∨ Ready c s1) ∧ c.z ≠ 0 := by
  obtain ⟨hchain, hf1, hfn, hto, hpok⟩ := hR
  have hz : c.z ≠ 0 := by
    intro h
    have h1 := (hc.2.2.2 h).2.2
    have h2 := hz0 h
    omega
  obtain ⟨hb1, hb2⟩ := chunkEnd_bounds c hc s.i s.from_ hfn (fun h => absurd h hz)
  have hmod := mod_succ_of_le _ _ hb2 hc.2.1
  have hn' : c.n < 9223372036854775808 := by simpa using hc.2.1
  have hprod := prod_eq fuel s.from_ (chunkEnd c s.i s.from_)
    (by unfold ULONG_MOD; simp only [show (2 : Nat) ^ 64 = 18446744073709551616 by norm_num]; omega)
    (by omega)
  have hchain2 : chainEnd 1 (ranges (s.trace ++ [Event.own s.from_ (chunkEnd c s.i s.from_)])) =
      some (chunkEnd c s.i s.from_ + 1) := by
    rw [ranges_append]
    exact chainEnd_snoc _ _ _ _ hchain hb1
  unfold ownChunk
  rw [if_pos (by omega : s.to_ ≠ c.n)]
  simp only [hprod]
  refine ⟨_, rfl, ?_, rfl, rfl, ?_, hz⟩
  · show s.from_ < (chunkEnd c s.i s.from_ + 1) % ULONG_MOD
    rw [hmod]; omega
  · by_cases ht : chunkEnd c s.i s.from_ = c.n
    · left
      refine ⟨?_, ?_, ht, hpok⟩
      · show chainEnd 1 _ = some (c.n + 1)
        rw [← ht]; exact hchain2
      · show ranges (s.trace ++ [Event.own s.from_ (chunkEnd c s.i s.from_)]) ≠ []
        rw [ranges_append]; simp [ranges]
    · right
      have hlt : chunkEnd c s.i s.from_ < c.n := lt_of_le_of_ne hb2 ht
      refine ⟨?_, ?_, ?_, hlt, hpok⟩
      · show chainEnd 1 _ = some ((chunkEnd c s.i s.from_ + 1) % ULONG_MOD)
        rw [hmod]; exact hchain2
      · show 1 ≤ (chunkEnd c s.i s.from_ + 1) % ULONG_MOD
        rw [hmod]; omega
      · show (chunkEnd c s.i s.from_ + 1) % ULONG_MOD ≤ c.n
        rw [hmod]; omega

theorem ownChunk_final (c : Config) (fuel : Nat) (s : Coord) (h : s.to_ = c.n) :
    ownChunk c fuel s = Outcome.done s := by
  unfold ownChunk
  rw [if_neg (by simp [h])]

theorem recvLoop_spec (c : Config) (w : Workers) (hw : Replies c.debug c.n w) :
    ∀ (k : Nat) (s : Coord), PendingOk c s → RecvPost c k s (recvLoop c w k s) := by
  intro k
  induction k with
  | zero =>
    intro s hp
    exact ⟨rfl, fun _ => rfl, rfl, rfl, rfl, hp, fun _ => rfl⟩
  | succ k ih =>
    intro s hp
    rw [recvLoop]
    cases hpend : s.pending s.i with
    | nil =>
      refine ⟨rfl, fun _ => rfl, rfl, rfl, rfl, hp, ?_⟩
      intro h
      exact absurd hpend (h s.i (le_refl _) (by omega))
    | cons e rest =>
      obtain ⟨f, t⟩ := e
      have hv := hp s.i (f, t) (by rw [hpend]; exact List.mem_cons_self _ _)
      obtain ⟨buf, v, hwb, hne, hdbg, hscan⟩ := hw s.i f t hv.1 hv.2.1 hv.2.2
      have hlen : ¬ buf.length = 0 := by
        intro h
        exact hne (List.length_eq_zero.1 h)
      have hd : ¬ (c.debug = true ∧ buf.length > GMP_STR_SIZE) := by
        rintro ⟨h1, h2⟩
        have := hdbg h1
        omega
      simp only [hwb, hlen, if_false, hd, hscan]
      have hp2 : PendingOk c
          { s with
            pending := Function.update s.pending s.i rest
            result := absorb c.mode s.result v
            trace := s.trace ++ [Event.recv s.i]
            i := s.i + 1 } := by
        intro j e he
        by_cases hj : j = s.i
        · subst hj
          have he' : e ∈ rest := by simpa [Function.update_same] using he
          exact hp _ e (by rw [hpend]; exact List.mem_cons_of_mem _ he')
        · have he' : e ∈ s.pending j := by simpa [Function.update_noteq hj] using he
          exact hp j e he'
      obtain ⟨h1, h2, h3, h4, h5, h6, h7⟩ := ih _ hp2
      refine ⟨?_, ?_, h3, h4, h5, h6, ?_⟩
      · rw [h1]
        show ranges (s.trace ++ [Event.recv s.i]) = ranges s.trace
        rw [ranges_append]; simp [ranges]
      · intro r
        rw [h2 r]
        show sentTo r (s.trace ++ [Event.recv s.i]) = sentTo r s.trace
        rw [sentTo_append]; simp [sentTo]
      · intro hall
        apply h7
        intro j hj1 hj2
        have hj1' : s.i + 1 ≤ j := hj1
        have hj2' : j < s.i + 1 + k := hj2
        show Function.update s.pending s.i rest j ≠ []
        rw [Function.update_noteq (by omega)]
        exact hall j (by omega) (by omega)


theorem Ready_congr (c : Config) (s s1 : Coord) (h : Ready c s)
    (h1 : ranges s1.trace = ranges s.trace) (h2 : s1.from_ = s.from_) (h3 : s1.to_ = s.to_)
    (h4 : PendingOk c s1) : Ready c s1 := by
  obtain ⟨a, b, c1, d, _⟩ := h
  exact ⟨by rw [h1, h2]; exact a, by rw [h2]; exact b, by rw [h2]; exact c1, by rw [h3]; exact d, h4⟩

theorem Final_congr (c : Config) (s s1 : Coord) (h : Final c s)
    (h1 : ranges s1.trace = ranges s.trace) (h3 : s1.to_ = s.to_)
    (h4 : PendingOk c s1) : Final c s1 := by
  obtain ⟨a, b, c1, _⟩ := h
  exact ⟨by rw [h1]; exact a, by rw [h1]; exact b, by rw [h3]; exact c1, h4⟩

theorem isDone_eq (o : Outcome) (h : o.isDone = true) : o = Outcome.done o.state := by
  cases o <;> simp [Outcome.isDone, Outcome.state] at h ⊢

theorem wave_eq (c : Config) (w : Workers) (fuel : Nat) (s s2 : Coord)
    (h : ownChunk c fuel (sendLoop c (c.p - 1) { s with i := 1 }) = Outcome.done s2) :
    wave c w fuel s =
      recvLoop c w ((if s2.to_ = c.n then s2.p0 else c.p) - 1) { s2 with i := 1 } := by
  unfold wave
  rw [h]

theorem whileLoop_done (c : Config) (w : Workers) (fuel k : Nat) (s : Coord)
    (h : ¬ s.to_ < c.n) : whileLoop c w fuel k s = Outcome.done s := by
  cases k <;> simp [whileLoop, h]

theorem mkConfig_n (mode : Mode) (debug : Bool) (p n z : Nat) :
    (mkConfig mode debug p n z).n = n := by
  unfold mkConfig; split <;> rfl

theorem mkConfig_p (mode : Mode) (debug : Bool) (p n z : Nat) :
    (mkConfig mode debug p n z).p = p := by
  unfold mkConfig; split <;> rfl

theorem mkConfig_debug (mode : Mode) (debug : Bool) (p n z : Nat) :
    (mkConfig mode debug p n z).debug = debug := by
  unfold mkConfig; split <;> rfl

/-! ## The workers of the program as environment of the coordinator -/

theorem sprintf_natCast (m : Nat) : gmp_sprintf_Qd (m : ℚ) = Nat.toDigits 10 m := by
  have hden : ((m : ℕ) : ℚ).den = 1 := Rat.den_natCast _
  have hnum : ((m : ℕ) : ℚ).num = Int.ofNat m := Rat.num_natCast _
  unfold gmp_sprintf_Qd
  rw [if_pos hden, hnum]
  rfl

theorem getSize_natCast (m : Nat) :
    getSize (m : ℚ) = ((Nat.toDigits 10 m).length + 1 + 3) % ULONG_MOD := by
  have hden : ((m : ℕ) : ℚ).den = 1 := Rat.den_natCast _
  have hnum : ((m : ℕ) : ℚ).num = Int.ofNat m := Rat.num_natCast _
  unfold getSize mpz_sizeinbase10
  rw [hden, hnum]
  rfl

theorem toDigits_length_le (m e : Nat) (h : m < 10 ^ e) (he : 0 < e) :
    (Nat.toDigits 10 m).length ≤ e :=
  Nat.toDigitsCore_length 10 (by decide) (m + 1) m e h he

theorem rangeValue_sum_cast (f t : Nat) :
    rangeValue Mode.sum f t = ((∑ j in Finset.Icc f t, j : ℕ) : ℚ) := by
  simp [rangeValue]

theorem sum_Icc_lt (f t : Nat) (ht : t < 2 ^ 63) : ∑ j in Finset.Icc f t, j < 10 ^ 38 := by
  have h1 : ∑ j in Finset.Icc f t, j ≤ ∑ _j in Finset.Icc f t, t :=
    Finset.sum_le_sum (fun j hj => (Finset.mem_Icc.1 hj).2)
  have h2 : ∑ _j in Finset.Icc f t, t = (t + 1 - f) * t := by
    simp [Finset.sum_const, Nat.card_Icc]
  have h3 : (t + 1 - f) * t ≤ 2 ^ 63 * 2 ^ 63 :=
    Nat.mul_le_mul (by omega) (by omega)
  have h4 : (2 : Nat) ^ 63 * 2 ^ 63 < 10 ^ 38 := by norm_num
  omega

/-- In sum mode the workers of the program answer every range inside `[1,n]`. -/
theorem programWorkers_sum_replies (debug : Bool) (fuel n : Nat) (hn : n < 2 ^ 63)
    (hf : n ≤ fuel) : Replies debug n (programWorkers Mode.sum debug fuel) := by
  intro rank f t h1 h2 h3
  have ht : t < 2 ^ 63 := lt_of_le_of_lt h3 hn
  have ht' : t < 9223372036854775808 := by simpa using ht
  have hS := sum_Icc_lt f t ht
  have hlen38 := toDigits_length_le _ 38 hS (by decide)
  have hlen : (gmp_sprintf_Qd (rangeValue Mode.sum f t)).length < GMP_STR_SIZE := by
    rw [rangeValue_sum_cast, sprintf_natCast]
    unfold GMP_STR_SIZE
    omega
  have hsz : debug = true → getSize (rangeValue Mode.sum f t) ≤ GMP_STR_SIZE := by
    intro _
    rw [rangeValue_sum_cast, getSize_natCast]
    unfold GMP_STR_SIZE ULONG_MOD
    simp only [show (2 : Nat) ^ 64 = 18446744073709551616 by norm_num]
    omega
  have hstep := workerStep_reply Mode.sum debug fuel f t (by omega)
    (by unfold ULONG_MOD; simp only [show (2 : Nat) ^ 64 = 18446744073709551616 by norm_num]; omega)
    (by omega) hsz hlen
  refine ⟨gmp_sprintf_Qd (rangeValue Mode.sum f t), rangeValue Mode.sum f t, ?_,
    sprintf_ne_nil _, fun _ => le_of_lt hlen, ?_⟩
  · simp only [programWorkers, hstep]
  · apply sscanf_sprintf_int
    rw [rangeValue_sum_cast]
    exact Rat.den_natCast _

/-! ## The sentinel loop, and the counterexample to claim C1 -/

theorem sentinelLoop_trace :
    ∀ (k : Nat) (s : Coord),
      (sentinelLoop k s).trace = s.trace ++ (List.range' s.i k).map fun j => Event.send j 0 0 := by
  intro k
  induction k with
  | zero => intro s; simp [sentinelLoop]
  | succ k ih =>
    intro s
    rw [sentinelLoop, ih]
    simp [List.range'_succ, List.append_assoc]

theorem sentTo_sentinels (rank : Nat) :
    ∀ (k a : Nat), a ≤ rank → rank < a + k →
      sentTo rank ((List.range' a k).map fun j => Event.send j 0 0) = [(0, 0)] := by
  intro k
  induction k with
  | zero => intro a h1 h2; omega
  | succ k ih =>
    intro a h1 h2
    rw [List.range'_succ, List.map_cons]
    by_cases h : a = rank
    · subst h
      have hnone : ∀ (m b : Nat), a < b →
          sentTo a ((List.range' b m).map fun j => Event.send j 0 0) = [] := by
        intro m
        induction m with
        | zero => intro b _; rfl
        | succ m ihm =>
          intro b hb
          rw [List.range'_succ, List.map_cons]
          simp only [sentTo, show ¬ b = a by omega, if_false]
          exact ihm (b + 1) (by omega)
      simp [sentTo, hnone k (a + 1) (by omega)]
    · simp only [sentTo, h, if_false]
      exact ih (a + 1) (by omega) (by omega)

/-- Counterexample to C1 as stated. For `n = 1` the loop `while (to<n)` is never
entered and no range is created. For `n = 2^63 + 1`, one worker and `z = 2^63` the
first pass creates `[1, 2^63]` and then, `from+z-1` having wrapped, the range
`[2^63 + 1, 0]`, whose `from` is above its `to`. -/
theorem dispatch_not_partition :
    ¬ Partitions 1
        (ranges (dispatch Mode.sum false (programWorkers Mode.sum false 1) 0 1 2 1 0).state.trace) ∧
      ranges (dispatch Mode.sum false (programWorkers Mode.sum false 1) 0 1 2
        (2 ^ 63 + 1) (2 ^ 63)).state.trace = [(1, 2 ^ 63), (2 ^ 63 + 1, 0)] := by
  decide!

theorem coordinator_of_dispatch (mode : Mode) (debug : Bool) (w : Workers)
    (p0 fuel p n z : Nat) (s : Coord) (h : dispatch mode debug w p0 fuel p n z = Outcome.done s) :
    coordinator mode debug w p0 fuel p n z =
      Outcome.done (sentinelLoop (p - 1) { s with from_ := 0, to_ := 0, i := 1 }) := by
  unfold coordinator
  rw [h]

/-- After a dispatch loop that ran to its end, every worker gets the sentinel as
the last range, provided no real range starts at 0. -/
theorem sentinels_after (mode : Mode) (debug : Bool) (w : Workers) (p0 fuel nw n z : Nat)
    (s : Coord) (h : dispatch mode debug w p0 fuel (nw + 1) n z = Outcome.done s)
    (hpos : ∀ e ∈ ranges s.trace, 1 ≤ e.1) :
    ∃ s1, coordinator mode debug w p0 fuel (nw + 1) n z = Outcome.done s1 ∧
      ∀ rank, 1 ≤ rank → rank ≤ nw →
        ∃ real, sentTo rank s1.trace = real ++ [(0, 0)] ∧ (0, 0) ∉ real := by
  refine ⟨_, coordinator_of_dispatch mode debug w p0 fuel (nw + 1) n z s h, ?_⟩
  intro rank hr1 hr2
  refine ⟨sentTo rank s.trace, ?_, ?_⟩
  · rw [sentinelLoop_trace, sentTo_append]
    congr 1
    exact sentTo_sentinels rank _ 1 hr1 (by simp only [Nat.add_sub_cancel]; omega)
  · intro hmem
    have := hpos _ (sentTo_subset_ranges rank s.trace _ hmem)
    simp at this

/-! ## A cursor that wraps -/

theorem chunkEnd_even (c : Config) (hr : c.r = c.p) (hz : c.z = 2) (hn : c.n = ULONG_MOD - 1)
    (i f : Nat) (h1 : f % 2 = 1) :
    chunkEnd c i f < ULONG_MOD - 1 ∧ ((chunkEnd c i f + 1) % ULONG_MOD) % 2 = 1 ∧
      (chunkEnd c i f + 1) % ULONG_MOD < ULONG_MOD := by
  unfold chunkEnd
  rw [hn, hz]
  unfold ULONG_MOD at *
  simp only [show (2 : Nat) ^ 64 = 18446744073709551616 by norm_num, hr, if_true] at *
  split <;> omega

theorem sendLoop_odd (c : Config) (hr : c.r = c.p) (hz : c.z = 2) (hn : c.n = ULONG_MOD - 1) :
    ∀ (k : Nat) (s : Coord), OddCursor s → OddCursor (sendLoop c k s) := by
  intro k
  induction k with
  | zero => intro s h; exact h
  | succ k ih =>
    intro s h
    obtain ⟨a, b, d⟩ := chunkEnd_even c hr hz hn s.i s.from_ h.1
    rw [sendLoop]
    have hne : ¬ chunkEnd c s.i s.from_ = c.n := by rw [hn]; omega
    simp only [hne, if_false]
    exact ih _ ⟨b, d, a⟩

theorem ownChunk_odd (c : Config) (hr : c.r = c.p) (hz : c.z = 2) (hn : c.n = ULONG_MOD - 1)
    (fuel : Nat) (s : Coord) (h : OddCursor s) : OddCursor (ownChunk c fuel s).state := by
  obtain ⟨a, b, d⟩ := chunkEnd_even c hr hz hn s.i s.from_ h.1
  unfold ownChunk
  have hne : s.to_ ≠ c.n := by rw [hn]; have := h.2.2; omega
  rw [if_pos hne]
  simp only []
  cases prod fuel s.from_ (chunkEnd c s.i s.from_) with
  | none => exact h
  | some tres => exact ⟨b, d, a⟩

theorem recvLoop_cursor (c : Config) (w : Workers) :
    ∀ (k : Nat) (s : Coord),
      (recvLoop c w k s).state.from_ = s.from_ ∧ (recvLoop c w k s).state.to_ = s.to_ := by
  intro k
  induction k with
  | zero => intro s; exact ⟨rfl, rfl⟩
  | succ k ih =>
    intro s
    rw [recvLoop]
    cases s.pending s.i with
    | nil => exact ⟨rfl, rfl⟩
    | cons e rest =>
      obtain ⟨f, t⟩ := e
      simp only []
      cases w s.i f t with
      | none => exact ⟨rfl, rfl⟩
      | some buf =>
        simp only []
        by_cases h0 : buf.length = 0
        · rw [if_pos h0]; exact ⟨rfl, rfl⟩
        · rw [if_neg h0]
          by_cases hd : c.debug = true ∧ buf.length > GMP_STR_SIZE
          · rw [if_pos hd]; exact ⟨rfl, rfl⟩
          · rw [if_neg hd]
            cases gmp_sscanf_Qd buf with
            | none => exact ⟨rfl, rfl⟩
            | some res => exact ih _

theorem wave_odd (c : Config) (hr : c.r = c.p) (hz : c.z = 2) (hn : c.n = ULONG_MOD - 1)
    (w : Workers) (fuel : Nat) (s : Coord) (h : OddCursor s) :
    OddCursor (wave c w fuel s).state := by
  have h1 : OddCursor (sendLoop c (c.p - 1) { s with i := 1 }) := sendLoop_odd c hr hz hn _ _ h
  have h2 := ownChunk_odd c hr hz hn fuel _ h1
  unfold wave
  cases ho : ownChunk c fuel (sendLoop c (c.p - 1) { s with i := 1 }) with
  | done s2 =>
    rw [ho] at h2
    simp only []
    obtain ⟨e1, e2⟩ := recvLoop_cursor c w ((if s2.to_ = c.n then s2.p0 else c.p) - 1)
      { s2 with i := 1 }
    exact ⟨by rw [e1]; exact h2.1, by rw [e1]; exact h2.2.1, by rw [e2]; exact h2.2.2⟩
  | abort code s2 => rw [ho] at h2; exact h2
  | blocked s2 => rw [ho] at h2; exact h2
  | outOfFuel s2 => rw [ho] at h2; exact h2

theorem whileLoop_odd (c : Config) (hr : c.r = c.p) (hz : c.z = 2) (hn : c.n = ULONG_MOD - 1)
    (w : Workers) (fuel : Nat) :
    ∀ (k : Nat) (s : Coord), OddCursor s → (whileLoop c w fuel k s).isDone = false := by
  intro k
  induction k with
  | zero =>
    intro s h
    have : s.to_ < c.n := by rw [hn]; exact h.2.2
    simp [whileLoop, this, Outcome.isDone]
  | succ k ih =>
    intro s h
    have hlt : s.to_ < c.n := by rw [hn]; exact h.2.2
    have hw := wave_odd c hr hz hn w fuel s h
    rw [whileLoop, if_pos hlt]
    cases ho : wave c w fuel s with
    | done s1 =>
      rw [ho] at hw
      exact ih s1 hw
    | abort code s1 => rfl
    | blocked s1 => rfl
    | outOfFuel s1 => rfl

/-- For `n = 2^64 - 1`, one worker and chunk size 2 the dispatch loop never ends,
whatever the workers answer. -/
theorem dispatch_never_ends (mode : Mode) (debug : Bool) (w : Workers) (p0 fuel : Nat) :
    (dispatch mode debug w p0 fuel 2 (ULONG_MOD - 1) 2).isDone = false := by
  unfold dispatch
  exact whileLoop_odd _ rfl rfl rfl w fuel fuel (initCoord mode p0)
    ⟨show 1 % 2 = 1 by decide, show 1 < ULONG_MOD by decide,
      show 1 < ULONG_MOD - 1 by decide⟩

theorem coordinator_isDone (mode : Mode) (debug : Bool) (w : Workers) (p0 fuel p n z : Nat) :
    (coordinator mode debug w p0 fuel p n z).isDone = (dispatch mode debug w p0 fuel p n z).isDone := by
  unfold coordinator
  cases dispatch mode debug w p0 fuel p n z <;> rfl

/-- Counterexample to C9 as stated. With `n = 10`, one worker, chunk size 3 and
`p0` holding 3 when it is read (the coordinator's own chunk `[10,10]` reached `n`,
so `p0` was never assigned) the coordinator waits for a result from rank 2, which
was sent nothing, and never sends the sentinel: rank 1 is sent `[1,3]` and `[7,9]`
only, and the last chunk of the plan is the coordinator's own. With `n = 2^64 - 1`, one worker and chunk size 2 the cursor wraps and the
dispatch loop never ends, so no sentinel is sent either. -/
theorem coordinator_no_sentinel :
    ((coordinator Mode.fact false (programWorkers Mode.fact false 10) 3 10 2 10 3).isDone = false ∧
      sentTo 1 (coordinator Mode.fact false (programWorkers Mode.fact false 10) 3 10 2 10 3).state.trace
        = [(1, 3), (7, 9)] ∧
      ownLast (dispatch Mode.fact false (programWorkers Mode.fact false 10) 3 10 2 10 3).state.trace
        = true) ∧
    ¬ ∃ w p0 fuel, (coordinator Mode.sum false w p0 fuel 2 (ULONG_MOD - 1) 2).isDone = true := by
  refine ⟨by decide!, ?_⟩
  rintro ⟨w, p0, fuel, h⟩
  rw [coordinator_isDone, dispatch_never_ends] at h
  exact absurd h (by decide)

/-! ## Runs of the coordinator: claims C2, C3 and C8 -/

/-- C2: the sum build evaluated. The spec's scenario (`n = 10`, three workers,
automatic chunk size) ends with the accumulated result 55. With `n = 9`, one
worker and chunk size 3 the coordinator takes the chunk `[4,6]` itself and
absorbs `prod(4,6) = 120`, so the run ends with 150, not `9 * 10 / 2 = 45`. With
`n = 1` the dispatch loop is not entered and the result stays 0, not 1. -/
theorem sum_build_results :
    ((coordinator Mode.sum false (programWorkers Mode.sum false 10) 0 10 4 10 0).isDone = true ∧
      (coordinator Mode.sum false (programWorkers Mode.sum false 10) 0 10 4 10 0).state.result
        = 55) ∧
    ((coordinator Mode.sum false (programWorkers Mode.sum false 9) 0 9 2 9 3).isDone = true ∧
      (coordinator Mode.sum false (programWorkers Mode.sum false 9) 0 9 2 9 3).state.trace =
        [Event.send 1 1 3, Event.own 4 6, Event.recv 1, Event.send 1 7 9, Event.recv 1,
          Event.send 1 0 0] ∧
      (coordinator Mode.sum false (programWorkers Mode.sum false 9) 0 9 2 9 3).state.result
        = 150) ∧
    ((coordinator Mode.sum false (programWorkers Mode.sum false 1) 0 1 2 1 0).isDone = true ∧
      (coordinator Mode.sum false (programWorkers Mode.sum false 1) 0 1 2 1 0).state.result
        = 0) := by
  decide!

/-- C3: the factorial build evaluated. The spec's scenario (`n = 10`, three
workers, automatic chunk size) ends with `10! = 3628800`. With `n = 10`, one
worker and chunk size 3 the coordinator's own chunk `[10,10]` reaches `n`, and the
receive loop is bounded by `p0`, which was never assigned: if it holds 0 the result
of `[7,9]` is never absorbed and the run ends with 7200; if it holds 3 the
coordinator waits for rank 2 forever; only if it holds 2 does the run end with
`10!`. -/
theorem fact_build_results :
    ((coordinator Mode.fact false (programWorkers Mode.fact false 10) 0 10 4 10 0).isDone = true ∧
      (coordinator Mode.fact false (programWorkers Mode.fact false 10) 0 10 4 10 0).state.result
        = 3628800) ∧
    ((coordinator Mode.fact false (programWorkers Mode.fact false 10) 0 10 2 10 3).isDone = true ∧
      (coordinator Mode.fact false (programWorkers Mode.fact false 10) 0 10 2 10 3).state.result
        = 7200) ∧
    (coordinator Mode.fact false (programWorkers Mode.fact false 10) 3 10 2 10 3).isDone = false ∧
    ((coordinator Mode.fact false (programWorkers Mode.fact false 10) 2 10 2 10 3).isDone = true ∧
      (coordinator Mode.fact false (programWorkers Mode.fact false 10) 2 10 2 10 3).state.result
        = 3628800) := by
  decide!

/-- C8: the receive loop evaluated in a pass in which the coordinator's own chunk
reaches `n` (`n = 10`, one worker, chunk size 3, second pass). Rank 1 is sent
`[7,9]`; the bound of the receive loop is `p0`, never assigned. If it holds 0, no
result is received in that pass; if it holds 3, a result is received from rank 1
and then awaited from rank 2, which was sent nothing. -/
theorem recv_bound_unassigned :
    (dispatch Mode.fact false (programWorkers Mode.fact false 10) 0 10 2 10 3).state.trace =
        [Event.send 1 1 3, Event.own 4 6, Event.recv 1, Event.send 1 7 9, Event.own 10 10] ∧
      ((dispatch Mode.fact false (programWorkers Mode.fact false 10) 3 10 2 10 3).isDone = false ∧
        (dispatch Mode.fact false (programWorkers Mode.fact false 10) 3 10 2 10 3).state.trace =
          [Event.send 1 1 3, Event.own 4 6, Event.recv 1, Event.send 1 7 9, Event.own 10 10,
            Event.recv 1] ∧
        (dispatch Mode.fact false (programWorkers Mode.fact false 10) 3 10 2 10 3).state.i = 2 ∧
        (dispatch Mode.fact false (programWorkers Mode.fact false 10) 3 10 2 10 3).state.pending 2
          = []) := by
  decide!

/-! ## The verifier: claims C19, C14 and C15 -/

theorem pred_mod (n : Nat) (h1 : 1 ≤ n) (h2 : n < ULONG_MOD) :
    (n + (ULONG_MOD - 1)) % ULONG_MOD = n - 1 := by
  unfold ULONG_MOD at *
  simp only [show (2 : Nat) ^ 64 = 18446744073709551616 by norm_num] at *
  omega

theorem factorial_20_lt : Nat.factorial 20 < ULONG_MOD := by decide

theorem fact_ui_eq :
    ∀ (fuel n : Nat), 1 ≤ n → n ≤ 20 → n ≤ fuel →
      fact_ui fuel n = some (n.factorial, false) := by
  intro fuel
  induction fuel with
  | zero => intro n h1 _ h3; omega
  | succ fuel ih =>
    intro n h1 h2 h3
    rw [fact_ui]
    by_cases hn : n = 1
    · subst hn
      simp
    · have hlt : n < ULONG_MOD := lt_of_le_of_lt h2 (by decide)
      rw [if_neg hn, pred_mod n h1 hlt, ih (n - 1) (by omega) (by omega) (by omega)]
      have hfac : n * (n - 1).factorial = n.factorial := by
        obtain ⟨m, rfl⟩ : ∃ m, n = m + 1 := ⟨n - 1, by omega⟩
        simp [Nat.factorial_succ]
      have hle : n.factorial ≤ Nat.factorial 20 := Nat.factorial_le h2
      have hb : n.factorial < ULONG_MOD := lt_of_le_of_lt hle factorial_20_lt
      simp only [Option.map_some', hfac, Nat.mod_eq_of_lt hb, Bool.false_or]
      have : ¬ ULONG_MOD ≤ n.factorial := by omega
      simp [this]

/-- C19: for every `n` with `1 ≤ n ≤ 20`, the recursive helper `fact_ui(n)` returns
(fuel `n` is enough), its value computed in unsigned 64-bit arithmetic is `n!`,
and no product computed on the way exceeds `2^64 - 1`. -/
theorem fact_ui_small (fuel n : Nat) (h1 : 1 ≤ n) (h2 : n ≤ 20) (hf : n ≤ fuel) :
    fact_ui fuel n = some (n.factorial, false) ∧ n.factorial < ULONG_MOD :=
  ⟨fact_ui_eq fuel n h1 h2 hf,
    lt_of_le_of_lt (Nat.factorial_le h2) factorial_20_lt⟩

/-- Witness of C19 at `n = 20`. -/
theorem fact_ui_small_witness :
    fact_ui 20 20 = some (2432902008176640000, false) ∧
      2432902008176640000 < ULONG_MOD := by
  have h := fact_ui_small 20 20 (by decide) (by decide) (by decide)
  have e : Nat.factorial 20 = 2432902008176640000 := by decide
  rw [e] at h
  exact h

/-- Outside the two tabulated inputs the expected value of the factorial verifier
is `n!`. -/
theorem expectedFact_eq (fuel n : Nat) (h1 : 1 ≤ n) (hn : n < ULONG_MOD - 1) (hf : n ≤ fuel)
    (h50 : n ≠ 50) (h1000 : n ≠ 1000) : expectedFact fuel n = some (n.factorial : ℚ) := by
  unfold expectedFact
  by_cases h21 : n < 21
  · rw [if_pos h21, fact_ui_eq fuel n h1 (by omega) hf]
    rfl
  · rw [if_neg h21]
    by_cases h49 : n < 50
    · rw [if_pos h49, prod_eq fuel 1 n (by omega) (by omega), factorial_Icc]
    · rw [if_neg h49, if_neg h50, if_neg h1000]
      simp [mpz_fac_ui]

/-- C14: the verifier of the factorial build evaluated. For `n = 10` the expected
value is `10!`. For `n = 50` the tabulated value is read from the text `"50"`:
the expected value is 50, so the correct result `50!` is reported `WRONG` and
the value 50 is reported `OK`; likewise the expected value for `n = 1000` is
1000. -/
theorem verifier_table_values :
    expectedFact 10 10 = some 3628800 ∧
      expectedFact 50 50 = some 50 ∧
      checkFact 50 50 (Nat.factorial 50 : ℚ) = some false ∧
      checkFact 50 50 50 = some true ∧
      expectedFact 1000 1000 = some 1000 := by
  decide!

theorem half_product (n : Nat) :
    (if n % 2 ≠ 0 then (n + 1) / 2 * n else n / 2 * (n + 1)) = n * (n + 1) / 2 := by
  rcases Nat.even_or_odd' n with ⟨k, rfl | rfl⟩
  · have h : 2 * k % 2 = 0 := by omega
    simp only [h, ne_eq, not_true_eq_false, if_false]
    rw [Nat.mul_div_cancel_left k (by decide), Nat.mul_assoc,
      Nat.mul_div_cancel_left _ (by decide)]
  · have h : (2 * k + 1) % 2 ≠ 0 := by omega
    simp only [h, ne_eq, not_false_eq_true, if_true]
    have e : 2 * k + 1 + 1 = 2 * (k + 1) := by ring
    rw [e, Nat.mul_div_cancel_left _ (by decide)]
    have e2 : (2 * k + 1) * (2 * (k + 1)) = 2 * ((k + 1) * (2 * k + 1)) := by ring
    rw [e2, Nat.mul_div_cancel_left _ (by decide)]

theorem res_exp_eq (n : Nat) (hb : n * (n + 1) / 2 < ULONG_MOD) :
    res_exp n = n * (n + 1) / 2 := by
  have hle : n ≤ n * (n + 1) / 2 ∨ n ≤ 1 := by
    rcases Nat.lt_or_ge n 2 with h | h
    · right; omega
    · left
      rw [Nat.le_div_iff_mul_le (by decide)]
      nlinarith
  have hn1 : n + 1 < ULONG_MOD := by
    rcases Nat.lt_or_ge n 2 with h | h
    · exact lt_of_le_of_lt (show n + 1 ≤ 2 by omega) (by decide)
    · have : n + 1 ≤ n * (n + 1) / 2 := by
        rw [Nat.le_div_iff_mul_le (by decide)]
        nlinarith
      omega
  have hp := half_product n
  unfold res_exp
  rw [Nat.mod_eq_of_lt hn1]
  by_cases h : n % 2 ≠ 0
  · rw [if_pos h] at hp ⊢
    rw [hp, Nat.mod_eq_of_lt hb]
  · rw [if_neg h] at hp ⊢
    rw [hp, Nat.mod_eq_of_lt hb]

theorem cast_half_product (n : Nat) :
    ((n * (n + 1) / 2 : Nat) : ℚ) = (n : ℚ) * (n + 1) / 2 := by
  have h2 : 2 ∣ n * (n + 1) := (Nat.even_mul_succ_self n).two_dvd
  rw [Nat.cast_div h2 (by norm_num)]
  push_cast
  ring

/-- C15, amended: in sum mode, for every `n` (in particular every `n ≥ 1`) with
`n(n+1)/2 < 2^64`, the value
`res_exp` computed in unsigned 64-bit arithmetic equals the exact integer
`n(n+1)/2`, and the closed-form check prints `OK` exactly when the accumulated
result equals `n(n+1)/2`. -/
theorem closed_form_exact (n : Nat) (hb : n * (n + 1) / 2 < ULONG_MOD) :
    res_exp n = n * (n + 1) / 2 ∧
      ∀ result : ℚ, checkClosedForm n result = true ↔ result = (n : ℚ) * (n + 1) / 2 := by
  refine ⟨res_exp_eq n hb, ?_⟩
  intro result
  unfold checkClosedForm
  rw [res_exp_eq n hb, cast_half_product, decide_eq_true_iff]

/-- Witness of C15 at `n = 100000`. -/
theorem closed_form_exact_witness :
    res_exp 100000 = 100000 * (100000 + 1) / 2 ∧
      ∀ result : ℚ, checkClosedForm 100000 result = true ↔
        result = ((100000 : Nat) : ℚ) * (((100000 : Nat) : ℚ) + 1) / 2 :=
  closed_form_exact 100000 (by decide)

/-- Counterexample to C15 as stated: for `n = 2^33` the product `(n/2)*(n+1)` is
`2^65 + 2^32`, which wraps to `2^32`; `res_exp` differs from `n(n+1)/2` and the
closed-form check reports the correct result as `WRONG`. -/
theorem closed_form_wraps :
    res_exp (2 ^ 33) = 2 ^ 32 ∧ 2 ^ 33 * (2 ^ 33 + 1) / 2 = 36893488151714070528 ∧
      checkClosedForm (2 ^ 33) 36893488151714070528 = false := by
  decide!

/-! ## Reading the arguments: claim C16 -/

theorem atolSaturating_spec : AtolSpec atolSaturating := by
  intro ds v h hv
  unfold atolSaturating
  rw [h]
  simp only []
  rw [if_pos hv]

theorem readNat_some (ds : List Char) (v : Nat) (h : readNat ds = some v) :
    ds ≠ [] ∧ ∀ c ∈ ds, c.isDigit = true := by
  unfold readNat at h
  split at h
  · rename_i hc
    exact ⟨hc.1, List.all_eq_true.1 hc.2⟩
  · exact absurd h (by simp)

theorem suffixMultiplier_digit (c : Char) (h : c.isDigit = true) : suffixMultiplier c = none := by
  have h1 : c ≠ 'k' := by rintro rfl; exact absurd h (by decide)
  have h2 : c ≠ 'K' := by rintro rfl; exact absurd h (by decide)
  have h3 : c ≠ 'm' := by rintro rfl; exact absurd h (by decide)
  have h4 : c ≠ 'M' := by rintro rfl; exact absurd h (by decide)
  have h5 : c ≠ 'g' := by rintro rfl; exact absurd h (by decide)
  have h6 : c ≠ 'G' := by rintro rfl; exact absurd h (by decide)
  simp [suffixMultiplier, h1, h2, h3, h4, h5, h6]

theorem suffixMultiplier_pos (c : Char) (m : Nat) (h : suffixMultiplier c = some m) :
    m = 1000 ∨ m = 1000000 ∨ m = 1000000000 := by
  unfold suffixMultiplier at h
  split at h
  · left; exact (Option.some.inj h).symm
  · split at h
    · right; left; exact (Option.some.inj h).symm
    · split at h
      · right; right; exact (Option.some.inj h).symm
      · exact absurd h (by simp)

/-- The guard `val > maxVal / multiplyBy` holds exactly when the product does not
fit an `unsigned long`. -/
theorem guard_iff (val m : Nat) (hm : 0 < m) :
    val > (ULONG_MOD - 1) / m ↔ val * m > ULONG_MOD - 1 := by
  constructor
  · intro h
    have := (Nat.div_lt_iff_lt_mul hm).1 h
    omega
  · intro h
    have : (ULONG_MOD - 1) / m < val := (Nat.div_lt_iff_lt_mul hm).2 (by omega)
    exact this

/-- The result of `readIntK` once `atol` has returned the value `v ≤ LONG_MAX`. -/
theorem readIntK_core (v m : Nat) (hv : v ≤ 2 ^ 63 - 1) (hm : 0 < m) :
    (if ((v : Int) % (ULONG_MOD : Int)).toNat > (ULONG_MOD - 1) / m then
        some (ReadResult.exit 3)
      else some (ReadResult.value ((((v : Int) % (ULONG_MOD : Int)).toNat * m) % ULONG_MOD))) =
      some (if v * m ≤ ULONG_MOD - 1 then ReadResult.value (v * m) else ReadResult.exit 3) := by
  have hvM : v < ULONG_MOD := lt_of_le_of_lt hv (by decide)
  have hval : ((v : Int) % (ULONG_MOD : Int)).toNat = v := by
    have : ((v : Int) % (ULONG_MOD : Int)) = ((v % ULONG_MOD : Nat) : Int) := by
      push_cast; rfl
    rw [this, Nat.mod_eq_of_lt hvM]
    simp
  rw [hval]
  by_cases h : v * m ≤ ULONG_MOD - 1
  · have hg : ¬ v > (ULONG_MOD - 1) / m := by
      rw [guard_iff v m hm]; omega
    have hlt : v * m < ULONG_MOD := by
      have : 0 < ULONG_MOD := by decide
      omega
    rw [if_neg hg, if_pos h, Nat.mod_eq_of_lt hlt]
  · have hg : v > (ULONG_MOD - 1) / m := by
      rw [guard_iff v m hm]; omega
    rw [if_pos hg, if_neg h]

/-- C16, amended: for every decimal numeral `ds` of value `v ≤ 2^63 - 1` (`LONG_MAX`),
alone or followed by one suffix character, `readIntK` returns `v*m`, with `m = 10^3`
for `k`/`K`, `10^6` for `m`/`M`, `10^9` for `g`/`G` and 1 without suffix, whenever
`v*m ≤ 2^64 - 1`, and ends the program (with `exit(3)`) exactly when
`v*m > 2^64 - 1`. -/
theorem readIntK_spec (atol : List Char → Int) (hatol : AtolSpec atol) (ds : List Char)
    (v : Nat) (hds : readNat ds = some v) (hv : v ≤ 2 ^ 63 - 1) :
    readIntK atol ds =
        some (if v * 1 ≤ ULONG_MOD - 1 then ReadResult.value (v * 1) else ReadResult.exit 3) ∧
      ∀ c m, suffixMultiplier c = some m →
        readIntK atol (ds ++ [c]) =
          some (if v * m ≤ ULONG_MOD - 1 then ReadResult.value (v * m) else ReadResult.exit 3) := by
  obtain ⟨hne, hdig⟩ := readNat_some ds v hds
  constructor
  · obtain ⟨c, hc⟩ : ∃ c, ds.getLast? = some c := by
      cases h : ds.getLast? with
      | none => exact absurd (List.getLast?_eq_none_iff.1 h) hne
      | some c => exact ⟨c, rfl⟩
    have hcd : c.isDigit = true := hdig c (List.mem_of_getLast?_eq_some hc)
    have hs := suffixMultiplier_digit c hcd
    unfold readIntK
    rw [hc]
    simp only [hs, Option.getD_none, Option.isSome_none, Bool.false_eq_true, if_false,
      hatol ds v hds hv]
    exact readIntK_core v 1 hv (by decide)
  · intro c m hcm
    have hm : 0 < m := by
      rcases suffixMultiplier_pos c m hcm with h | h | h <;> omega
    have hlast : (ds ++ [c]).getLast? = some c := by simp
    unfold readIntK
    rw [hlast]
    simp only [hcm, Option.getD_some, Option.isSome_some, if_true,
      List.dropLast_concat, hatol ds v hds hv]
    exact readIntK_core v m hv hm

/-- Witness of C16: the numeral `100`, alone and with a suffix. -/
theorem readIntK_spec_witness :
    readIntK atolSaturating (Nat.toDigits 10 100) =
        some (if 100 * 1 ≤ ULONG_MOD - 1 then ReadResult.value (100 * 1)
          else ReadResult.exit 3) ∧
      ∀ c m, suffixMultiplier c = some m →
        readIntK atolSaturating (Nat.toDigits 10 100 ++ [c]) =
          some (if 100 * m ≤ ULONG_MOD - 1 then ReadResult.value (100 * m)
            else ReadResult.exit 3) :=
  readIntK_spec atolSaturating atolSaturating_spec (Nat.toDigits 10 100) 100
    (readNat_toDigits 100) (by decide)

theorem toNat_emod_lt (x : Int) : (x % (ULONG_MOD : Int)).toNat < ULONG_MOD := by
  have hpos : (0 : Int) < (ULONG_MOD : Int) := by decide
  have h1 := Int.emod_lt_of_pos x hpos
  have h2 := Int.emod_nonneg x (ne_of_gt hpos)
  omega

/-- Counterexample to C16 as stated. The numeral of `2^64` without suffix has
`v*m = 2^64 > 2^64 - 1`, yet whatever `long` the call of `atol` returns, the guard
`val > maxVal/1` cannot hold and `readIntK` does not end the program. And for the
numeral of `2^63`, where `v*m ≤ 2^64 - 1`, an `atol` that saturates at `LONG_MAX`
makes `readIntK` return `2^63 - 1`, not `v*m`. -/
theorem readIntK_beyond_long :
    (readNat (Nat.toDigits 10 (2 ^ 64)) = some (2 ^ 64) ∧
      ¬ ∃ atol, readIntK atol (Nat.toDigits 10 (2 ^ 64)) = some (ReadResult.exit 3)) ∧
    readIntK atolSaturating (Nat.toDigits 10 (2 ^ 63)) = some (ReadResult.value (2 ^ 63 - 1)) := by
  refine ⟨⟨readNat_toDigits _, ?_⟩, by decide!⟩
  rintro ⟨atol, h⟩
  have hlast : (Nat.toDigits 10 (2 ^ 64)).getLast? = some '6' := by decide!
  unfold readIntK at h
  rw [hlast] at h
  have hs : suffixMultiplier '6' = none := by decide
  simp only [hs, Option.getD_none, Option.isSome_none, Bool.false_eq_true, if_false,
    Nat.div_one] at h
  have hlt := toNat_emod_lt (atol (Nat.toDigits 10 (2 ^ 64)))
  split at h
  · omega
  · exact absurd h (by simp)

/-! ## The coordinator's own chunk and the oversize abort: claims C17 and C13 -/

/-- C17: the coordinator's own chunk evaluated. In the sum build with `n = 9`, one
worker and chunk size 3, the first pass sends `[1,3]` to rank 1 and the coordinator
takes `[4,6]` itself; it absorbs `prod(4,6) = 120`, while the configured reduction
of `[4,6]` is `sum(4,6) = 15`, which is also what a worker sends back for that
range. In the factorial build the same chunk gives 120, the configured reduction. -/
theorem own_chunk_value :
    ((ownChunk (mkConfig Mode.sum false 2 9 3) 9
        (sendLoop (mkConfig Mode.sum false 2 9 3) 1 (initCoord Mode.sum 0))).state.trace =
          [Event.send 1 1 3, Event.own 4 6] ∧
      (ownChunk (mkConfig Mode.sum false 2 9 3) 9
        (sendLoop (mkConfig Mode.sum false 2 9 3) 1 (initCoord Mode.sum 0))).state.result = 120 ∧
      reduce Mode.sum 9 4 6 = some 15 ∧
      programWorkers Mode.sum false 9 1 4 6 = some ['1', '5']) ∧
    ((ownChunk (mkConfig Mode.fact false 2 9 3) 9
        (sendLoop (mkConfig Mode.fact false 2 9 3) 1 (initCoord Mode.fact 0))).state.result = 120 ∧
      reduce Mode.fact 9 4 6 = some 120) := by
  decide!

theorem rangeValue_fact_cast (f t : Nat) :
    rangeValue Mode.fact f t = ((∏ j in Finset.Icc f t, j : ℕ) : ℚ) := by
  simp [rangeValue]

theorem rangeValue_cast (mode : Mode) (f t : Nat) : ∃ N : Nat, rangeValue mode f t = (N : ℚ) := by
  cases mode with
  | sum => exact ⟨_, rangeValue_sum_cast f t⟩
  | fact => exact ⟨_, rangeValue_fact_cast f t⟩

/-- In a `DEBUG` build a result whose text is too long makes the worker abort the
group with code 7, before the text is written. -/
theorem workerStep_oversize_debug (fuel from_ to_ : Nat) (mode : Mode)
    (hne : ¬ (from_ = 0 ∧ to_ = 0)) (hto : to_ + 1 < ULONG_MOD) (hf : to_ + 1 ≤ fuel + from_)
    (hlen : GMP_STR_SIZE < (gmp_sprintf_Qd (rangeValue mode from_ to_)).length + 4)
    (hfit : (gmp_sprintf_Qd (rangeValue mode from_ to_)).length + 4 < ULONG_MOD) :
    workerStep mode true fuel from_ to_ = WorkerStep.abort 7 := by
  obtain ⟨N, hN⟩ := rangeValue_cast mode from_ to_
  have hsz : getSize (rangeValue mode from_ to_) > GMP_STR_SIZE := by
    rw [hN, getSize_natCast]
    rw [hN, sprintf_natCast] at hlen hfit
    rw [Nat.mod_eq_of_lt (by omega)]
    omega
  unfold workerStep
  rw [if_neg hne, reduce_eq mode fuel from_ to_ hto hf]
  simp only []
  rw [if_pos ⟨trivial, hsz⟩]

/-- C13, amended: for every chunk whose reduction returns and whose encoded text
exceeds `GMP_STR_SIZE` characters, the worker does not send a (truncated) result:
it aborts the whole group, with code 2 in the default build and with code 7 in a
`DEBUG` build. -/
theorem worker_abort_code (mode : Mode) (debug : Bool) (fuel from_ to_ : Nat)
    (hne : ¬ (from_ = 0 ∧ to_ = 0)) (hto : to_ < ULONG_MOD - 1) (hf : to_ + 1 ≤ fuel + from_)
    (hlen : GMP_STR_SIZE < (gmp_sprintf_Qd (rangeValue mode from_ to_)).length)
    (hfit : debug = true →
      (gmp_sprintf_Qd (rangeValue mode from_ to_)).length + 4 < ULONG_MOD) :
    workerStep mode debug fuel from_ to_ = WorkerStep.abort (if debug = true then 7 else 2) := by
  cases debug with
  | false =>
    simp only [Bool.false_eq_true, if_false]
    exact workerStep_oversize fuel from_ to_ mode hne (by omega) hf (le_of_lt hlen)
  | true =>
    simp only [if_true]
    exact workerStep_oversize_debug fuel from_ to_ mode hne (by omega) hf (by omega) (hfit rfl)

theorem oversize_factorial_text :
    GMP_STR_SIZE < (gmp_sprintf_Qd (rangeValue Mode.fact 1 9000010)).length := by
  have h := sprintf_factorial_length 9000010 (by decide)
  rw [rangeValue, factorial_Icc]
  have e : GMP_STR_SIZE < 9000010 - 10 + 1 := by decide
  exact lt_of_lt_of_le e h

/-- Witness of C13: the factorial build, default switches, range `[1, 9000010]`. -/
theorem worker_abort_code_witness :
    workerStep Mode.fact false 9000010 1 9000010 =
      WorkerStep.abort (if false = true then 7 else 2) :=
  worker_abort_code Mode.fact false 9000010 1 9000010 (by decide) (by decide) (by decide)
    oversize_factorial_text (by decide)

/-- Counterexample to C13 as stated: in the default build (`DEBUG` undefined) the
worker that reduced `[1, 9000011]`, whose text exceeds `GMP_STR_SIZE` characters,
aborts the group with code 2, which is neither 6 nor 7. -/
theorem worker_abort_not_6_7 :
    GMP_STR_SIZE < (gmp_sprintf_Qd (rangeValue Mode.fact 1 9000011)).length ∧
      workerStep Mode.fact false 9000011 1 9000011 = WorkerStep.abort 2 := by
  have hlen : GMP_STR_SIZE < (gmp_sprintf_Qd (rangeValue Mode.fact 1 9000011)).length := by
    have h := sprintf_factorial_length 9000011 (by decide)
    rw [rangeValue, factorial_Icc]
    have e : GMP_STR_SIZE < 9000011 - 10 + 1 := by decide
    exact lt_of_lt_of_le e h
  exact ⟨hlen, workerStep_oversize 9000011 1 9000011 Mode.fact (by decide) (by decide)
    (by decide) (le_of_lt hlen)⟩

/-! ## Splitting a range: claim C20 -/

theorem rangeValue_split (mode : Mode) (a b c : Nat) (hab : a ≤ b) (hbc : b < c) :
    rangeValue mode a c = absorb mode (rangeValue mode a b) (rangeValue mode (b + 1) c) := by
  have e1 : Finset.Icc a c = Finset.Ico a (c + 1) := (Nat.Ico_succ_right _ _).symm
  have e2 : Finset.Icc a b = Finset.Ico a (b + 1) := (Nat.Ico_succ_right _ _).symm
  have e3 : Finset.Icc (b + 1) c = Finset.Ico (b + 1) (c + 1) := (Nat.Ico_succ_right _ _).symm
  cases mode with
  | sum =>
    simp only [rangeValue, absorb, e1, e2, e3]
    exact (Finset.sum_Ico_consecutive _ (by omega) (by omega)).symm
  | fact =>
    simp only [rangeValue, absorb, e1, e2, e3]
    exact (Finset.prod_Ico_consecutive _ (by omega) (by omega)).symm

theorem chainEnd_inside (rs : List (Nat × Nat)) (a b : Nat) (h : chainEnd a rs = some b) :
    ∀ e ∈ rs, a ≤ e.1 ∧ e.1 ≤ e.2 ∧ e.2 + 1 ≤ b := by
  induction rs generalizing a with
  | nil => simp
  | cons r rs ih =>
    obtain ⟨f0, t0⟩ := r
    simp only [chainEnd] at h
    by_cases hc : f0 = a ∧ f0 ≤ t0
    · rw [if_pos hc] at h
      have hlow := (chainEnd_lower rs _ _ h).1
      intro e he
      rcases List.mem_cons.1 he with rfl | he
      · exact ⟨by simp [hc.1], hc.2, by simpa using hlow⟩
      · have := ih _ h e he
        omega
    · rw [if_neg hc] at h
      exact absurd h (by simp)

/-- The value of the integers from `a` up to `b - 1` under the mode's operator. -/
theorem chain_fold (mode : Mode) (rs : List (Nat × Nat)) :
    ∀ (a b : Nat) (x : ℚ), chainEnd a rs = some b →
      (rs.map fun r => rangeValue mode r.1 r.2).foldl (absorb mode) x =
        absorb mode x (match mode with
          | Mode.sum => ∑ j in Finset.Ico a b, (j : ℚ)
          | Mode.fact => ∏ j in Finset.Ico a b, (j : ℚ)) := by
  induction rs with
  | nil =>
    intro a b x h
    simp only [chainEnd, Option.some.injEq] at h
    subst h
    cases mode <;> simp [absorb]
  | cons r rs ih =>
    intro a b x h
    obtain ⟨f0, t0⟩ := r
    simp only [chainEnd] at h
    by_cases hc : f0 = a ∧ f0 ≤ t0
    · rw [if_pos hc] at h
      obtain ⟨rfl, hft⟩ := hc
      have hb := (chainEnd_lower rs _ _ h).1
      rw [List.map_cons, List.foldl_cons, ih _ _ _ h]
      have e2 : Finset.Icc f0 t0 = Finset.Ico f0 (t0 + 1) := (Nat.Ico_succ_right _ _).symm
      cases mode with
      | sum =>
        simp only [rangeValue, absorb, e2]
        rw [← Finset.sum_Ico_consecutive _ (show f0 ≤ t0 + 1 by omega) hb]
        ring
      | fact =>
        simp only [rangeValue, absorb, e2]
        rw [← Finset.prod_Ico_consecutive _ (show f0 ≤ t0 + 1 by omega) hb]
        ring
    · rw [if_neg hc] at h
      exact absurd h (by simp)

theorem accumulate_chain (mode : Mode) (n : Nat) (rs : List (Nat × Nat))
    (h : chainEnd 1 rs = some (n + 1)) :
    accumulate mode (rs.map fun r => rangeValue mode r.1 r.2) = rangeValue mode 1 n := by
  unfold accumulate
  rw [chain_fold mode rs 1 (n + 1) _ h]
  have e : Finset.Ico 1 (n + 1) = Finset.Icc 1 n := Nat.Ico_succ_right _ _
  cases mode <;> simp [absorb, initResult, rangeValue, e]

/-- C20, amended: for all `a ≤ b < c < 2^64 - 1`, `sum(a,c) = sum(a,b) + sum(b+1,c)`
and `prod(a,c) = prod(a,b) * prod(b+1,c)` (all six calls return); hence, for
`n < 2^64 - 1`, reducing the chunks of any partition of `[1,n]` and combining them
from the mode identity gives the same value as reducing `[1,n]` in one call. -/
theorem reduce_split (fuel a b c : Nat) (hab : a ≤ b) (hbc : b < c)
    (hc : c < ULONG_MOD - 1) (hf : c + 1 ≤ fuel + a) :
    (∃ x y, sum fuel a b = some x ∧ sum fuel (b + 1) c = some y ∧
        sum fuel a c = some (x + y)) ∧
      (∃ x y, prod fuel a b = some x ∧ prod fuel (b + 1) c = some y ∧
        prod fuel a c = some (x * y)) ∧
      ∀ (mode : Mode) (n : Nat) (rs : List (Nat × Nat)), Partitions n rs →
        n < ULONG_MOD - 1 → n ≤ fuel →
        ∃ vs, (rs.map fun r => reduce mode fuel r.1 r.2) = vs.map some ∧
          reduce mode fuel 1 n = some (accumulate mode vs) := by
  refine ⟨⟨_, _, sum_eq fuel a b (by omega) (by omega), sum_eq fuel (b + 1) c (by omega) (by omega),
    ?_⟩, ⟨_, _, prod_eq fuel a b (by omega) (by omega),
    prod_eq fuel (b + 1) c (by omega) (by omega), ?_⟩, ?_⟩
  · rw [sum_eq fuel a c (by omega) hf]
    exact congrArg some (rangeValue_split Mode.sum a b c hab hbc)
  · rw [prod_eq fuel a c (by omega) hf]
    exact congrArg some (rangeValue_split Mode.fact a b c hab hbc)
  · intro mode n rs hP hn hnf
    refine ⟨rs.map fun r => rangeValue mode r.1 r.2, ?_, ?_⟩
    · rw [List.map_map]
      apply List.map_congr_left
      intro r hr
      obtain ⟨h1, h2, h3⟩ := chainEnd_inside rs 1 (n + 1) hP.2 r hr
      exact reduce_eq mode fuel r.1 r.2 (by omega) (by omega)
    · rw [reduce_eq mode fuel 1 n (by omega) (by omega), accumulate_chain mode n rs hP.2]

/-- Witness of C20: the range `[1,9]` cut after 3. -/
theorem reduce_split_witness :
    (∃ x y, sum 9 1 3 = some x ∧ sum 9 (3 + 1) 9 = some y ∧ sum 9 1 9 = some (x + y)) ∧
      (∃ x y, prod 9 1 3 = some x ∧ prod 9 (3 + 1) 9 = some y ∧
        prod 9 1 9 = some (x * y)) ∧
      ∀ (mode : Mode) (n : Nat) (rs : List (Nat × Nat)), Partitions n rs →
        n < ULONG_MOD - 1 → n ≤ 9 →
        ∃ vs, (rs.map fun r => reduce mode 9 r.1 r.2) = vs.map some ∧
          reduce mode 9 1 n = some (accumulate mode vs) :=
  reduce_split 9 1 3 9 (by decide) (by decide) (by decide) (by decide)

/-- Counterexample to C20 as stated, at `a = 5`, `b = 7`, `c = 2^64 - 1`: `sum(5,7)`
returns 18, but `sum(5, 2^64 - 1)` never returns, so it equals no sum of two
returned values. -/
theorem reduce_split_max :
    sum 3 5 7 = some 18 ∧ ¬ ∃ fuel v, sum fuel 5 (ULONG_MOD - 1) = some v := by
  refine ⟨by decide!, ?_⟩
  rintro ⟨fuel, v, h⟩
  simp [sum, sumLoop_max_none fuel 5 0 (by decide)] at h

/-! ## Chunk sizes in automatic mode -/

theorem sendLoop_auto (c : Config) (hr : c.r ≠ c.p) (hdiv : c.n = (c.p - 1) * c.z + c.r)
    (hrW : c.r < c.p - 1) (hnM : c.n < ULONG_MOD) :
    ∀ (k : Nat) (s : Coord), s.i + k = c.p → 1 ≤ s.i →
      s.from_ = (s.i - 1) * c.z + min (s.i - 1) c.r + 1 → s.from_ ≤ c.n →
      (∀ e ∈ s.trace, AutoOk c e) →
      (∀ e ∈ (sendLoop c k s).trace, AutoOk c e) ∧ (sendLoop c k s).to_ = c.n := by
  intro k
  induction k with
  | zero =>
    intro s hik hi1 hfrom hle _
    exfalso
    have hi : s.i - 1 = c.p - 1 := by omega
    rw [hi, Nat.min_eq_right (le_of_lt hrW)] at hfrom
    omega
  | succ k ih =>
    intro s hik hi1 hfrom hle hall
    have hiW : s.i ≤ c.p - 1 := by omega
    have hmul : s.i * c.z = (s.i - 1) * c.z + c.z := by
      obtain ⟨j, hj⟩ : ∃ j, s.i = j + 1 := ⟨s.i - 1, by omega⟩
      rw [hj, Nat.add_sub_cancel, Nat.succ_mul]
    have hmulle : s.i * c.z ≤ (c.p - 1) * c.z := Nat.mul_le_mul_right _ hiW
    have hM : ULONG_MOD = 18446744073709551616 := by unfold ULONG_MOD; norm_num
    -- the upper end of the chunk, not clipped and not wrapped
    have ht : chunkEnd c s.i s.from_ = s.i * c.z + min s.i c.r ∧
        s.from_ ≤ chunkEnd c s.i s.from_ ∧
        chunkEnd c s.i s.from_ + 1 - s.from_ = c.z + (if s.i ≤ c.r then 1 else 0) := by
      unfold chunkEnd
      rw [if_neg hr]
      by_cases hir : s.i ≤ c.r
      · have hmin1 : min (s.i - 1) c.r = s.i - 1 := Nat.min_eq_left (by omega)
        have hmin2 : min s.i c.r = s.i := Nat.min_eq_left hir
        rw [hmin1] at hfrom
        rw [hmin2]
        have hraw : (s.from_ + c.z) % ULONG_MOD = s.i * c.z + s.i := by
          rw [Nat.mod_eq_of_lt (by omega)]
          omega
        simp only [hir, if_true, hraw]
        have hnc : ¬ s.i * c.z + s.i > c.n := by omega
        rw [if_neg hnc]
        omega
      · have hmin1 : min (s.i - 1) c.r = c.r := Nat.min_eq_right (by omega)
        have hmin2 : min s.i c.r = c.r := Nat.min_eq_right (by omega)
        rw [hmin1] at hfrom
        rw [hmin2]
        have hz : 1 ≤ c.z := by
          rcases Nat.eq_zero_or_pos c.z with h | h
          · rw [h] at hfrom hdiv
            simp only [Nat.mul_zero, Nat.zero_add] at hfrom hdiv
            omega
          · exact h
        have hraw : (s.from_ + c.z + (ULONG_MOD - 1)) % ULONG_MOD = s.i * c.z + c.r := by
          rw [hM]
          omega
        simp only [hir, if_false, hraw]
        have hnc : ¬ s.i * c.z + c.r > c.n := by omega
        rw [if_neg hnc]
        omega
    obtain ⟨hte, hft, hsize⟩ := ht
    have hminle : min s.i c.r ≤ c.r := Nat.min_le_right _ _
    have htn : chunkEnd c s.i s.from_ ≤ c.n := by rw [hte]; omega
    have hmod : (chunkEnd c s.i s.from_ + 1) % ULONG_MOD = chunkEnd c s.i s.from_ + 1 ∨
        chunkEnd c s.i s.from_ = c.n := by
      by_cases h : chunkEnd c s.i s.from_ = c.n
      · exact Or.inr h
      · left
        exact Nat.mod_eq_of_lt (by omega)
    have hall2 : ∀ e ∈ s.trace ++ [Event.send s.i s.from_ (chunkEnd c s.i s.from_)],
        AutoOk c e := by
      intro e he
      rcases List.mem_append.1 he with he | he
      · exact hall e he
      · simp only [List.mem_singleton] at he
        subst he
        exact ⟨hft, hsize⟩
    rw [sendLoop]
    by_cases htc : chunkEnd c s.i s.from_ = c.n
    · simp only [htc, if_true]
      refine ⟨?_, trivial⟩
      intro e he
      have he' : e ∈ s.trace ++ [Event.send s.i s.from_ c.n] := he
      rw [← htc] at he'
      exact hall2 e he'
    · simp only [htc, if_false]
      have hmod' : (chunkEnd c s.i s.from_ + 1) % ULONG_MOD = chunkEnd c s.i s.from_ + 1 := by
        rcases hmod with h | h
        · exact h
        · exact absurd h htc
      apply ih
      · show s.i + 1 + k = c.p
        omega
      · show 1 ≤ s.i + 1
        omega
      · show (chunkEnd c s.i s.from_ + 1) % ULONG_MOD =
          (s.i + 1 - 1) * c.z + min (s.i + 1 - 1) c.r + 1
        rw [hmod', hte, Nat.add_sub_cancel]
      · show (chunkEnd c s.i s.from_ + 1) % ULONG_MOD ≤ c.n
        rw [hmod']
        omega
      · exact hall2

/-- The receive loop only appends `recv` events to the trace. -/
theorem recvLoop_trace (c : Config) (w : Workers) :
    ∀ (k : Nat) (s : Coord), ∃ l, (recvLoop c w k s).state.trace = s.trace ++ l ∧
      ∀ e ∈ l, ∃ i, e = Event.recv i := by
  intro k
  induction k with
  | zero => intro s; exact ⟨[], by simp [recvLoop, Outcome.state], by simp⟩
  | succ k ih =>
    intro s
    have hnil : ∃ l, s.trace = s.trace ++ l ∧ ∀ e ∈ l, ∃ i, e = Event.recv i :=
      ⟨[], by simp, by simp⟩
    rw [recvLoop]
    cases s.pending s.i with
    | nil => exact hnil
    | cons e rest =>
      obtain ⟨f, t⟩ := e
      simp only []
      cases w s.i f t with
      | none => exact hnil
      | some buf =>
        simp only []
        by_cases h0 : buf.length = 0
        · rw [if_pos h0]; exact hnil
        · rw [if_neg h0]
          by_cases hd : c.debug = true ∧ buf.length > GMP_STR_SIZE
          · rw [if_pos hd]; exact hnil
          · rw [if_neg hd]
            cases gmp_sscanf_Qd buf with
            | none => exact hnil
            | some res =>
              obtain ⟨l, hl, hall⟩ := ih
                { s with
                  pending := Function.update s.pending s.i rest
                  result := absorb c.mode s.result res
                  trace := s.trace ++ [Event.recv s.i]
                  i := s.i + 1 }
              refine ⟨Event.recv s.i :: l, ?_, ?_⟩
              · rw [hl]
                show s.trace ++ [Event.recv s.i] ++ l = s.trace ++ Event.recv s.i :: l
                simp
              · intro e he
                rcases List.mem_cons.1 he with rfl | he
                · exact ⟨_, rfl⟩
                · exact hall e he

theorem recvLoop_auto (c : Config) (w : Workers) (k : Nat) (s : Coord)
    (h : ∀ e ∈ s.trace, AutoOk c e) : ∀ e ∈ (recvLoop c w k s).state.trace, AutoOk c e := by
  obtain ⟨l, hl, hall⟩ := recvLoop_trace c w k s
  rw [hl]
  intro e he
  rcases List.mem_append.1 he with he | he
  · exact h e he
  · obtain ⟨i, rfl⟩ := hall e he
    exact trivial

/-- In automatic mode the dispatch loop makes one pass: every worker that is sent a
chunk gets one of the prescribed size, and the coordinator takes none. -/
theorem whileLoop_auto (c : Config) (hp : 2 ≤ c.p) (hr : c.r ≠ c.p)
    (hdiv : c.n = (c.p - 1) * c.z + c.r) (hrW : c.r < c.p - 1) (hnM : c.n < ULONG_MOD)
    (w : Workers) (fuel k : Nat) (s : Coord) (hfrom : s.from_ = 1) (htr : s.trace = []) :
    ∀ e ∈ (whileLoop c w fuel k s).state.trace, AutoOk c e := by
  have hnil : ∀ e ∈ s.trace, AutoOk c e := by rw [htr]; simp
  cases k with
  | zero =>
    unfold whileLoop
    split <;> exact hnil
  | succ k =>
    rw [whileLoop]
    by_cases hto : s.to_ < c.n
    · rw [if_pos hto]
      have hS := sendLoop_auto c hr hdiv hrW hnM (c.p - 1) { s with i := 1 }
        (by show 1 + (c.p - 1) = c.p; omega) (le_refl 1)
        (by show s.from_ = (1 - 1) * c.z + min (1 - 1) c.r + 1; simp [hfrom])
        (by show s.from_ ≤ c.n; omega) hnil
      obtain ⟨hall, hend⟩ := hS
      have hown := ownChunk_final c fuel _ hend
      rw [wave_eq c w fuel s _ hown, if_pos hend]
      have hR := recvLoop_auto c w ((sendLoop c (c.p - 1) { s with i := 1 }).p0 - 1)
        { sendLoop c (c.p - 1) { s with i := 1 } with i := 1 } hall
      have hC := (recvLoop_cursor c w ((sendLoop c (c.p - 1) { s with i := 1 }).p0 - 1)
        { sendLoop c (c.p - 1) { s with i := 1 } with i := 1 }).2
      cases ho : recvLoop c w ((sendLoop c (c.p - 1) { s with i := 1 }).p0 - 1)
          { sendLoop c (c.p - 1) { s with i := 1 } with i := 1 } with
      | done s1 =>
        rw [ho] at hR hC
        simp only []
        have hto1 : s1.to_ = c.n := by rw [← hend]; exact hC
        rw [whileLoop_done c w fuel k s1 (by omega)]
        exact hR
      | abort code s1 => rw [ho] at hR; exact hR
      | blocked s1 => rw [ho] at hR; exact hR
      | outOfFuel s1 => rw [ho] at hR; exact hR
    · rw [if_neg hto]
      exact hnil

theorem dispatch_auto (mode : Mode) (debug : Bool) (w : Workers) (p0 fuel nw n : Nat)
    (h1 : 1 ≤ nw) (hn : n < ULONG_MOD) :
    ∀ e ∈ (dispatch mode debug w p0 fuel (nw + 1) n 0).state.trace,
      AutoOk (mkConfig mode debug (nw + 1) n 0) e := by
  have hc : mkConfig mode debug (nw + 1) n 0 =
      { mode := mode, debug := debug, n := n, p := nw + 1, z := n / nw, r := n % nw } := by
    simp [mkConfig]
  have hlt : n % nw < nw := Nat.mod_lt _ (by omega)
  unfold dispatch
  rw [hc]
  apply whileLoop_auto
  · show 2 ≤ nw + 1
    omega
  · show n % nw ≠ nw + 1
    omega
  · show n = (nw + 1 - 1) * (n / nw) + n % nw
    rw [Nat.add_sub_cancel]
    exact (Nat.div_add_mod n nw).symm
  · show n % nw < nw + 1 - 1
    rw [Nat.add_sub_cancel]
    exact hlt
  · exact hn
  · rfl
  · rfl

/-! ## The round-robin of the dispatch loop -/

theorem chunks_append (a b : List Event) : chunks (a ++ b) = chunks a ++ chunks b := by
  unfold chunks
  exact List.filter_append _ _

theorem chunks_recvs (l : List Event) (h : ∀ e ∈ l, ∃ i, e = Event.recv i) : chunks l = [] := by
  unfold chunks
  rw [List.filter_eq_nil_iff]
  intro e he
  obtain ⟨i, rfl⟩ := h e he
  simp [isChunk]

theorem ranges_recvs (l : List Event) (h : ∀ e ∈ l, ∃ i, e = Event.recv i) : ranges l = [] := by
  induction l with
  | nil => rfl
  | cons e es ih =>
    obtain ⟨i, rfl⟩ := h e (List.mem_cons_self _ _)
    simp only [ranges]
    exact ih (fun e he => h e (List.mem_cons_of_mem _ he))

theorem Shaped_snoc (c : Config) (e : Event) :
    ∀ (l : List Event) (k : Nat), Shaped c k l → ChunkOk c (k + l.length) e →
      Shaped c k (l ++ [e]) := by
  intro l
  induction l with
  | nil =>
    intro k _ h
    exact ⟨by simpa using h, trivial⟩
  | cons a l ih =>
    intro k hs h
    refine ⟨hs.1, ih (k + 1) hs.2 ?_⟩
    have e1 : k + 1 + l.length = k + (a :: l).length := by simp only [List.length_cons]; omega
    rw [e1]
    exact h

theorem Shaped_get (c : Config) :
    ∀ (l : List Event) (j k : Nat) (e : Event), Shaped c j l → l[k]? = some e →
      ChunkOk c (j + k) e := by
  intro l
  induction l with
  | nil => intro j k e _ h; simp at h
  | cons a l ih =>
    intro j k e hs h
    cases k with
    | zero =>
      simp only [List.getElem?_cons_zero, Option.some.injEq] at h
      subst h
      exact hs.1
    | succ k =>
      simp only [List.getElem?_cons_succ] at h
      have := ih (j + 1) k e hs.2 h
      have e1 : j + 1 + k = j + (k + 1) := by omega
      rw [e1] at this
      exact this

theorem succ_mod_lt (a p : Nat) (h : a % p + 1 < p) : (a + 1) % p = a % p + 1 := by
  rw [Nat.add_mod, Nat.mod_eq_of_lt (by omega : 1 < p), Nat.mod_eq_of_lt h]

theorem succ_mod_last (a p : Nat) (h : a % p + 1 = p) : (a + 1) % p = 0 := by
  rcases Nat.lt_or_ge 1 p with h1 | h1
  · rw [Nat.add_mod, Nat.mod_eq_of_lt h1, h, Nat.mod_self]
  · have : p = 1 := by omega
    rw [this, Nat.mod_one]

theorem sendLoop_shaped (c : Config) :
    ∀ (k : Nat) (s : Coord), s.i + k = c.p → Shaped c 0 (chunks s.trace) →
      (chunks s.trace).length % c.p + 1 = s.i → s.to_ ≠ c.n →
      Shaped c 0 (chunks (sendLoop c k s).trace) ∧
        ((sendLoop c k s).to_ = c.n ∨
          ((sendLoop c k s).i = c.p ∧
            (chunks (sendLoop c k s).trace).length % c.p + 1 = c.p)) := by
  intro k
  induction k with
  | zero =>
    intro s hik hs hlen _
    have hi : s.i = c.p := by omega
    exact ⟨hs, Or.inr ⟨hi, by rw [← hi] at hlen ⊢; exact hlen⟩⟩
  | succ k ih =>
    intro s hik hs hlen _
    have hch : chunks (s.trace ++ [Event.send s.i s.from_ (chunkEnd c s.i s.from_)]) =
        chunks s.trace ++ [Event.send s.i s.from_ (chunkEnd c s.i s.from_)] := by
      rw [chunks_append]
      rfl
    have hs2 : Shaped c 0 (chunks (s.trace ++
        [Event.send s.i s.from_ (chunkEnd c s.i s.from_)])) := by
      rw [hch]
      apply Shaped_snoc c _ _ 0 hs
      rw [Nat.zero_add]
      exact ⟨by omega, hlen.symm, rfl⟩
    rw [sendLoop]
    by_cases htc : chunkEnd c s.i s.from_ = c.n
    · simp only [htc, if_true]
      refine ⟨?_, Or.inl trivial⟩
      rw [← htc]
      exact hs2
    · simp only [htc, if_false]
      apply ih
      · show s.i + 1 + k = c.p
        omega
      · exact hs2
      · show (chunks (s.trace ++ [Event.send s.i s.from_ (chunkEnd c s.i s.from_)])).length
          % c.p + 1 = s.i + 1
        rw [hch, List.length_append, List.length_singleton, succ_mod_lt _ _ (by omega)]
        omega
      · exact htc

theorem ownChunk_shaped (c : Config) (fuel : Nat) (s : Coord)
    (hs : Shaped c 0 (chunks s.trace)) (hi : s.i = c.p)
    (hlen : (chunks s.trace).length % c.p + 1 = c.p) :
    Shaped c 0 (chunks (ownChunk c fuel s).state.trace) ∧
      (s.to_ ≠ c.n → ∀ s1, ownChunk c fuel s = Outcome.done s1 →
        (chunks s1.trace).length % c.p = 0) := by
  unfold ownChunk
  by_cases hto : s.to_ ≠ c.n
  · rw [if_pos hto]
    cases hprod : prod fuel s.from_ (chunkEnd c s.i s.from_) with
    | none =>
      simp only [hprod]
      refine ⟨hs, ?_⟩
      intro _ s1 h
      simp at h
    | some tres =>
      simp only [hprod]
      have hch : chunks (s.trace ++ [Event.own s.from_ (chunkEnd c s.i s.from_)]) =
          chunks s.trace ++ [Event.own s.from_ (chunkEnd c s.i s.from_)] := by
        rw [chunks_append]
        rfl
      refine ⟨?_, ?_⟩
      · show Shaped c 0 (chunks (s.trace ++ [Event.own s.from_ (chunkEnd c s.i s.from_)]))
        rw [hch]
        apply Shaped_snoc c _ _ 0 hs
        rw [Nat.zero_add, hi]
        exact ⟨hlen, rfl⟩
      · intro _ s1 h
        simp only [Outcome.done.injEq] at h
        rw [← h]
        show (chunks (s.trace ++ [Event.own s.from_ (chunkEnd c s.i s.from_)])).length % c.p = 0
        rw [hch, List.length_append, List.length_singleton]
        exact succ_mod_last _ _ hlen
  · rw [if_neg hto]
    exact ⟨hs, fun h => absurd h hto⟩

/-- The receive loop leaves the chunks, the ranges and the cursor as they are. -/
theorem recvLoop_chunks (c : Config) (w : Workers) (k : Nat) (s : Coord) :
    chunks (recvLoop c w k s).state.trace = chunks s.trace ∧
      ranges (recvLoop c w k s).state.trace = ranges s.trace := by
  obtain ⟨l, hl, hall⟩ := recvLoop_trace c w k s
  rw [hl, chunks_append, ranges_append, chunks_recvs l hall, ranges_recvs l hall]
  simp

theorem wave_shaped (c : Config) (hp : 1 ≤ c.p) (w : Workers) (fuel : Nat) (s : Coord)
    (hs : Shaped c 0 (chunks s.trace)) (hlen : (chunks s.trace).length % c.p = 0)
    (hto : s.to_ ≠ c.n) :
    Shaped c 0 (chunks (wave c w fuel s).state.trace) ∧
      ∀ s1, wave c w fuel s = Outcome.done s1 → s1.to_ ≠ c.n →
        (chunks s1.trace).length % c.p = 0 := by
  have hS := sendLoop_shaped c (c.p - 1) { s with i := 1 }
    (by show 1 + (c.p - 1) = c.p; omega) hs
    (by show (chunks s.trace).length % c.p + 1 = 1; omega) hto
  obtain ⟨hs1, hcase⟩ := hS
  by_cases hend : (sendLoop c (c.p - 1) { s with i := 1 }).to_ = c.n
  · have hown := ownChunk_final c fuel _ hend
    rw [wave_eq c w fuel s _ hown]
    obtain ⟨h1, -⟩ := recvLoop_chunks c w
      ((if (sendLoop c (c.p - 1) { s with i := 1 }).to_ = c.n then
        (sendLoop c (c.p - 1) { s with i := 1 }).p0 else c.p) - 1)
      { sendLoop c (c.p - 1) { s with i := 1 } with i := 1 }
    have h2 := (recvLoop_cursor c w
      ((if (sendLoop c (c.p - 1) { s with i := 1 }).to_ = c.n then
        (sendLoop c (c.p - 1) { s with i := 1 }).p0 else c.p) - 1)
      { sendLoop c (c.p - 1) { s with i := 1 } with i := 1 }).2
    refine ⟨by rw [h1]; exact hs1, ?_⟩
    intro s1 ho hne
    rw [ho] at h2
    exact absurd (h2.trans hend) hne
  · have hcase2 : (sendLoop c (c.p - 1) { s with i := 1 }).i = c.p ∧
        (chunks (sendLoop c (c.p - 1) { s with i := 1 }).trace).length % c.p + 1 = c.p := by
      rcases hcase with h | h
      · exact absurd h hend
      · exact h
    obtain ⟨hi, hlen1⟩ := hcase2
    obtain ⟨hs2, hz⟩ := ownChunk_shaped c fuel _ hs1 hi hlen1
    cases hown : ownChunk c fuel (sendLoop c (c.p - 1) { s with i := 1 }) with
    | done s2 =>
      rw [hown] at hs2
      rw [wave_eq c w fuel s _ hown]
      obtain ⟨h1, -⟩ := recvLoop_chunks c w ((if s2.to_ = c.n then s2.p0 else c.p) - 1)
        { s2 with i := 1 }
      refine ⟨by rw [h1]; exact hs2, ?_⟩
      intro s1 ho _
      rw [ho] at h1
      have h1' : chunks s1.trace = chunks s2.trace := h1
      rw [h1']
      exact hz hend s2 hown
    | abort code s2 =>
      rw [hown] at hs2
      unfold wave
      rw [hown]
      exact ⟨hs2, fun s1 h => by simp at h⟩
    | blocked s2 =>
      rw [hown] at hs2
      unfold wave
      rw [hown]
      exact ⟨hs2, fun s1 h => by simp at h⟩
    | outOfFuel s2 =>
      rw [hown] at hs2
      unfold wave
      rw [hown]
      exact ⟨hs2, fun s1 h => by simp at h⟩

theorem whileLoop_shaped (c : Config) (hp : 1 ≤ c.p) (w : Workers) (fuel : Nat) :
    ∀ (k : Nat) (s : Coord), Shaped c 0 (chunks s.trace) →
      (chunks s.trace).length % c.p = 0 →
      Shaped c 0 (chunks (whileLoop c w fuel k s).state.trace) := by
  intro k
  induction k with
  | zero =>
    intro s hs _
    unfold whileLoop
    split <;> exact hs
  | succ k ih =>
    intro s hs hlen
    rw [whileLoop]
    by_cases hto : s.to_ < c.n
    · rw [if_pos hto]
      obtain ⟨h1, h2⟩ := wave_shaped c hp w fuel s hs hlen (by omega)
      cases ho : wave c w fuel s with
      | done s1 =>
        rw [ho] at h1
        simp only []
        by_cases hto1 : s1.to_ < c.n
        · exact ih s1 h1 (h2 s1 ho (by omega))
        · rw [whileLoop_done c w fuel k s1 hto1]
          exact h1
      | abort code s1 => rw [ho] at h1; exact h1
      | blocked s1 => rw [ho] at h1; exact h1
      | outOfFuel s1 => rw [ho] at h1; exact h1
    · rw [if_neg hto]
      exact hs

/-- The chunks the dispatch loop creates follow the round-robin, whatever the
arguments and the workers. -/
theorem dispatch_shaped (mode : Mode) (debug : Bool) (w : Workers) (p0 fuel nw n z : Nat) :
    Shaped (mkConfig mode debug (nw + 1) n z) 0
      (chunks (dispatch mode debug w p0 fuel (nw + 1) n z).state.trace) := by
  unfold dispatch
  apply whileLoop_shaped
  · rw [mkConfig_p]
    omega
  · exact trivial
  · rfl

/-! ## The chain of ranges without assumptions on the workers -/

theorem recvLoop_pendingOk (c : Config) (w : Workers) :
    ∀ (k : Nat) (s : Coord), PendingOk c s → PendingOk c (recvLoop c w k s).state := by
  intro k
  induction k with
  | zero => intro s hp; exact hp
  | succ k ih =>
    intro s hp
    rw [recvLoop]
    cases hpend : s.pending s.i with
    | nil => exact hp
    | cons e rest =>
      obtain ⟨f, t⟩ := e
      simp only []
      have hp1 : ∀ (r : ℚ) (tr : List Event) (i : Nat), PendingOk c
          { s with
            pending := Function.update s.pending s.i rest
            result := r
            trace := tr
            i := i } := by
        intro r tr i j e he
        by_cases hj : j = s.i
        · subst hj
          have he' : e ∈ rest := by simpa [Function.update_same] using he
          exact hp _ e (by rw [hpend]; exact List.mem_cons_of_mem _ he')
        · have he' : e ∈ s.pending j := by simpa [Function.update_noteq hj] using he
          exact hp j e he'
      cases w s.i f t with
      | none => exact hp
      | some buf =>
        simp only []
        by_cases h0 : buf.length = 0
        · rw [if_pos h0]; exact hp1 s.result s.trace s.i
        · rw [if_neg h0]
          by_cases hd : c.debug = true ∧ buf.length > GMP_STR_SIZE
          · rw [if_pos hd]; exact hp1 s.result s.trace s.i
          · rw [if_neg hd]
            cases gmp_sscanf_Qd buf with
            | none => exact hp1 s.result s.trace s.i
            | some res => exact ih _ (hp1 _ _ _)

/-- The own chunk, whatever the fuel: the ranges stay a chain inside `[1,n]`. -/
theorem ownChunk_good (c : Config) (hc : Sane c) (fuel : Nat) (s : Coord)
    (hR : Ready c s) (hi : s.i = c.p) (hz0 : c.z = 0 → s.from_ = s.i) :
    (Ready c (ownChunk c fuel s).state ∨ Final c (ownChunk c fuel s).state) ∧ c.z ≠ 0 := by
  have hR0 := hR
  obtain ⟨hchain, hf1, hfn, hto, hpok⟩ := hR
  have hz : c.z ≠ 0 := by
    intro h
    have h1 := (hc.2.2.2 h).2.2
    have h2 := hz0 h
    omega
  refine ⟨?_, hz⟩
  obtain ⟨hb1, hb2⟩ := chunkEnd_bounds c hc s.i s.from_ hfn (fun h => absurd h hz)
  have hmod := mod_succ_of_le _ _ hb2 hc.2.1
  have hchain2 : chainEnd 1 (ranges (s.trace ++ [Event.own s.from_ (chunkEnd c s.i s.from_)])) =
      some (chunkEnd c s.i s.from_ + 1) := by
    rw [ranges_append]
    exact chainEnd_snoc _ _ _ _ hchain hb1
  unfold ownChunk
  rw [if_pos (by omega : s.to_ ≠ c.n)]
  cases hprod : prod fuel s.from_ (chunkEnd c s.i s.from_) with
  | none =>
    simp only [hprod]
    exact Or.inl hR0
  | some tres =>
    simp only [hprod]
    by_cases ht : chunkEnd c s.i s.from_ = c.n
    · right
      refine ⟨?_, ?_, ht, hpok⟩
      · show chainEnd 1 _ = some (c.n + 1)
        rw [← ht]; exact hchain2
      · show ranges (s.trace ++ [Event.own s.from_ (chunkEnd c s.i s.from_)]) ≠ []
        rw [ranges_append]; simp [ranges]
    · left
      have hlt : chunkEnd c s.i s.from_ < c.n := lt_of_le_of_ne hb2 ht
      refine ⟨?_, ?_, ?_, hlt, hpok⟩
      · show chainEnd 1 _ = some ((chunkEnd c s.i s.from_ + 1) % ULONG_MOD)
        rw [hmod]; exact hchain2
      · show 1 ≤ (chunkEnd c s.i s.from_ + 1) % ULONG_MOD
        rw [hmod]; omega
      · show (chunkEnd c s.i s.from_ + 1) % ULONG_MOD ≤ c.n
        rw [hmod]; omega

theorem recvLoop_good (c : Config) (w : Workers) (k : Nat) (s : Coord)
    (h : Ready c s ∨ Final c s) :
    Ready c (recvLoop c w k s).state ∨ Final c (recvLoop c w k s).state := by
  have h1 := (recvLoop_chunks c w k s).2
  obtain ⟨h2, h3⟩ := recvLoop_cursor c w k s
  rcases h with h | h
  · exact Or.inl (Ready_congr c _ _ h h1 h2 h3 (recvLoop_pendingOk c w k s h.2.2.2.2))
  · exact Or.inr (Final_congr c _ _ h h1 h3 (recvLoop_pendingOk c w k s h.2.2.2))

/-- One pass of the dispatch loop, whatever the workers and the fuel: the ranges stay
a chain inside `[1,n]`. -/
theorem wave_good (c : Config) (hc : Sane c) (w : Workers) (fuel : Nat) (s : Coord)
    (hR : Ready c s) (hz0 : c.z = 0 → s.from_ = 1) :
    (Ready c (wave c w fuel s).state ∨ Final c (wave c w fuel s).state) ∧
      ((wave c w fuel s).state.to_ < c.n → c.z ≠ 0) := by
  have hp := hc.1
  have hS := sendLoop_spec c hc (c.p - 1) { s with i := 1 } hR hz0
    (by show 1 + (c.p - 1) = c.p; omega) (le_refl 1)
    (by intro j h1 h2; have : j < 1 := h2; omega)
  obtain ⟨-, -, hcase⟩ := hS
  rcases hcase with ⟨hF, -, -, -, -⟩ | ⟨hR2, hi, hz2, -, -⟩
  · have hown := ownChunk_final c fuel _ hF.2.2.1
    rw [wave_eq c w fuel s _ hown]
    have hg := recvLoop_good c w
      ((if (sendLoop c (c.p - 1) { s with i := 1 }).to_ = c.n then
        (sendLoop c (c.p - 1) { s with i := 1 }).p0 else c.p) - 1)
      { sendLoop c (c.p - 1) { s with i := 1 } with i := 1 } (Or.inr hF)
    have h3 := (recvLoop_cursor c w
      ((if (sendLoop c (c.p - 1) { s with i := 1 }).to_ = c.n then
        (sendLoop c (c.p - 1) { s with i := 1 }).p0 else c.p) - 1)
      { sendLoop c (c.p - 1) { s with i := 1 } with i := 1 }).2
    refine ⟨hg, ?_⟩
    intro hlt
    rw [h3] at hlt
    have : (sendLoop c (c.p - 1) { s with i := 1 }).to_ = c.n := hF.2.2.1
    have hlt' : (sendLoop c (c.p - 1) { s with i := 1 }).to_ < c.n := hlt
    omega
  · obtain ⟨hg, hz⟩ := ownChunk_good c hc fuel _ hR2 hi hz2
    refine ⟨?_, fun _ => hz⟩
    cases hown : ownChunk c fuel (sendLoop c (c.p - 1) { s with i := 1 }) with
    | done s2 =>
      rw [hown] at hg
      rw [wave_eq c w fuel s _ hown]
      exact recvLoop_good c w _ _ hg
    | abort code s2 =>
      rw [hown] at hg
      unfold wave
      rw [hown]
      exact hg
    | blocked s2 =>
      rw [hown] at hg
      unfold wave
      rw [hown]
      exact hg
    | outOfFuel s2 =>
      rw [hown] at hg
      unfold wave
      rw [hown]
      exact hg

theorem whileLoop_good (c : Config) (hc : Sane c) (w : Workers) (fuel : Nat) :
    ∀ (k : Nat) (s : Coord), Ready c s → (c.z = 0 → s.from_ = 1) →
      Ready c (whileLoop c w fuel k s).state ∨ Final c (whileLoop c w fuel k s).state := by
  intro k
  induction k with
  | zero =>
    intro s hR _
    unfold whileLoop
    split <;> exact Or.inl hR
  | succ k ih =>
    intro s hR hz0
    rw [whileLoop, if_pos hR.2.2.2.1]
    obtain ⟨hg, hz⟩ := wave_good c hc w fuel s hR hz0
    cases ho : wave c w fuel s with
    | done s1 =>
      rw [ho] at hg hz
      simp only []
      rcases hg with hR1 | hF1
      · exact ih s1 hR1 (fun h => absurd h (hz hR1.2.2.2.1))
      · have hF' : Final c s1 := hF1
        rw [whileLoop_done c w fuel k s1 (by have := hF'.2.2.1; omega)]
        exact Or.inr hF'
    | abort code s1 => rw [ho] at hg; exact hg
    | blocked s1 => rw [ho] at hg; exact hg
    | outOfFuel s1 => rw [ho] at hg; exact hg

/-- The ranges the dispatch loop creates form a chain from 1 that stays inside
`[1,n]`, whatever the workers answer and however far the run gets. -/
theorem dispatch_chain (mode : Mode) (debug : Bool) (w : Workers) (p0 fuel nw n z : Nat)
    (h1 : 1 ≤ nw) (hn : n < 2 ^ 63) (hz : z < 2 ^ 63) :
    ∃ b, chainEnd 1 (ranges (dispatch mode debug w p0 fuel (nw + 1) n z).state.trace) = some b ∧
      b ≤ n + 1 := by
  have hc := mkConfig_sane mode debug nw n z h1 hn hz
  by_cases h2 : 2 ≤ n
  · have hR : Ready (mkConfig mode debug (nw + 1) n z) (initCoord mode p0) := by
      refine ⟨rfl, le_refl 1, ?_, ?_, ?_⟩
      · show 1 ≤ (mkConfig mode debug (nw + 1) n z).n
        rw [mkConfig_n]; omega
      · show 1 < (mkConfig mode debug (nw + 1) n z).n
        rw [mkConfig_n]; omega
      · intro j e he
        simp [initCoord] at he
    have hz0 : (mkConfig mode debug (nw + 1) n z).z = 0 → (initCoord mode p0).from_ = 1 :=
      fun _ => rfl
    rcases whileLoop_good _ hc w fuel fuel _ hR hz0 with h | h
    · refine ⟨_, h.1, ?_⟩
      have := h.2.2.1
      rw [mkConfig_n] at this
      omega
    · refine ⟨_, h.1, ?_⟩
      rw [mkConfig_n]
  · have hd : dispatch mode debug w p0 fuel (nw + 1) n z = Outcome.done (initCoord mode p0) := by
      unfold dispatch
      apply whileLoop_done
      show ¬ 1 < (mkConfig mode debug (nw + 1) n z).n
      rw [mkConfig_n]
      omega
    rw [hd]
    exact ⟨1, rfl, by omega⟩

/-! ## One worker and automatic chunk size: claim C12 -/

/-- The answer of a worker of the sum build to a range inside `[1, 2^63)`: the text
of the sum of the range. -/
theorem programWorkers_sum_text (debug : Bool) (fuel rank f t : Nat) (h1 : 1 ≤ f)
    (ht : t < 2 ^ 63) (hf : t + 1 ≤ fuel + f) :
    programWorkers Mode.sum debug fuel rank f t = some (gmp_sprintf_Qd (rangeValue Mode.sum f t)) ∧
      (gmp_sprintf_Qd (rangeValue Mode.sum f t)).length < GMP_STR_SIZE := by
  have ht' : t < 9223372036854775808 := by simpa using ht
  have hS := sum_Icc_lt f t ht
  have hlen38 := toDigits_length_le _ 38 hS (by decide)
  have hlen : (gmp_sprintf_Qd (rangeValue Mode.sum f t)).length < GMP_STR_SIZE := by
    rw [rangeValue_sum_cast, sprintf_natCast]
    unfold GMP_STR_SIZE
    omega
  have hsz : debug = true → getSize (rangeValue Mode.sum f t) ≤ GMP_STR_SIZE := by
    intro _
    rw [rangeValue_sum_cast, getSize_natCast]
    unfold GMP_STR_SIZE ULONG_MOD
    simp only [show (2 : Nat) ^ 64 = 18446744073709551616 by norm_num]
    omega
  have hstep := workerStep_reply Mode.sum debug fuel f t (by omega)
    (by unfold ULONG_MOD; simp only [show (2 : Nat) ^ 64 = 18446744073709551616 by norm_num]; omega)
    (by omega) hsz hlen
  exact ⟨by simp only [programWorkers, hstep], hlen⟩

/-- One worker and automatic chunk size: the dispatch loop sends the whole range
`[1,n]` to rank 1, takes no chunk itself, and absorbs the answer of rank 1. -/
theorem dispatch_single (mode : Mode) (debug : Bool) (w : Workers) (p0 fuel n : Nat)
    (h2 : 2 ≤ n) (hn : n < ULONG_MOD) (hf : 1 ≤ fuel) (buf : List Char) (v : ℚ)
    (hw : w 1 1 n = some buf) (hne : buf ≠ [])
    (hdbg : ¬ (debug = true ∧ buf.length > GMP_STR_SIZE)) (hscan : gmp_sscanf_Qd buf = some v) :
    ∃ s, dispatch mode debug w p0 fuel 2 n 0 = Outcome.done s ∧
      s.trace = [Event.send 1 1 n, Event.recv 1] ∧
      s.result = absorb mode (initResult mode) v := by
  obtain ⟨k, rfl⟩ : ∃ k, fuel = k + 1 := ⟨fuel - 1, by omega⟩
  have hc : mkConfig mode debug 2 n 0 =
      { mode := mode, debug := debug, n := n, p := 2, z := n, r := 0 } := by
    simp [mkConfig, Nat.mod_one]
  have hM : ULONG_MOD = 18446744073709551616 := by unfold ULONG_MOD; norm_num
  have hce : chunkEnd { mode := mode, debug := debug, n := n, p := 2, z := n, r := 0 } 1 1 = n := by
    unfold chunkEnd
    simp only [show ¬ (0 : Nat) = 2 by decide, if_false, show ¬ (1 : Nat) ≤ 0 by decide]
    have : (1 + n + (ULONG_MOD - 1)) % ULONG_MOD = n := by rw [hM]; omega
    rw [this, if_neg (by omega)]
  have hlen : ¬ buf.length = 0 := fun h => hne (List.length_eq_zero.1 h)
  unfold dispatch
  rw [hc, whileLoop, if_pos (by show 1 < n; omega)]
  have hsend : sendLoop { mode := mode, debug := debug, n := n, p := 2, z := n, r := 0 } (2 - 1)
      { initCoord mode p0 with i := 1 } =
      { from_ := (n + 1) % ULONG_MOD, to_ := n, i := 1, p0 := 2, result := initResult mode,
        trace := [Event.send 1 1 n],
        pending := Function.update (fun _ => []) 1 [(1, n)] } := by
    show sendLoop _ (0 + 1) _ = _
    rw [sendLoop]
    dsimp only [initCoord]
    rw [hce]
    simp only [if_true, List.nil_append]
  have hown := ownChunk_final { mode := mode, debug := debug, n := n, p := 2, z := n, r := 0 }
    (k + 1) (sendLoop { mode := mode, debug := debug, n := n, p := 2, z := n, r := 0 } (2 - 1)
      { initCoord mode p0 with i := 1 }) (by rw [hsend])
  rw [wave_eq _ w (k + 1) _ _ hown, hsend]
  simp only [if_true]
  show ∃ s, (match recvLoop _ w (0 + 1) _ with
    | Outcome.done s1 => whileLoop _ w (k + 1) k s1
    | o => o) = Outcome.done s ∧ _
  rw [recvLoop]
  simp only [Function.update_same, hw, hlen, if_false, hdbg, hscan, recvLoop]
  rw [whileLoop_done _ w (k + 1) k _ (by show ¬ n < n; omega)]
  exact ⟨_, rfl, rfl, rfl⟩

/-- The sum of `[1,n]` as the single worker returns it and the coordinator reads it. -/
theorem single_worker_reply (debug : Bool) (fuel n : Nat) (hn : n < 2 ^ 63) (hf : n ≤ fuel) :
    programWorkers Mode.sum debug fuel 1 1 n = some (gmp_sprintf_Qd (rangeValue Mode.sum 1 n)) ∧
      gmp_sprintf_Qd (rangeValue Mode.sum 1 n) ≠ [] ∧
      ¬ (debug = true ∧ (gmp_sprintf_Qd (rangeValue Mode.sum 1 n)).length > GMP_STR_SIZE) ∧
      gmp_sscanf_Qd (gmp_sprintf_Qd (rangeValue Mode.sum 1 n)) = some ((n : ℚ) * (n + 1) / 2) := by
  obtain ⟨h1, h2⟩ := programWorkers_sum_text debug fuel 1 1 n (le_refl 1) hn (by omega)
  refine ⟨h1, sprintf_ne_nil _, ?_, ?_⟩
  · rintro ⟨-, h⟩
    omega
  · rw [sscanf_sprintf_int _ (by rw [rangeValue_sum_cast]; exact Rat.den_natCast _)]
    have : rangeValue Mode.sum 1 n = ∑ j in Finset.Icc 1 n, (j : ℚ) := rfl
    rw [this, gauss_Icc]

/-- C12, amended: with automatic chunk size and one worker, for every `n`
with `2 ≤ n < 2^63`, the whole range `[1,n]` is sent to the worker as one chunk, the
coordinator computes no chunk itself (it only receives the answer and sends the
terminating range), and the accumulated sum is `n(n+1)/2`. -/
theorem single_worker_auto (debug : Bool) (p0 fuel n : Nat) (h2 : 2 ≤ n) (hn : n < 2 ^ 63)
    (hf : n ≤ fuel) :
    ∃ s, coordinator Mode.sum debug (programWorkers Mode.sum debug fuel) p0 fuel 2 n 0 =
        Outcome.done s ∧
      s.trace = [Event.send 1 1 n, Event.recv 1, Event.send 1 0 0] ∧
      s.result = (n : ℚ) * (n + 1) / 2 := by
  obtain ⟨hw, hne, hdbg, hscan⟩ := single_worker_reply debug fuel n hn hf
  have hn' : n < 9223372036854775808 := by simpa using hn
  obtain ⟨s, hd, htr, hres⟩ := dispatch_single Mode.sum debug
    (programWorkers Mode.sum debug fuel) p0 fuel n h2
    (by unfold ULONG_MOD; simp only [show (2 : Nat) ^ 64 = 18446744073709551616 by norm_num]; omega)
    (by omega) _ _ hw hne hdbg hscan
  refine ⟨_, coordinator_of_dispatch _ _ _ _ _ _ _ _ _ hd, ?_, ?_⟩
  · rw [sentinelLoop_trace]
    show s.trace ++ _ = _
    rw [htr]
    rfl
  · have : (sentinelLoop (2 - 1) { s with from_ := 0, to_ := 0, i := 1 }).result = s.result := rfl
    rw [this, hres]
    simp [absorb, initResult]

/-- Witness of C12: the run for `n = 100000`, whose sum is 5000050000. -/
theorem single_worker_auto_witness :
    2 ≤ 100000 ∧ 100000 < 2 ^ 63 ∧ 100000 ≤ 100000 ∧
      ∃ s, coordinator Mode.sum false (programWorkers Mode.sum false 100000) 0 100000 2 100000 0 =
          Outcome.done s ∧
        s.trace = [Event.send 1 1 100000, Event.recv 1, Event.send 1 0 0] ∧
        s.result = 5000050000 := by
  refine ⟨by decide, by norm_num, le_refl _, ?_⟩
  obtain ⟨s, h1, h2, h3⟩ := single_worker_auto false 0 100000 100000 (by decide) (by norm_num)
    (le_refl _)
  refine ⟨s, h1, h2, ?_⟩
  rw [h3]
  norm_num

/-- Counterexample to C12 as stated: for `n = 100000` with one worker
and automatic chunk size the coordinator does not do the work. The range
`[1,100000]` is sent to rank 1, and the coordinator creates no chunk of its own. -/
theorem single_worker_gets_range :
    ∃ s, dispatch Mode.sum false (programWorkers Mode.sum false 100000) 0 100000 2 100000 0 =
        Outcome.done s ∧
      sentTo 1 s.trace = [(1, 100000)] ∧ ¬ ∃ f t, Event.own f t ∈ s.trace := by
  obtain ⟨hw, hne, hdbg, hscan⟩ := single_worker_reply false 100000 100000 (by norm_num)
    (le_refl _)
  obtain ⟨s, hd, htr, -⟩ := dispatch_single Mode.sum false
    (programWorkers Mode.sum false 100000) 0 100000 100000 (by decide)
    (by unfold ULONG_MOD; norm_num) (by decide) _ _ hw hne hdbg hscan
  refine ⟨s, hd, ?_, ?_⟩
  · rw [htr]
    simp [sentTo]
  · rw [htr]
    simp

/-! ## Sizes and order of the chunks -/

theorem chunks_cons_recv (i : Nat) (es : List Event) :
    chunks (Event.recv i :: es) = chunks es := rfl

theorem chunks_cons_send (i f t : Nat) (es : List Event) :
    chunks (Event.send i f t :: es) = Event.send i f t :: chunks es := rfl

theorem chunks_cons_own (f t : Nat) (es : List Event) :
    chunks (Event.own f t :: es) = Event.own f t :: chunks es := rfl

/-- Every range of a well-shaped trace has the upper end that `chunkEnd` computes. -/
theorem Shaped_stamped (c : Config) :
    ∀ (tr : List Event) (k : Nat), Shaped c k (chunks tr) →
      ∀ e ∈ ranges tr, ∃ i, e.2 = chunkEnd c i e.1 := by
  intro tr
  induction tr with
  | nil => intro k _ e he; simp [ranges] at he
  | cons a tr ih =>
    intro k hs e he
    cases a with
    | send i f t =>
      rw [chunks_cons_send] at hs
      simp only [ranges] at he
      rcases List.mem_cons.1 he with rfl | he
      · exact ⟨i, hs.1.2.2⟩
      · exact ih (k + 1) hs.2 e he
    | own f t =>
      rw [chunks_cons_own] at hs
      simp only [ranges] at he
      rcases List.mem_cons.1 he with rfl | he
      · exact ⟨c.p, hs.1.2⟩
      · exact ih (k + 1) hs.2 e he
    | recv i =>
      rw [chunks_cons_recv] at hs
      simp only [ranges] at he
      exact ih k hs e he

/-- The lower bounds of the ranges are the lower bounds of the chunks. -/
theorem ranges_fst (tr : List Event) :
    (ranges tr).map Prod.fst = (chunks tr).map eventFrom := by
  induction tr with
  | nil => rfl
  | cons a tr ih =>
    cases a with
    | send i f t =>
      rw [chunks_cons_send]
      simp only [ranges, List.map_cons, ih, eventFrom]
    | own f t =>
      rw [chunks_cons_own]
      simp only [ranges, List.map_cons, ih, eventFrom]
    | recv i =>
      rw [chunks_cons_recv]
      simp only [ranges]
      exact ih

theorem chainEnd_split (init : List (Nat × Nat)) (e : Nat × Nat) (rest : List (Nat × Nat)) :
    ∀ (a b : Nat), chainEnd a (init ++ e :: rest) = some b →
      a ≤ e.1 ∧ e.1 ≤ e.2 ∧ chainEnd (e.2 + 1) rest = some b := by
  induction init with
  | nil =>
    intro a b h
    obtain ⟨f, t⟩ := e
    simp only [List.nil_append, chainEnd] at h
    by_cases hc : f = a ∧ f ≤ t
    · rw [if_pos hc] at h
      exact ⟨by simp [hc.1], hc.2, h⟩
    · rw [if_neg hc] at h
      exact absurd h (by simp)
  | cons r init ih =>
    intro a b h
    obtain ⟨f0, t0⟩ := r
    simp only [List.cons_append, chainEnd] at h
    by_cases hc : f0 = a ∧ f0 ≤ t0
    · rw [if_pos hc] at h
      obtain ⟨h1, h2, h3⟩ := ih _ _ h
      exact ⟨by omega, h2, h3⟩
    · rw [if_neg hc] at h
      exact absurd h (by simp)

/-- A chain of ranges has strictly increasing lower bounds. -/
theorem chainEnd_pairwise (rs : List (Nat × Nat)) :
    ∀ (a b : Nat), chainEnd a rs = some b → (rs.map Prod.fst).Pairwise (fun x y => x < y) := by
  induction rs with
  | nil => intro a b _; exact List.Pairwise.nil
  | cons r rs ih =>
    intro a b h
    obtain ⟨f0, t0⟩ := r
    simp only [chainEnd] at h
    by_cases hc : f0 = a ∧ f0 ≤ t0
    · rw [if_pos hc] at h
      rw [List.map_cons, List.pairwise_cons]
      refine ⟨?_, ih _ _ h⟩
      intro x hx
      obtain ⟨e, he, rfl⟩ := List.mem_map.1 hx
      have := (chainEnd_lower rs _ _ h).2 e he
      show f0 < e.1
      omega
    · rw [if_neg hc] at h
      exact absurd h (by simp)

/-- With an explicit chunk size and no wrap-around, a chunk has size `z` or is cut
to end at `n`. -/
theorem chunkEnd_explicit (c : Config) (hr : c.r = c.p) (hz1 : 1 ≤ c.z) (hz : c.z < 2 ^ 63)
    (hn : c.n < 2 ^ 63) (i f : Nat) (hf : f ≤ c.n) :
    chunkEnd c i f + 1 - f = c.z ∨ (chunkEnd c i f = c.n ∧ c.n + 1 - f ≤ c.z) := by
  have hn' : c.n < 9223372036854775808 := by simpa using hn
  have hz' : c.z < 9223372036854775808 := by simpa using hz
  unfold chunkEnd ULONG_MOD
  simp only [show (2 : Nat) ^ 64 = 18446744073709551616 by norm_num, hr, if_true]
  split <;> omega

/-! ## Sizes of the chunks: claim C11 -/

/-- C11, amended: for `w ≥ 1` workers and every `n`: in automatic mode every
chunk is sent to a worker, and the chunk sent to rank `i` has `from ≤ to` and size
`n / w + 1` when `i ≤ n mod w` and `n / w` otherwise; with an explicit chunk size
`0 < z < 2^63` and `n < 2^63` every chunk created has `from ≤ to` and size exactly
`z`, except possibly the last one, which ends at `n` and has at most `z` elements. -/
theorem chunk_sizes (mode : Mode) (debug : Bool) (w : Workers) (p0 fuel nw n z : Nat)
    (h1 : 1 ≤ nw) (hn : n < ULONG_MOD) :
    ((∀ i f t, Event.send i f t ∈ (dispatch mode debug w p0 fuel (nw + 1) n 0).state.trace →
        f ≤ t ∧ t + 1 - f = n / nw + (if i ≤ n % nw then 1 else 0)) ∧
      ∀ f t, Event.own f t ∉ (dispatch mode debug w p0 fuel (nw + 1) n 0).state.trace) ∧
    (0 < z → n < 2 ^ 63 → z < 2 ^ 63 → ∀ init e rest,
      ranges (dispatch mode debug w p0 fuel (nw + 1) n z).state.trace = init ++ e :: rest →
        e.1 ≤ e.2 ∧ (e.2 + 1 - e.1 = z ∨ (rest = [] ∧ e.2 = n ∧ e.2 + 1 - e.1 ≤ z))) := by
  refine ⟨⟨?_, ?_⟩, ?_⟩
  · intro i f t he
    have h := dispatch_auto mode debug w p0 fuel nw n h1 hn _ he
    have hc : mkConfig mode debug (nw + 1) n 0 =
        { mode := mode, debug := debug, n := n, p := nw + 1, z := n / nw, r := n % nw } := by
      simp [mkConfig]
    rw [hc] at h
    exact h
  · intro f t he
    exact dispatch_auto mode debug w p0 fuel nw n h1 hn _ he
  · intro hz0 hn63 hz63 init e rest hsplit
    have hc : mkConfig mode debug (nw + 1) n z =
        { mode := mode, debug := debug, n := n, p := nw + 1, z := z, r := nw + 1 } := by
      unfold mkConfig
      rw [if_neg (by omega)]
    obtain ⟨b, hchain, hb⟩ := dispatch_chain mode debug w p0 fuel nw n z h1 hn63 hz63
    have hstamp := Shaped_stamped _ _ 0 (dispatch_shaped mode debug w p0 fuel nw n z) e
      (by rw [hsplit]; simp)
    obtain ⟨i, hi⟩ := hstamp
    rw [hsplit] at hchain
    obtain ⟨ha, hle, hrest⟩ := chainEnd_split init e rest 1 b hchain
    have hlow := (chainEnd_lower rest _ _ hrest).1
    refine ⟨hle, ?_⟩
    have hexp := chunkEnd_explicit (mkConfig mode debug (nw + 1) n z) (by rw [hc]) (by rw [hc]; exact hz0)
      (by rw [hc]; exact hz63) (by rw [hc]; exact hn63) i e.1 (by rw [hc]; show e.1 ≤ n; omega)
    rw [← hi, hc] at hexp
    rcases hexp with h | ⟨h, h'⟩
    · exact Or.inl h
    · have h2 : e.2 = n := h
      have h3 : n + 1 - e.1 ≤ z := h'
      by_cases hsz : e.2 + 1 - e.1 = z
      · exact Or.inl hsz
      · right
        refine ⟨?_, h2, by rw [h2]; exact h3⟩
        cases rest with
        | nil => rfl
        | cons r rest =>
          exfalso
          have := chainEnd_inside _ _ _ hrest r (List.mem_cons_self _ _)
          omega

/-- Witness of C11: ten numbers for three workers, automatically and in
chunks of 4. -/
theorem chunk_sizes_witness :
    1 ≤ 3 ∧ 10 < ULONG_MOD ∧
    ((∀ i f t, Event.send i f t ∈
          (dispatch Mode.sum false (programWorkers Mode.sum false 10) 0 10 (3 + 1) 10 0).state.trace →
        f ≤ t ∧ t + 1 - f = 10 / 3 + (if i ≤ 10 % 3 then 1 else 0)) ∧
      ∀ f t, Event.own f t ∉
        (dispatch Mode.sum false (programWorkers Mode.sum false 10) 0 10 (3 + 1) 10 0).state.trace) ∧
    (∀ init e rest,
      ranges (dispatch Mode.sum false (programWorkers Mode.sum false 10) 0 10 (3 + 1) 10 4).state.trace =
          init ++ e :: rest →
        e.1 ≤ e.2 ∧ (e.2 + 1 - e.1 = 4 ∨ (rest = [] ∧ e.2 = 10 ∧ e.2 + 1 - e.1 ≤ 4))) :=
  have h := chunk_sizes Mode.sum false (programWorkers Mode.sum false 10) 0 10 3 10 4
    (by decide) (by unfold ULONG_MOD; norm_num)
  ⟨by decide, by unfold ULONG_MOD; norm_num, h.1, h.2 (by decide) (by norm_num) (by norm_num)⟩

/-- Counterexample to C11 as stated: for `n = 2^64 - 1`, one worker
and chunk size `z = 2^63 + 1` the second chunk is `[2^63 + 2, 2]`: its upper end
has wrapped around, it contains no number and does not end at `n`, although it is
not the last chunk the loop would create. -/
theorem chunk_size_wraps :
    ranges (dispatch Mode.sum false (programWorkers Mode.sum false 5) 0 5 2
        (2 ^ 64 - 1) (2 ^ 63 + 1)).state.trace =
      [(1, 2 ^ 63 + 1), (2 ^ 63 + 2, 2)] ∧
    (dispatch Mode.sum false (programWorkers Mode.sum false 5) 0 5 2
        (2 ^ 64 - 1) (2 ^ 63 + 1)).state.to_ = 2 := by
  decide!

/-! ## The round-robin: claim C18 -/

/-- The chunks of a run without wrap-around are created in order of strictly
increasing `from`. -/
theorem dispatch_increasing (mode : Mode) (debug : Bool) (w : Workers) (p0 fuel nw n z : Nat)
    (h1 : 1 ≤ nw) (hn : n < 2 ^ 63) (hz : z < 2 ^ 63) :
    List.Pairwise (fun a b => eventFrom a < eventFrom b)
      (chunks (dispatch mode debug w p0 fuel (nw + 1) n z).state.trace) := by
  obtain ⟨b, hchain, -⟩ := dispatch_chain mode debug w p0 fuel nw n z h1 hn hz
  have h := chainEnd_pairwise _ _ _ hchain
  rw [ranges_fst, List.pairwise_map] at h
  exact h

/-- The place of a chunk in the round-robin, read off `ChunkOk`. -/
theorem ChunkOk_slot (c : Config) (k : Nat) (e : Event) (h : ChunkOk c k e) :
    (k % c.p < c.p - 1 → ∃ f t, e = Event.send (k % c.p + 1) f t) ∧
      (k % c.p = c.p - 1 → ∃ f t, e = Event.own f t) := by
  cases e with
  | send i f t =>
    obtain ⟨h1, h2, -⟩ := h
    refine ⟨fun _ => ⟨f, t, by rw [h2]⟩, fun h3 => ?_⟩
    omega
  | own f t =>
    obtain ⟨h1, -⟩ := h
    refine ⟨fun h3 => ?_, fun _ => ⟨f, t, rfl⟩⟩
    omega
  | recv i => exact absurd h (by simp [ChunkOk])

/-- C18, amended: for `w ≥ 1` workers, `n < 2^63` and `z < 2^63`, the chunks
are created in order of strictly increasing `from`, so that numbering them by
increasing `from` is numbering them in order of creation; chunk `k` (from 0) is sent
to rank `(k mod (w+1)) + 1` when `k mod (w+1) < w` and is computed by the
coordinator itself when `k mod (w+1) = w`. -/
theorem round_robin (mode : Mode) (debug : Bool) (w : Workers) (p0 fuel nw n z : Nat)
    (h1 : 1 ≤ nw) (hn : n < 2 ^ 63) (hz : z < 2 ^ 63) :
    List.Pairwise (fun a b => eventFrom a < eventFrom b)
        (chunks (dispatch mode debug w p0 fuel (nw + 1) n z).state.trace) ∧
      byFrom (chunks (dispatch mode debug w p0 fuel (nw + 1) n z).state.trace) =
        chunks (dispatch mode debug w p0 fuel (nw + 1) n z).state.trace ∧
      ∀ k e, (byFrom (chunks (dispatch mode debug w p0 fuel (nw + 1) n z).state.trace))[k]? =
          some e →
        (k % (nw + 1) < nw → ∃ f t, e = Event.send (k % (nw + 1) + 1) f t) ∧
          (k % (nw + 1) = nw → ∃ f t, e = Event.own f t) := by
  have hinc := dispatch_increasing mode debug w p0 fuel nw n z h1 hn hz
  have hsorted : byFrom (chunks (dispatch mode debug w p0 fuel (nw + 1) n z).state.trace) =
      chunks (dispatch mode debug w p0 fuel (nw + 1) n z).state.trace := by
    unfold byFrom
    apply List.Sorted.insertionSort_eq
    exact List.Pairwise.imp (fun h => Nat.le_of_lt h) hinc
  refine ⟨hinc, hsorted, ?_⟩
  intro k e he
  rw [hsorted] at he
  have hok := Shaped_get _ _ 0 k e (dispatch_shaped mode debug w p0 fuel nw n z) he
  rw [Nat.zero_add] at hok
  have hslot := ChunkOk_slot _ k e hok
  rw [mkConfig_p, Nat.add_sub_cancel] at hslot
  exact hslot

/-- Witness of C18: ten numbers in chunks of 2 for two workers. -/
theorem round_robin_witness :
    1 ≤ 2 ∧ 10 < 2 ^ 63 ∧ 2 < 2 ^ 63 ∧
      chunks (dispatch Mode.sum false (programWorkers Mode.sum false 10) 0 10 (2 + 1) 10 2).state.trace =
        [Event.send 1 1 2, Event.send 2 3 4, Event.own 5 6, Event.send 1 7 8,
          Event.send 2 9 10] ∧
      ∀ k e, (byFrom (chunks (dispatch Mode.sum false (programWorkers Mode.sum false 10) 0 10
            (2 + 1) 10 2).state.trace))[k]? = some e →
        (k % (2 + 1) < 2 → ∃ f t, e = Event.send (k % (2 + 1) + 1) f t) ∧
          (k % (2 + 1) = 2 → ∃ f t, e = Event.own f t) :=
  ⟨by decide, by norm_num, by norm_num, by decide!,
    (round_robin Mode.sum false (programWorkers Mode.sum false 10) 0 10 2 10 2
      (by decide) (by norm_num) (by norm_num)).2.2⟩

/-- Counterexample to C18 as stated: for `n = 2^63 + 10`, three workers and chunk
size `z = 2^63 + 5` the plan has three chunks, all sent in the first pass, which
ends with `to = n`: `[1, 2^63+5]` for rank 1, `[2^63+6, 10]` (the upper end has
wrapped around) for rank 2 and `[11, n]` for rank 3. In order of increasing `from`
the chunk with number 1 is the one sent to rank 3, and the chunk with number 2 the
one sent to rank 2. -/
theorem round_robin_wraps :
    chunks (dispatch Mode.sum false (programWorkers Mode.sum false 5) 0 5 4
        (2 ^ 63 + 10) (2 ^ 63 + 5)).state.trace =
      [Event.send 1 1 (2 ^ 63 + 5), Event.send 2 (2 ^ 63 + 6) 10,
        Event.send 3 11 (2 ^ 63 + 10)] ∧
    (dispatch Mode.sum false (programWorkers Mode.sum false 5) 0 5 4
        (2 ^ 63 + 10) (2 ^ 63 + 5)).state.to_ = 2 ^ 63 + 10 ∧
    byFrom (chunks (dispatch Mode.sum false (programWorkers Mode.sum false 5) 0 5 4
        (2 ^ 63 + 10) (2 ^ 63 + 5)).state.trace) =
      [Event.send 1 1 (2 ^ 63 + 5), Event.send 3 11 (2 ^ 63 + 10),
        Event.send 2 (2 ^ 63 + 6) 10] := by
  decide!

/-! ## The cursor of the dispatch loop: lemmas for claim C21 -/

theorem cursors_done (c : Config) (w : Workers) (fuel k : Nat) (s : Coord)
    (h : ¬ s.to_ < c.n) : cursors c w fuel k s = [s.to_] := by
  cases k <;> simp [cursors, h]

theorem cursors_head (c : Config) (w : Workers) (fuel k : Nat) (s : Coord) :
    (cursors c w fuel k s).head? = some s.to_ := by
  cases k <;> simp [cursors]

/-- After at least one iteration of the send loop the cursor `from` is `to + 1` and
has moved on. -/
theorem sendLoop_tight (c : Config) (hc : Sane c) :
    ∀ (k : Nat) (s : Coord), s.from_ ≤ c.n → (c.z = 0 → s.from_ = s.i) → 1 ≤ k →
      (sendLoop c k s).from_ = (sendLoop c k s).to_ + 1 ∧ s.from_ < (sendLoop c k s).from_ := by
  intro k
  induction k with
  | zero => intro s _ _ h; omega
  | succ k ih =>
    intro s hfn hz0 _
    have hzr : c.z = 0 → s.i ≤ c.r := by
      intro h
      have := (hc.2.2.2 h).2.1
      have := hz0 h
      omega
    obtain ⟨hb1, hb2⟩ := chunkEnd_bounds c hc s.i s.from_ hfn hzr
    have hmod := mod_succ_of_le _ _ hb2 hc.2.1
    rw [sendLoop]
    by_cases ht : chunkEnd c s.i s.from_ = c.n
    · simp only [ht, if_true]
      rw [ht] at hmod
      refine ⟨hmod, ?_⟩
      show s.from_ < (c.n + 1) % ULONG_MOD
      rw [hmod]; omega
    · simp only [ht, if_false]
      have hlt : chunkEnd c s.i s.from_ < c.n := lt_of_le_of_ne hb2 ht
      cases k with
      | zero =>
        simp only [sendLoop]
        refine ⟨hmod, ?_⟩
        show s.from_ < (chunkEnd c s.i s.from_ + 1) % ULONG_MOD
        rw [hmod]; omega
      | succ k =>
        have h3 := ih
          { s with
            to_ := chunkEnd c s.i s.from_
            from_ := (chunkEnd c s.i s.from_ + 1) % ULONG_MOD
            trace := s.trace ++ [Event.send s.i s.from_ (chunkEnd c s.i s.from_)]
            pending := Function.update s.pending s.i
              (s.pending s.i ++ [(s.from_, chunkEnd c s.i s.from_)])
            i := s.i + 1 }
          (by show (chunkEnd c s.i s.from_ + 1) % ULONG_MOD ≤ c.n; rw [hmod]; omega)
          (by
            intro h
            show (chunkEnd c s.i s.from_ + 1) % ULONG_MOD = s.i + 1
            rw [hmod, chunkEnd_zero c hc _ _ h (hzr h) hfn, hz0 h])
          (by omega)
        have hlt2 : s.from_ < (chunkEnd c s.i s.from_ + 1) % ULONG_MOD := by rw [hmod]; omega
        exact ⟨h3.1, lt_trans hlt2 h3.2⟩

/-- The coordinator's own chunk leaves the cursor `from` at `to + 1`, further on. -/
theorem ownChunk_tight (c : Config) (hc : Sane c) (fuel : Nat) (s s1 : Coord)
    (hfn : s.from_ ≤ c.n) (hz0 : c.z = 0 → s.from_ = s.i) (hi : s.i = c.p)
    (hto : s.to_ ≠ c.n) (h : ownChunk c fuel s = Outcome.done s1) :
    s1.from_ = s1.to_ + 1 ∧ s.from_ < s1.from_ := by
  have hz : c.z ≠ 0 := by
    intro h
    have h1 := (hc.2.2.2 h).2.2
    have h2 := hz0 h
    omega
  obtain ⟨hb1, hb2⟩ := chunkEnd_bounds c hc s.i s.from_ hfn (fun h => absurd h hz)
  have hmod := mod_succ_of_le _ _ hb2 hc.2.1
  unfold ownChunk at h
  rw [if_pos hto] at h
  cases hprod : prod fuel s.from_ (chunkEnd c s.i s.from_) with
  | none =>
    simp only [hprod] at h
    exact absurd h (by simp)
  | some tres =>
    simp only [hprod, Outcome.done.injEq] at h
    rw [← h]
    refine ⟨hmod, ?_⟩
    show s.from_ < (chunkEnd c s.i s.from_ + 1) % ULONG_MOD
    rw [hmod]; omega

/-- Every pass of the dispatch loop that reaches its end strictly increases the
cursor `to`, which stays at most `n`. -/
theorem wave_cursor (c : Config) (hc : Sane c) (w : Workers) (fuel : Nat) (s s1 : Coord)
    (hR : Ready c s) (hz0 : c.z = 0 → s.from_ = 1) (hts : s.to_ ≤ s.from_)
    (h : wave c w fuel s = Outcome.done s1) :
    s.to_ < s1.to_ ∧ s1.to_ ≤ c.n ∧ s1.to_ ≤ s1.from_ := by
  have hp := hc.1
  have hT := sendLoop_tight c hc (c.p - 1) { s with i := 1 } hR.2.2.1 hz0 (by omega)
  obtain ⟨hT1, hT2⟩ := hT
  have hT2' : s.from_ < (sendLoop c (c.p - 1) { s with i := 1 }).from_ := hT2
  have hS := sendLoop_spec c hc (c.p - 1) { s with i := 1 } hR hz0
    (by show 1 + (c.p - 1) = c.p; omega) (le_refl 1)
    (by intro j h1 h2; have : j < 1 := h2; omega)
  obtain ⟨-, -, hcase⟩ := hS
  have hg := (wave_good c hc w fuel s hR hz0).1
  rw [h] at hg
  have hle : s1.to_ ≤ c.n := by
    rcases hg with hg | hg
    · exact le_of_lt hg.2.2.2.1
    · exact le_of_eq hg.2.2.1
  have hsn := hR.2.2.2.1
  by_cases hend : (sendLoop c (c.p - 1) { s with i := 1 }).to_ = c.n
  · have hown := ownChunk_final c fuel _ hend
    rw [wave_eq c w fuel s _ hown] at h
    obtain ⟨h2, h3⟩ := recvLoop_cursor c w
      ((if (sendLoop c (c.p - 1) { s with i := 1 }).to_ = c.n then
        (sendLoop c (c.p - 1) { s with i := 1 }).p0 else c.p) - 1)
      { sendLoop c (c.p - 1) { s with i := 1 } with i := 1 }
    rw [h] at h2 h3
    have h2' : s1.from_ = (sendLoop c (c.p - 1) { s with i := 1 }).from_ := h2
    have h3' : s1.to_ = (sendLoop c (c.p - 1) { s with i := 1 }).to_ := h3
    omega
  · have hR2 : Ready c (sendLoop c (c.p - 1) { s with i := 1 }) ∧
        (sendLoop c (c.p - 1) { s with i := 1 }).i = c.p ∧
        (c.z = 0 → (sendLoop c (c.p - 1) { s with i := 1 }).from_ =
          (sendLoop c (c.p - 1) { s with i := 1 }).i) := by
      rcases hcase with ⟨hF, -⟩ | ⟨hR2, hi, hz2, -⟩
      · exact absurd hF.2.2.1 hend
      · exact ⟨hR2, hi, hz2⟩
    obtain ⟨hR2, hi, hz2⟩ := hR2
    cases hown : ownChunk c fuel (sendLoop c (c.p - 1) { s with i := 1 }) with
    | done s2 =>
      obtain ⟨hO1, hO2⟩ := ownChunk_tight c hc fuel _ s2 hR2.2.2.1 hz2 hi hend hown
      rw [wave_eq c w fuel s _ hown] at h
      obtain ⟨h2, h3⟩ := recvLoop_cursor c w ((if s2.to_ = c.n then s2.p0 else c.p) - 1)
        { s2 with i := 1 }
      rw [h] at h2 h3
      have h2' : s1.from_ = s2.from_ := h2
      have h3' : s1.to_ = s2.to_ := h3
      omega
    | abort code s2 =>
      unfold wave at h
      rw [hown] at h
      exact absurd h (by simp)
    | blocked s2 =>
      unfold wave at h
      rw [hown] at h
      exact absurd h (by simp)
    | outOfFuel s2 =>
      unfold wave at h
      rw [hown] at h
      exact absurd h (by simp)

/-- Without wrap-around the cursor values of a run are strictly increasing and at
most `n`, whatever the workers answer. -/
theorem cursors_increasing (c : Config) (hc : Sane c) (w : Workers) (fuel : Nat) :
    ∀ (k : Nat) (s : Coord), Ready c s → (c.z = 0 → s.from_ = 1) → s.to_ ≤ s.from_ →
      List.Chain' (fun a b => a < b) (cursors c w fuel k s) ∧
        ∀ t ∈ cursors c w fuel k s, t ≤ c.n := by
  intro k
  induction k with
  | zero =>
    intro s hR _ _
    have := hR.2.2.2.1
    simp only [cursors, List.chain'_singleton, List.mem_singleton, true_and]
    intro t ht
    omega
  | succ k ih =>
    intro s hR hz0 hts
    have hsn := hR.2.2.2.1
    rw [cursors, if_pos hsn]
    cases ho : wave c w fuel s with
    | done s1 =>
      simp only []
      obtain ⟨h1, h2, h3⟩ := wave_cursor c hc w fuel s s1 hR hz0 hts ho
      have hg := wave_good c hc w fuel s hR hz0
      rw [ho] at hg
      have hrest : List.Chain' (fun a b => a < b) (cursors c w fuel k s1) ∧
          ∀ t ∈ cursors c w fuel k s1, t ≤ c.n := by
        by_cases hlt : s1.to_ < c.n
        · have hR1 : Ready c s1 := by
            rcases hg.1 with h | h
            · exact h
            · have : s1.to_ = c.n := h.2.2.1
              omega
          exact ih s1 hR1 (fun h => absurd h (hg.2 hlt)) h3
        · rw [cursors_done c w fuel k s1 hlt]
          simp only [List.chain'_singleton, List.mem_singleton, true_and]
          intro t ht
          omega
      refine ⟨?_, ?_⟩
      · rw [List.chain'_cons']
        refine ⟨?_, hrest.1⟩
        intro y hy
        rw [cursors_head] at hy
        simp only [Option.mem_def, Option.some.injEq] at hy
        omega
      · intro t ht
        rcases List.mem_cons.1 ht with rfl | ht
        · omega
        · exact hrest.2 t ht
    | abort code s1 =>
      simp only [List.chain'_singleton, List.mem_singleton, true_and]
      intro t ht
      omega
    | blocked s1 =>
      simp only [List.chain'_singleton, List.mem_singleton, true_and]
      intro t ht
      omega
    | outOfFuel s1 =>
      simp only [List.chain'_singleton, List.mem_singleton, true_and]
      intro t ht
      omega

/-- A strictly increasing list of numbers between `a` and `b` has at most
`b + 1 - a` elements. -/
theorem increasing_length (l : List Nat) :
    ∀ (a b : Nat), List.Chain' (fun x y => x < y) l → (∀ t ∈ l.head?, a ≤ t) →
      (∀ t ∈ l, t ≤ b) → l.length ≤ b + 1 - a := by
  induction l with
  | nil => intro a b _ _ _; simp
  | cons x l ih =>
    intro a b hch hhead hall
    rw [List.chain'_cons'] at hch
    have hxa : a ≤ x := hhead x (by simp)
    have hxb : x ≤ b := hall x (List.mem_cons_self _ _)
    have := ih (x + 1) b hch.2 (fun t ht => hch.1 t ht)
      (fun t ht => hall t (List.mem_cons_of_mem _ ht))
    simp only [List.length_cons]
    omega

/-- The last cursor value of a run that ends is the value of `to` it ends with. -/
theorem cursors_last (c : Config) (w : Workers) (fuel : Nat) :
    ∀ (k : Nat) (s s1 : Coord), whileLoop c w fuel k s = Outcome.done s1 →
      (cursors c w fuel k s).getLast? = some s1.to_ := by
  intro k
  induction k with
  | zero =>
    intro s s1 h
    unfold whileLoop at h
    split at h
    · exact absurd h (by simp)
    · simp only [Outcome.done.injEq] at h
      rw [← h]
      rfl
  | succ k ih =>
    intro s s1 h
    rw [whileLoop] at h
    by_cases hsn : s.to_ < c.n
    · rw [if_pos hsn] at h
      rw [cursors, if_pos hsn]
      cases ho : wave c w fuel s with
      | done s2 =>
        rw [ho] at h
        simp only [] at h ⊢
        have h2 := ih s2 s1 h
        have hne : cursors c w fuel k s2 ≠ [] := by
          intro he
          have := cursors_head c w fuel k s2
          rw [he] at this
          simp at this
        obtain ⟨y, ys, hy⟩ := List.exists_cons_of_ne_nil hne
        rw [hy] at h2 ⊢
        rw [List.getLast?_cons_cons]
        exact h2
      | abort code s2 => rw [ho] at h; exact absurd h (by simp)
      | blocked s2 => rw [ho] at h; exact absurd h (by simp)
      | outOfFuel s2 => rw [ho] at h; exact absurd h (by simp)
    · rw [if_neg hsn] at h
      simp only [Outcome.done.injEq] at h
      rw [cursors_done c w fuel (k + 1) s hsn, ← h]
      rfl

/-- In automatic mode, with workers that answer, the first pass of the dispatch
loop reaches its end and leaves the cursor at `n`. -/
theorem wave_auto_done (c : Config) (hc : Sane c) (hr : c.r ≠ c.p)
    (hdiv : c.n = (c.p - 1) * c.z + c.r) (hrW : c.r < c.p - 1) (hnM : c.n < ULONG_MOD)
    (w : Workers) (hw : Replies c.debug c.n w) (fuel : Nat) (s : Coord) (hR : Ready c s)
    (hfrom : s.from_ = 1) (htr : s.trace = []) :
    ∃ s1, wave c w fuel s = Outcome.done s1 ∧ s1.to_ = c.n := by
  have hp := hc.1
  have hnil : ∀ e ∈ s.trace, AutoOk c e := by rw [htr]; simp
  have hA := sendLoop_auto c hr hdiv hrW hnM (c.p - 1) { s with i := 1 }
    (by show 1 + (c.p - 1) = c.p; omega) (le_refl 1)
    (by show s.from_ = (1 - 1) * c.z + min (1 - 1) c.r + 1; simp [hfrom])
    hR.2.2.1 hnil
  have hend := hA.2
  have hS := sendLoop_spec c hc (c.p - 1) { s with i := 1 } hR (fun _ => hfrom)
    (by show 1 + (c.p - 1) = c.p; omega) (le_refl 1)
    (by intro j h1 h2; have : j < 1 := h2; omega)
  obtain ⟨-, -, hcase⟩ := hS
  rcases hcase with ⟨hF, hp0, hilt, hi1, hpend⟩ | ⟨hR2, -⟩
  · have hown := ownChunk_final c fuel _ hend
    rw [wave_eq c w fuel s _ hown, if_pos hend]
    have hrecv := recvLoop_spec c w hw ((sendLoop c (c.p - 1) { s with i := 1 }).p0 - 1)
      { sendLoop c (c.p - 1) { s with i := 1 } with i := 1 } hF.2.2.2
    obtain ⟨-, -, -, h4, -, -, h7⟩ := hrecv
    have hdone := h7 (by
      intro j hj1 hj2
      have hj1' : 1 ≤ j := hj1
      have hj2' : j < 1 + ((sendLoop c (c.p - 1) { s with i := 1 }).p0 - 1) := hj2
      exact hpend j hj1' (by omega))
    refine ⟨_, isDone_eq _ hdone, ?_⟩
    rw [h4]
    exact hend
  · have := hR2.2.2.2.1
    omega

/-- In automatic mode the dispatch loop makes exactly one pass when `n ≥ 2`. -/
theorem cursors_auto (mode : Mode) (debug : Bool) (w : Workers) (p0 fuel nw n : Nat)
    (hw : Replies debug n w) (h2 : 2 ≤ n) (hn : n < 2 ^ 63) (h1 : 1 ≤ nw) (hf : 1 ≤ fuel) :
    dispatchCursors mode debug w p0 fuel (nw + 1) n 0 = [1, n] := by
  obtain ⟨k, rfl⟩ : ∃ k, fuel = k + 1 := ⟨fuel - 1, by omega⟩
  have hsane := mkConfig_sane mode debug nw n 0 h1 hn (by norm_num)
  have hc : mkConfig mode debug (nw + 1) n 0 =
      { mode := mode, debug := debug, n := n, p := nw + 1, z := n / nw, r := n % nw } := by
    simp [mkConfig]
  have hlt : n % nw < nw := Nat.mod_lt _ (by omega)
  have hn' : n < 9223372036854775808 := by simpa using hn
  unfold dispatchCursors
  rw [hc] at hsane ⊢
  have hR : Ready { mode := mode, debug := debug, n := n, p := nw + 1, z := n / nw, r := n % nw }
      (initCoord mode p0) := by
    refine ⟨rfl, le_refl 1, ?_, ?_, ?_⟩
    · show 1 ≤ n
      omega
    · show 1 < n
      omega
    · intro j e he
      simp [initCoord] at he
  obtain ⟨s1, hwave, hto⟩ := wave_auto_done _ hsane
    (by show n % nw ≠ nw + 1; omega)
    (by
      show n = (nw + 1 - 1) * (n / nw) + n % nw
      rw [Nat.add_sub_cancel]
      exact (Nat.div_add_mod n nw).symm)
    (by show n % nw < nw + 1 - 1; rw [Nat.add_sub_cancel]; exact hlt)
    (by
      show n < ULONG_MOD
      unfold ULONG_MOD
      simp only [show (2 : Nat) ^ 64 = 18446744073709551616 by norm_num]
      omega)
    w hw (k + 1) (initCoord mode p0) hR rfl rfl
  rw [cursors, if_pos (by show 1 < n; omega), hwave]
  simp only []
  rw [cursors_done _ w (k + 1) k s1 (by rw [hto]; exact lt_irrefl _), hto]
  rfl

/-! ## The run depends on the workers only through the ranges sent -/

theorem sendLoop_sub (c : Config) :
    ∀ (k : Nat) (s : Coord), ∀ e ∈ s.trace, e ∈ (sendLoop c k s).trace := by
  intro k
  induction k with
  | zero => intro s e he; exact he
  | succ k ih =>
    intro s e he
    have he2 : e ∈ s.trace ++ [Event.send s.i s.from_ (chunkEnd c s.i s.from_)] :=
      List.mem_append_left _ he
    rw [sendLoop]
    by_cases ht : chunkEnd c s.i s.from_ = c.n
    · rw [if_pos ht]
      exact he2
    · rw [if_neg ht]
      exact ih _ e he2

theorem sendLoop_pendingSent (c : Config) :
    ∀ (k : Nat) (s : Coord), PendingSent s → PendingSent (sendLoop c k s) := by
  intro k
  induction k with
  | zero => intro s h; exact h
  | succ k ih =>
    intro s h
    have h2 : ∀ j, ∀ e ∈ Function.update s.pending s.i
        (s.pending s.i ++ [(s.from_, chunkEnd c s.i s.from_)]) j,
        Event.send j e.1 e.2 ∈ s.trace ++ [Event.send s.i s.from_ (chunkEnd c s.i s.from_)] := by
      intro j e he
      by_cases hj : j = s.i
      · subst hj
        rw [Function.update_same] at he
        rcases List.mem_append.1 he with he | he
        · exact List.mem_append_left _ (h _ e he)
        · simp only [List.mem_singleton] at he
          subst he
          exact List.mem_append_right _ (List.mem_singleton_self _)
      · rw [Function.update_noteq hj] at he
        exact List.mem_append_left _ (h j e he)
    rw [sendLoop]
    by_cases ht : chunkEnd c s.i s.from_ = c.n
    · rw [if_pos ht]
      exact h2
    · rw [if_neg ht]
      exact ih _ h2

theorem ownChunk_sub (c : Config) (fuel : Nat) (s : Coord) :
    (∀ e ∈ s.trace, e ∈ (ownChunk c fuel s).state.trace) ∧
      (PendingSent s → PendingSent (ownChunk c fuel s).state) := by
  unfold ownChunk
  by_cases hto : s.to_ ≠ c.n
  · rw [if_pos hto]
    cases hprod : prod fuel s.from_ (chunkEnd c s.i s.from_) with
    | none =>
      simp only [hprod]
      exact ⟨fun e he => he, fun h => h⟩
    | some tres =>
      simp only [hprod]
      refine ⟨fun e he => List.mem_append_left _ he, ?_⟩
      intro h j e he
      exact List.mem_append_left _ (h j e he)
  · rw [if_neg hto]
    exact ⟨fun e he => he, fun h => h⟩

/-- The own chunk, when it is taken, is the last chunk of the trace. -/
theorem ownChunk_ownLast (c : Config) (fuel : Nat) (s s1 : Coord) (hto : s.to_ ≠ c.n)
    (h : ownChunk c fuel s = Outcome.done s1) : ownLast s1.trace = true := by
  unfold ownChunk at h
  rw [if_pos hto] at h
  cases hprod : prod fuel s.from_ (chunkEnd c s.i s.from_) with
  | none =>
    simp only [hprod] at h
    exact absurd h (by simp)
  | some tres =>
    simp only [hprod, Outcome.done.injEq] at h
    rw [← h]
    show ownLast (s.trace ++ [Event.own s.from_ (chunkEnd c s.i s.from_)]) = true
    unfold ownLast
    rw [chunks_append]
    have : chunks [Event.own s.from_ (chunkEnd c s.i s.from_)] =
        [Event.own s.from_ (chunkEnd c s.i s.from_)] := rfl
    rw [this, List.getLast?_append_of_ne_nil _ (by simp)]
    rfl

theorem recvLoop_sub (c : Config) (w : Workers) (k : Nat) (s : Coord) :
    ∀ e ∈ s.trace, e ∈ (recvLoop c w k s).state.trace := by
  obtain ⟨l, hl, -⟩ := recvLoop_trace c w k s
  rw [hl]
  intro e he
  exact List.mem_append_left _ he

theorem recvLoop_pendingSent (c : Config) (w : Workers) :
    ∀ (k : Nat) (s : Coord), PendingSent s → PendingSent (recvLoop c w k s).state := by
  intro k
  induction k with
  | zero => intro s hp; exact hp
  | succ k ih =>
    intro s hp
    rw [recvLoop]
    cases hpend : s.pending s.i with
    | nil => exact hp
    | cons e rest =>
      obtain ⟨f, t⟩ := e
      simp only []
      have hp1 : ∀ (r : ℚ) (l : List Event) (i : Nat), PendingSent
          { s with
            pending := Function.update s.pending s.i rest
            result := r
            trace := s.trace ++ l
            i := i } := by
        intro r l i j e he
        have hmem : e ∈ s.pending j := by
          by_cases hj : j = s.i
          · subst hj
            have he' : e ∈ rest := by simpa [Function.update_same] using he
            rw [hpend]
            exact List.mem_cons_of_mem _ he'
          · simpa [Function.update_noteq hj] using he
        exact List.mem_append_left _ (hp j e hmem)
      have hp0 : PendingSent { s with pending := Function.update s.pending s.i rest } := by
        have := hp1 s.result [] s.i
        simpa using this
      cases w s.i f t with
      | none => exact hp
      | some buf =>
        simp only []
        by_cases h0 : buf.length = 0
        · rw [if_pos h0]; exact hp0
        · rw [if_neg h0]
          by_cases hd : c.debug = true ∧ buf.length > GMP_STR_SIZE
          · rw [if_pos hd]; exact hp0
          · rw [if_neg hd]
            cases gmp_sscanf_Qd buf with
            | none => exact hp0
            | some res => exact ih _ (hp1 _ _ _)

/-- The receive loop asks the workers only about ranges that were sent: two
families of workers that agree on the ranges sent so far give the same run. -/
theorem recvLoop_congr (c : Config) (w w1 : Workers) :
    ∀ (k : Nat) (s : Coord), PendingSent s →
      (∀ r f t, Event.send r f t ∈ s.trace → w1 r f t = w r f t) →
      recvLoop c w1 k s = recvLoop c w k s := by
  intro k
  induction k with
  | zero => intro s _ _; rfl
  | succ k ih =>
    intro s hp hag
    rw [recvLoop, recvLoop]
    cases hpend : s.pending s.i with
    | nil => rfl
    | cons e rest =>
      obtain ⟨f, t⟩ := e
      simp only []
      have hsent := hp s.i (f, t) (by rw [hpend]; exact List.mem_cons_self _ _)
      rw [hag s.i f t hsent]
      cases w s.i f t with
      | none => rfl
      | some buf =>
        simp only []
        by_cases h0 : buf.length = 0
        · rw [if_pos h0, if_pos h0]
        · rw [if_neg h0, if_neg h0]
          by_cases hd : c.debug = true ∧ buf.length > GMP_STR_SIZE
          · rw [if_pos hd, if_pos hd]
          · rw [if_neg hd, if_neg hd]
            cases gmp_sscanf_Qd buf with
            | none => rfl
            | some res =>
              simp only []
              apply ih
              · intro j e he
                have hmem : e ∈ s.pending j := by
                  by_cases hj : j = s.i
                  · subst hj
                    have he' : e ∈ rest := by simpa [Function.update_same] using he
                    rw [hpend]
                    exact List.mem_cons_of_mem _ he'
                  · simpa [Function.update_noteq hj] using he
                exact List.mem_append_left _ (hp j e hmem)
              · intro r f1 t1 hmem
                have hmem' : Event.send r f1 t1 ∈ s.trace ++ [Event.recv s.i] := hmem
                rcases List.mem_append.1 hmem' with h | h
                · exact hag r f1 t1 h
                · simp at h

theorem wave_sub (c : Config) (w : Workers) (fuel : Nat) (s : Coord) :
    (∀ e ∈ s.trace, e ∈ (wave c w fuel s).state.trace) ∧
      (PendingSent s → PendingSent (wave c w fuel s).state) := by
  have h1 := sendLoop_sub c (c.p - 1) { s with i := 1 }
  have h2 := sendLoop_pendingSent c (c.p - 1) { s with i := 1 }
  obtain ⟨h3, h4⟩ := ownChunk_sub c fuel (sendLoop c (c.p - 1) { s with i := 1 })
  cases hown : ownChunk c fuel (sendLoop c (c.p - 1) { s with i := 1 }) with
  | done s2 =>
    rw [hown] at h3 h4
    rw [wave_eq c w fuel s _ hown]
    refine ⟨fun e he => recvLoop_sub c w _ _ e (h3 e (h1 e he)), ?_⟩
    intro hp
    exact recvLoop_pendingSent c w _ _ (h4 (h2 hp))
  | abort code s2 =>
    rw [hown] at h3 h4
    unfold wave
    rw [hown]
    exact ⟨fun e he => h3 e (h1 e he), fun hp => h4 (h2 hp)⟩
  | blocked s2 =>
    rw [hown] at h3 h4
    unfold wave
    rw [hown]
    exact ⟨fun e he => h3 e (h1 e he), fun hp => h4 (h2 hp)⟩
  | outOfFuel s2 =>
    rw [hown] at h3 h4
    unfold wave
    rw [hown]
    exact ⟨fun e he => h3 e (h1 e he), fun hp => h4 (h2 hp)⟩

theorem wave_congr (c : Config) (w w1 : Workers) (fuel : Nat) (s : Coord) (hp : PendingSent s)
    (hag : ∀ r f t, Event.send r f t ∈ (wave c w fuel s).state.trace → w1 r f t = w r f t) :
    wave c w1 fuel s = wave c w fuel s := by
  have h2 := sendLoop_pendingSent c (c.p - 1) { s with i := 1 } hp
  obtain ⟨-, h4⟩ := ownChunk_sub c fuel (sendLoop c (c.p - 1) { s with i := 1 })
  cases hown : ownChunk c fuel (sendLoop c (c.p - 1) { s with i := 1 }) with
  | done s2 =>
    rw [hown] at h4
    rw [wave_eq c w fuel s _ hown] at hag
    rw [wave_eq c w fuel s _ hown, wave_eq c w1 fuel s _ hown]
    exact recvLoop_congr c w w1 _ { s2 with i := 1 } (h4 h2)
      (fun r f t hmem => hag r f t (recvLoop_sub c w _ { s2 with i := 1 } _ hmem))
  | abort code s2 => unfold wave; rw [hown]
  | blocked s2 => unfold wave; rw [hown]
  | outOfFuel s2 => unfold wave; rw [hown]

theorem whileLoop_sub (c : Config) (w : Workers) (fuel : Nat) :
    ∀ (k : Nat) (s : Coord), ∀ e ∈ s.trace, e ∈ (whileLoop c w fuel k s).state.trace := by
  intro k
  induction k with
  | zero =>
    intro s e he
    unfold whileLoop
    split <;> exact he
  | succ k ih =>
    intro s e he
    rw [whileLoop]
    by_cases hto : s.to_ < c.n
    · rw [if_pos hto]
      have h1 := (wave_sub c w fuel s).1 e he
      cases ho : wave c w fuel s with
      | done s1 =>
        rw [ho] at h1
        exact ih s1 e h1
      | abort code s1 => rw [ho] at h1; exact h1
      | blocked s1 => rw [ho] at h1; exact h1
      | outOfFuel s1 => rw [ho] at h1; exact h1
    · rw [if_neg hto]
      exact he

/-- Two families of workers that agree on the ranges sent in a run give the same
run of the dispatch loop and the same cursor values. -/
theorem whileLoop_congr (c : Config) (w w1 : Workers) (fuel : Nat) :
    ∀ (k : Nat) (s : Coord), PendingSent s →
      (∀ r f t, Event.send r f t ∈ (whileLoop c w fuel k s).state.trace → w1 r f t = w r f t) →
      whileLoop c w1 fuel k s = whileLoop c w fuel k s ∧
        cursors c w1 fuel k s = cursors c w fuel k s := by
  intro k
  induction k with
  | zero => intro s _ _; exact ⟨rfl, rfl⟩
  | succ k ih =>
    intro s hp hag
    rw [whileLoop] at hag
    rw [whileLoop, whileLoop, cursors, cursors]
    by_cases hto : s.to_ < c.n
    · rw [if_pos hto] at hag
      rw [if_pos hto, if_pos hto, if_pos hto, if_pos hto]
      have hps := (wave_sub c w fuel s).2 hp
      cases ho : wave c w fuel s with
      | done s1 =>
        rw [ho] at hag hps
        have hw1 : wave c w1 fuel s = Outcome.done s1 := by
          rw [← ho]
          apply wave_congr c w w1 fuel s hp
          intro r f t hmem
          rw [ho] at hmem
          exact hag r f t (whileLoop_sub c w fuel k s1 _ hmem)
        rw [hw1]
        obtain ⟨h1, h2⟩ := ih s1 hps hag
        refine ⟨h1, ?_⟩
        show s.to_ :: cursors c w1 fuel k s1 = s.to_ :: cursors c w fuel k s1
        rw [h2]
      | abort code s1 =>
        rw [ho] at hag
        have hw1 : wave c w1 fuel s = Outcome.abort code s1 := by
          rw [← ho]
          apply wave_congr c w w1 fuel s hp
          intro r f t hmem
          rw [ho] at hmem
          exact hag r f t hmem
        rw [hw1]
        exact ⟨rfl, rfl⟩
      | blocked s1 =>
        rw [ho] at hag
        have hw1 : wave c w1 fuel s = Outcome.blocked s1 := by
          rw [← ho]
          apply wave_congr c w w1 fuel s hp
          intro r f t hmem
          rw [ho] at hmem
          exact hag r f t hmem
        rw [hw1]
        exact ⟨rfl, rfl⟩
      | outOfFuel s1 =>
        rw [ho] at hag
        have hw1 : wave c w1 fuel s = Outcome.outOfFuel s1 := by
          rw [← ho]
          apply wave_congr c w w1 fuel s hp
          intro r f t hmem
          rw [ho] at hmem
          exact hag r f t hmem
        rw [hw1]
        exact ⟨rfl, rfl⟩
    · rw [if_neg hto, if_neg hto, if_neg hto, if_neg hto]
      exact ⟨rfl, rfl⟩

/-- Workers that answer the ranges they are sent in a run can be replaced, without
changing the run, by workers that answer every range. -/
theorem answers_replies (mode : Mode) (debug : Bool) (w : Workers) (p0 fuel p n z : Nat)
    (h : Answers debug w (dispatch mode debug w p0 fuel p n z).state.trace) :
    ∃ w1, Replies debug n w1 ∧
      dispatch mode debug w1 p0 fuel p n z = dispatch mode debug w p0 fuel p n z ∧
      dispatchCursors mode debug w1 p0 fuel p n z = dispatchCursors mode debug w p0 fuel p n z := by
  refine ⟨fun r f t =>
    if Event.send r f t ∈ (dispatch mode debug w p0 fuel p n z).state.trace then w r f t
    else some ['0'], ?_, ?_⟩
  · intro rank f t _ _ _
    by_cases hm : Event.send rank f t ∈ (dispatch mode debug w p0 fuel p n z).state.trace
    · simp only [hm, if_true]
      exact h _ hm
    · simp only [hm, if_false]
      exact ⟨['0'], 0, rfl, by simp, fun _ => by decide, by decide!⟩
  · have hcong := whileLoop_congr (mkConfig mode debug p n z) w
      (fun r f t =>
        if Event.send r f t ∈ (dispatch mode debug w p0 fuel p n z).state.trace then w r f t
        else some ['0']) fuel fuel (initCoord mode p0)
      (by intro j e he; simp [initCoord] at he)
      (by
        intro r f t hmem
        have hmem' : Event.send r f t ∈ (dispatch mode debug w p0 fuel p n z).state.trace := hmem
        simp only [hmem', if_true])
    exact hcong

/-- One pass of the dispatch loop with workers that answer: it ends ready for the
next pass, further on, or the ranges are complete; in the latter case the pass
reaches its end unless its last chunk was the coordinator's own. -/
theorem wave_last (c : Config) (hc : Sane c) (w : Workers) (hw : Replies c.debug c.n w)
    (fuel : Nat) (hf : c.n ≤ fuel) (s : Coord) (hR : Ready c s) (hz0 : c.z = 0 → s.from_ = 1) :
    (∃ s1, wave c w fuel s = Outcome.done s1 ∧ Ready c s1 ∧ s.from_ < s1.from_ ∧ c.z ≠ 0) ∨
      (Final c (wave c w fuel s).state ∧
        ((wave c w fuel s).isDone = true ∨ ownLast (wave c w fuel s).state.trace = true)) := by
  have hp := hc.1
  have hS := sendLoop_spec c hc (c.p - 1) { s with i := 1 } hR hz0
    (by show 1 + (c.p - 1) = c.p; omega) (le_refl 1)
    (by intro j h1 h2; have : j < 1 := h2; omega)
  obtain ⟨-, hfrom, hcase⟩ := hS
  have hfrom : s.from_ ≤ (sendLoop c (c.p - 1) { s with i := 1 }).from_ := hfrom
  rcases hcase with ⟨hF, hp0, hilt, hi1, hpend⟩ | ⟨hR2, hi, hz2, hp0, hpend⟩
  · -- the send loop reached `n` and left by `break`: `p0` is assigned
    have hown := ownChunk_final c fuel _ hF.2.2.1
    rw [wave_eq c w fuel s _ hown, if_pos hF.2.2.1]
    have hrecv := recvLoop_spec c w hw ((sendLoop c (c.p - 1) { s with i := 1 }).p0 - 1)
      { sendLoop c (c.p - 1) { s with i := 1 } with i := 1 } hF.2.2.2
    obtain ⟨h1, -, -, h4, -, h6, h7⟩ := hrecv
    right
    refine ⟨Final_congr c _ _ hF h1 h4 h6, Or.inl (h7 ?_)⟩
    intro j hj1 hj2
    have hj1' : 1 ≤ j := hj1
    have hj2' : j < 1 + ((sendLoop c (c.p - 1) { s with i := 1 }).p0 - 1) := hj2
    exact hpend j hj1' (by omega)
  · -- the send loop served every worker; the coordinator takes the next chunk
    have hne0 : (sendLoop c (c.p - 1) { s with i := 1 }).to_ ≠ c.n := by
      have := hR2.2.2.2.1
      omega
    obtain ⟨s3, hown, hlt, hp3, hpd3, hFR, hz⟩ := ownChunk_spec c hc fuel hf _ hR2 hi hz2
    have hlast := ownChunk_ownLast c fuel _ s3 hne0 hown
    rw [wave_eq c w fuel s _ hown]
    rcases hFR with hF | hR3
    · rw [if_pos hF.2.2.1]
      have hrecv := recvLoop_spec c w hw (s3.p0 - 1) { s3 with i := 1 } hF.2.2.2
      obtain ⟨h1, -, -, h4, -, h6, -⟩ := hrecv
      have hch := (recvLoop_chunks c w (s3.p0 - 1) { s3 with i := 1 }).1
      right
      refine ⟨Final_congr c _ _ hF h1 h4 h6, Or.inr ?_⟩
      unfold ownLast
      rw [hch]
      exact hlast
    · have hne : ¬ s3.to_ = c.n := by
        have := hR3.2.2.2.1
        omega
      rw [if_neg hne]
      have hrecv := recvLoop_spec c w hw (c.p - 1) { s3 with i := 1 } hR3.2.2.2.2
      obtain ⟨h1, -, h3, h4, -, h6, h7⟩ := hrecv
      have hdone := h7 (by
        intro j hj1 hj2
        have hj1' : 1 ≤ j := hj1
        have hj2' : j < 1 + (c.p - 1) := hj2
        show s3.pending j ≠ []
        rw [hpd3]
        exact hpend j hj1' (by omega))
      left
      refine ⟨_, isDone_eq _ hdone, Ready_congr c _ _ hR3 h1 h3 h4 h6, ?_, hz⟩
      rw [h3]
      show s.from_ < s3.from_
      exact lt_of_le_of_lt hfrom hlt

theorem whileLoop_last (c : Config) (hc : Sane c) (w : Workers) (hw : Replies c.debug c.n w)
    (fuel : Nat) (hf : c.n ≤ fuel) :
    ∀ (k : Nat) (s : Coord), Ready c s → (c.z = 0 → s.from_ = 1) → c.n + 1 ≤ k + s.from_ →
      Final c (whileLoop c w fuel k s).state ∧
        ((whileLoop c w fuel k s).isDone = true ∨
          ownLast (whileLoop c w fuel k s).state.trace = true) := by
  intro k
  induction k with
  | zero =>
    intro s hR _ hk
    have := hR.2.2.1
    omega
  | succ k ih =>
    intro s hR hz0 hk
    have hto : s.to_ < c.n := hR.2.2.2.1
    rw [whileLoop, if_pos hto]
    rcases wave_last c hc w hw fuel hf s hR hz0 with ⟨s1, ho, hR1, hlt, hz⟩ | ⟨hF, hd⟩
    · rw [ho]
      simp only []
      exact ih s1 hR1 (fun h => absurd h hz) (by omega)
    · cases ho : wave c w fuel s with
      | done s1 =>
        rw [ho] at hF
        simp only []
        have hF' : Final c s1 := hF
        rw [whileLoop_done c w fuel k s1 (by have := hF'.2.2.1; omega)]
        exact ⟨hF', Or.inl rfl⟩
      | abort code s1 =>
        rw [ho] at hF hd
        exact ⟨hF, hd⟩
      | blocked s1 =>
        rw [ho] at hF hd
        exact ⟨hF, hd⟩
      | outOfFuel s1 =>
        rw [ho] at hF hd
        exact ⟨hF, hd⟩

/-- With workers that answer the ranges they are sent, and without wrap-around, the
dispatch loop creates all the ranges up to `n`, and it reaches its end unless the
last chunk is the coordinator's own. -/
theorem dispatch_final (mode : Mode) (debug : Bool) (w : Workers) (p0 fuel nw n z : Nat)
    (hw : Answers debug w (dispatch mode debug w p0 fuel (nw + 1) n z).state.trace)
    (h2 : 2 ≤ n) (hn : n < 2 ^ 63) (hz : z < 2 ^ 63) (h1 : 1 ≤ nw) (hf : n ≤ fuel) :
    Final (mkConfig mode debug (nw + 1) n z) (dispatch mode debug w p0 fuel (nw + 1) n z).state ∧
      ((dispatch mode debug w p0 fuel (nw + 1) n z).isDone = true ∨
        ownLast (dispatch mode debug w p0 fuel (nw + 1) n z).state.trace = true) := by
  obtain ⟨w1, hw1, hd, -⟩ := answers_replies mode debug w p0 fuel (nw + 1) n z hw
  rw [← hd]
  have hc := mkConfig_sane mode debug nw n z h1 hn hz
  have hw' : Replies (mkConfig mode debug (nw + 1) n z).debug
      (mkConfig mode debug (nw + 1) n z).n w1 := by
    rw [mkConfig_n, mkConfig_debug]; exact hw1
  have hR : Ready (mkConfig mode debug (nw + 1) n z) (initCoord mode p0) := by
    refine ⟨rfl, le_refl 1, ?_, ?_, ?_⟩
    · show 1 ≤ (mkConfig mode debug (nw + 1) n z).n
      rw [mkConfig_n]; omega
    · show 1 < (mkConfig mode debug (nw + 1) n z).n
      rw [mkConfig_n]; omega
    · intro j e he
      simp [initCoord] at he
  exact whileLoop_last _ hc w1 hw' fuel (by rw [mkConfig_n]; exact hf) fuel _ hR
    (fun _ => rfl) (by rw [mkConfig_n]; show n + 1 ≤ fuel + 1; omega)

theorem send_mem_ranges (r f t : Nat) (tr : List Event) (h : Event.send r f t ∈ tr) :
    (f, t) ∈ ranges tr := by
  induction tr with
  | nil => simp at h
  | cons a tr ih =>
    rcases List.mem_cons.1 h with rfl | h1
    · simp [ranges]
    · cases a with
      | send i f1 t1 => simp only [ranges]; exact List.mem_cons_of_mem _ (ih h1)
      | own f1 t1 => simp only [ranges]; exact List.mem_cons_of_mem _ (ih h1)
      | recv i => simp only [ranges]; exact ih h1

/-- Workers that answer every well-formed range inside `[1,n]` answer in particular
the ranges they are sent. -/
theorem replies_answers (mode : Mode) (debug : Bool) (w : Workers) (p0 fuel nw n z : Nat)
    (hw : Replies debug n w) (hn : n < 2 ^ 63) (hz : z < 2 ^ 63) (h1 : 1 ≤ nw) :
    Answers debug w (dispatch mode debug w p0 fuel (nw + 1) n z).state.trace := by
  obtain ⟨b, hchain, hb⟩ := dispatch_chain mode debug w p0 fuel nw n z h1 hn hz
  intro e he
  cases e with
  | send r f t =>
    have hin := chainEnd_inside _ _ _ hchain (f, t) (send_mem_ranges r f t _ he)
    exact hw r f t hin.1 hin.2.1 (by have := hin.2.2; show t ≤ n; omega)
  | own f t => exact trivial
  | recv i => exact trivial

/-- With automatic chunk size no chunk is the coordinator's own. -/
theorem auto_not_ownLast (mode : Mode) (debug : Bool) (w : Workers) (p0 fuel nw n : Nat)
    (h1 : 1 ≤ nw) (hn : n < ULONG_MOD) :
    ownLast (dispatch mode debug w p0 fuel (nw + 1) n 0).state.trace = false := by
  have hauto := dispatch_auto mode debug w p0 fuel nw n h1 hn
  unfold ownLast
  cases hl : (chunks (dispatch mode debug w p0 fuel (nw + 1) n 0).state.trace).getLast? with
  | none => rfl
  | some e =>
    cases e with
    | send i f t => rfl
    | recv i => rfl
    | own f t =>
      exfalso
      have hmem := List.mem_of_getLast?_eq_some hl
      have hmem2 : Event.own f t ∈ (dispatch mode debug w p0 fuel (nw + 1) n 0).state.trace := by
        unfold chunks at hmem
        exact (List.mem_filter.1 hmem).1
      exact hauto _ hmem2

/-! ## Runs with workers that answer the ranges they are sent: claims C1, C9 and C21 -/

/-- C1, amended: for every `n` with `2 ≤ n < 2^63`, every worker count `w ≥ 1` and every
requested chunk size `z < 2^63`, when every worker answers the ranges it is sent,
the ranges created by the dispatch loop (sent to workers or taken by the
coordinator), in order of creation, partition `[1,n]`: the first starts at 1, each
later one starts at the previous `to + 1`, the last ends at `n`, and every range has
`from ≤ to`. -/
theorem dispatch_partitions (mode : Mode) (debug : Bool) (w : Workers) (p0 fuel nw n z : Nat)
    (hw : Answers debug w (dispatch mode debug w p0 fuel (nw + 1) n z).state.trace)
    (h2 : 2 ≤ n) (hn : n < 2 ^ 63) (hz : z < 2 ^ 63) (h1 : 1 ≤ nw) (hf : n ≤ fuel) :
    Partitions n (ranges (dispatch mode debug w p0 fuel (nw + 1) n z).state.trace) := by
  obtain ⟨⟨hchain, hne, -, -⟩, -⟩ := dispatch_final mode debug w p0 fuel nw n z hw h2 hn hz h1 hf
  rw [mkConfig_n] at hchain
  exact ⟨hne, hchain⟩

/-- Witness of C1: the spec's scenario `n = 10`, three workers, automatic chunk size. -/
theorem dispatch_partitions_witness :
    Partitions 10
      (ranges (dispatch Mode.sum false (programWorkers Mode.sum false 10) 0 10 (3 + 1) 10 0).state.trace) :=
  dispatch_partitions Mode.sum false (programWorkers Mode.sum false 10) 0 10 3 10 0
    (replies_answers Mode.sum false (programWorkers Mode.sum false 10) 0 10 3 10 0
      (programWorkers_sum_replies false 10 10 (by norm_num) (by decide)) (by norm_num)
      (by norm_num) (by decide))
    (by decide) (by norm_num) (by norm_num) (by decide) (by decide)

/-- C9, amended: for every `n < 2^63`, `w ≥ 1` and `z < 2^63`, when every worker
answers the ranges it is sent and the last chunk of the plan is sent to a worker
(as it always is with automatic chunk size), the coordinator runs to its end,
whatever the variable `p0` holds at the start, and in its trace each worker rank
`1..w` is sent the range `{0,0}` exactly once, as the last range sent to that
rank; no range sent before it equals `{0,0}`. -/
theorem coordinator_sentinels (mode : Mode) (debug : Bool) (w : Workers)
    (p0 fuel nw n z : Nat)
    (hw : Answers debug w (dispatch mode debug w p0 fuel (nw + 1) n z).state.trace)
    (hn : n < 2 ^ 63) (hz : z < 2 ^ 63) (h1 : 1 ≤ nw) (hf : n ≤ fuel)
    (hlast : z = 0 ∨ ownLast (dispatch mode debug w p0 fuel (nw + 1) n z).state.trace = false) :
    ∃ s, coordinator mode debug w p0 fuel (nw + 1) n z = Outcome.done s ∧
      ∀ rank, 1 ≤ rank → rank ≤ nw →
        ∃ real, sentTo rank s.trace = real ++ [(0, 0)] ∧ (0, 0) ∉ real := by
  have hn' : n < 9223372036854775808 := by simpa using hn
  have hl : ownLast (dispatch mode debug w p0 fuel (nw + 1) n z).state.trace = false := by
    rcases hlast with h | h
    · subst h
      exact auto_not_ownLast mode debug w p0 fuel nw n h1
        (by unfold ULONG_MOD; simp only [show (2 : Nat) ^ 64 = 18446744073709551616 by norm_num]; omega)
    · exact h
  by_cases h2 : 2 ≤ n
  · obtain ⟨⟨hchain, -, -, -⟩, hd⟩ :=
      dispatch_final mode debug w p0 fuel nw n z hw h2 hn hz h1 hf
    have hdone : (dispatch mode debug w p0 fuel (nw + 1) n z).isDone = true := by
      rcases hd with h | h
      · exact h
      · rw [hl] at h
        exact absurd h (by decide)
    exact sentinels_after mode debug w p0 fuel nw n z _ (isDone_eq _ hdone)
      (chainEnd_lower _ _ _ hchain).2
  · have hd : dispatch mode debug w p0 fuel (nw + 1) n z = Outcome.done (initCoord mode p0) := by
      unfold dispatch
      apply whileLoop_done
      show ¬ 1 < (mkConfig mode debug (nw + 1) n z).n
      rw [mkConfig_n]
      omega
    exact sentinels_after mode debug w p0 fuel nw n z _ hd (by simp [initCoord, ranges])

/-- Witness of C9: `n = 20`, two workers, chunk size 4, `p0` holding 1000. The
five chunks go to rank 1, rank 2, the coordinator, rank 1 and rank 2. -/
theorem coordinator_sentinels_witness :
    chunks (dispatch Mode.sum false (programWorkers Mode.sum false 20) 1000 20 (2 + 1) 20 4).state.trace
        = [Event.send 1 1 4, Event.send 2 5 8, Event.own 9 12, Event.send 1 13 16,
          Event.send 2 17 20] ∧
      ∃ s, coordinator Mode.sum false (programWorkers Mode.sum false 20) 1000 20 (2 + 1) 20 4 =
          Outcome.done s ∧
        ∀ rank, 1 ≤ rank → rank ≤ 2 →
          ∃ real, sentTo rank s.trace = real ++ [(0, 0)] ∧ (0, 0) ∉ real :=
  ⟨by decide!,
    coordinator_sentinels Mode.sum false (programWorkers Mode.sum false 20) 1000 20 2 20 4
      (replies_answers Mode.sum false (programWorkers Mode.sum false 20) 1000 20 2 20 4
        (programWorkers_sum_replies false 20 20 (by norm_num) (by decide)) (by norm_num)
        (by norm_num) (by decide))
      (by norm_num) (by norm_num) (by decide) (by decide) (Or.inr (by decide!))⟩

/-- C21, amended: for every `n < 2^63`, worker count `w ≥ 1` and chunk size
`z < 2^63`, when every worker answers the ranges it is sent: every pass of the
dispatch loop `while (to<n)` strictly increases the cursor `to`, which starts at 1
and for `n ≥ 1` never exceeds `n`, so there are at most `n - 1` passes (exactly one
in automatic mode when `n ≥ 2`, none when `n ≤ 1`), after which `to = n`; and the
loop ends, whatever the variable `p0` holds at the start, whenever the last chunk
of the plan is sent to a worker, as it always is with automatic chunk size. -/
theorem dispatch_loop_terminates (mode : Mode) (debug : Bool) (w : Workers)
    (p0 fuel nw n z : Nat)
    (hw : Answers debug w (dispatch mode debug w p0 fuel (nw + 1) n z).state.trace)
    (hn : n < 2 ^ 63) (hz : z < 2 ^ 63) (h1 : 1 ≤ nw) (hf : n ≤ fuel) :
    ((z = 0 ∨ ownLast (dispatch mode debug w p0 fuel (nw + 1) n z).state.trace = false) →
        (dispatch mode debug w p0 fuel (nw + 1) n z).isDone = true) ∧
      (2 ≤ n → (dispatch mode debug w p0 fuel (nw + 1) n z).state.to_ = n) ∧
      List.Chain' (fun a b => a < b) (dispatchCursors mode debug w p0 fuel (nw + 1) n z) ∧
      (dispatchCursors mode debug w p0 fuel (nw + 1) n z).head? = some 1 ∧
      (1 ≤ n → ∀ t ∈ dispatchCursors mode debug w p0 fuel (nw + 1) n z, t ≤ n) ∧
      (dispatchCursors mode debug w p0 fuel (nw + 1) n z).length - 1 ≤ n - 1 ∧
      ((dispatch mode debug w p0 fuel (nw + 1) n z).isDone = true → 2 ≤ n →
        (dispatchCursors mode debug w p0 fuel (nw + 1) n z).getLast? = some n) ∧
      (n ≤ 1 → dispatchCursors mode debug w p0 fuel (nw + 1) n z = [1]) ∧
      (z = 0 → 2 ≤ n → dispatchCursors mode debug w p0 fuel (nw + 1) n z = [1, n]) := by
  have hc := mkConfig_sane mode debug nw n z h1 hn hz
  have hn' : n < 9223372036854775808 := by simpa using hn
  have hhead : (dispatchCursors mode debug w p0 fuel (nw + 1) n z).head? = some 1 :=
    cursors_head _ w fuel fuel (initCoord mode p0)
  by_cases h2 : 2 ≤ n
  · have hR : Ready (mkConfig mode debug (nw + 1) n z) (initCoord mode p0) := by
      refine ⟨rfl, le_refl 1, ?_, ?_, ?_⟩
      · show 1 ≤ (mkConfig mode debug (nw + 1) n z).n
        rw [mkConfig_n]; omega
      · show 1 < (mkConfig mode debug (nw + 1) n z).n
        rw [mkConfig_n]; omega
      · intro j e he
        simp [initCoord] at he
    obtain ⟨hch, hall⟩ := cursors_increasing _ hc w fuel fuel (initCoord mode p0) hR
      (fun _ => rfl) (le_refl 1)
    rw [mkConfig_n] at hall
    have hlen := increasing_length _ 1 n hch
      (by
        intro t ht
        have hh : (cursors (mkConfig mode debug (nw + 1) n z) w fuel fuel
            (initCoord mode p0)).head? = some 1 := hhead
        rw [hh] at ht
        simp only [Option.mem_def, Option.some.injEq] at ht
        omega)
      hall
    obtain ⟨hF, hd⟩ := dispatch_final mode debug w p0 fuel nw n z hw h2 hn hz h1 hf
    have hto : (dispatch mode debug w p0 fuel (nw + 1) n z).state.to_ = n := by
      have := hF.2.2.1
      rw [mkConfig_n] at this
      exact this
    refine ⟨?_, fun _ => hto, hch, hhead, fun _ => hall, ?_, ?_, fun h => by omega, ?_⟩
    · intro hlast
      have hl : ownLast (dispatch mode debug w p0 fuel (nw + 1) n z).state.trace = false := by
        rcases hlast with h | h
        · subst h
          exact auto_not_ownLast mode debug w p0 fuel nw n h1
            (by
              unfold ULONG_MOD
              simp only [show (2 : Nat) ^ 64 = 18446744073709551616 by norm_num]
              omega)
        · exact h
      rcases hd with h | h
      · exact h
      · rw [hl] at h
        exact absurd h (by decide)
    · have : (dispatchCursors mode debug w p0 fuel (nw + 1) n z).length ≤ n + 1 - 1 := hlen
      omega
    · intro hdone _
      have hd2 := isDone_eq _ hdone
      have := cursors_last _ w fuel fuel (initCoord mode p0) _ hd2
      rw [hto] at this
      exact this
    · intro hz0 _
      subst hz0
      obtain ⟨w1, hw1, -, hcs⟩ := answers_replies mode debug w p0 fuel (nw + 1) n 0 hw
      rw [← hcs]
      exact cursors_auto mode debug w1 p0 fuel nw n hw1 h2 hn h1 (by omega)
  · have hnot : ¬ (initCoord mode p0).to_ < (mkConfig mode debug (nw + 1) n z).n := by
      show ¬ 1 < (mkConfig mode debug (nw + 1) n z).n
      rw [mkConfig_n]
      omega
    have hcs : dispatchCursors mode debug w p0 fuel (nw + 1) n z = [1] :=
      cursors_done _ w fuel fuel (initCoord mode p0) hnot
    have hd : dispatch mode debug w p0 fuel (nw + 1) n z = Outcome.done (initCoord mode p0) :=
      whileLoop_done _ w fuel fuel (initCoord mode p0) hnot
    rw [hcs, hd]
    refine ⟨fun _ => rfl, fun h => by omega, List.chain'_singleton _, rfl, ?_, by simp,
      fun _ h => by omega, fun _ => rfl, fun _ h => by omega⟩
    intro h1n t ht
    simp only [List.mem_singleton] at ht
    omega

/-- Witness of C21: ten numbers in chunks of 2 for two workers, `p0` holding 1000;
two passes, which leave the cursor at 6 and at 10, and the loop ends. -/
theorem dispatch_loop_terminates_witness :
    dispatchCursors Mode.sum false (programWorkers Mode.sum false 10) 1000 10 (2 + 1) 10 2 =
        [1, 6, 10] ∧
      (dispatch Mode.sum false (programWorkers Mode.sum false 10) 1000 10 (2 + 1) 10 2).isDone
        = true ∧
      List.Chain' (fun a b => a < b)
        (dispatchCursors Mode.sum false (programWorkers Mode.sum false 10) 1000 10 (2 + 1) 10 2) ∧
      (dispatchCursors Mode.sum false (programWorkers Mode.sum false 10) 1000 10 (2 + 1) 10 2).length
        - 1 ≤ 10 - 1 :=
  have h := dispatch_loop_terminates Mode.sum false (programWorkers Mode.sum false 10) 1000 10 2
    10 2
    (replies_answers Mode.sum false (programWorkers Mode.sum false 10) 1000 10 2 10 2
      (programWorkers_sum_replies false 10 10 (by norm_num) (by decide)) (by norm_num)
      (by norm_num) (by decide))
    (by norm_num) (by norm_num) (by decide) (by decide)
  ⟨by decide!, h.1 (Or.inr (by decide!)), h.2.2.1, h.2.2.2.2.2.1⟩

/-- Counterexample to C21 as stated. For `n = 2^64 - 1`, one worker and chunk size 2
the dispatch loop never ends, whatever the workers answer and whatever the fuel:
the cursor passes over `n` and wraps around. For `n = 2^64 - 1`, one worker and
chunk size `2^63`, with a worker that answers at once, the first pass sends
`[1, 2^63]`, the coordinator takes `[2^63 + 1, 0]`, and the pass leaves `to = 0`:
the cursor has decreased, and every further pass leaves it at 0. And for `n = 10`,
one worker and chunk size 3, where the last chunk `[10,10]` is the coordinator's
own, the cursor reaches `n` but with `p0` holding 3 the loop is not left: the
receive loop of the last pass waits for rank 2, which does not exist. -/
theorem dispatch_loop_wraps :
    (¬ ∃ mode debug w p0 fuel,
        (dispatch mode debug w p0 fuel 2 (ULONG_MOD - 1) 2).isDone = true) ∧
      dispatchCursors Mode.sum false (fun _ _ _ => some ['1']) 2 3 2 (ULONG_MOD - 1) (2 ^ 63) =
        [1, 0, 0, 0] ∧
      ranges (dispatch Mode.sum false (fun _ _ _ => some ['1']) 2 1 2 (ULONG_MOD - 1)
          (2 ^ 63)).state.trace = [(1, 2 ^ 63), (2 ^ 63 + 1, 0)] ∧
      (dispatch Mode.sum false (programWorkers Mode.sum false 10) 3 10 2 10 3).isDone = false ∧
      (dispatch Mode.sum false (programWorkers Mode.sum false 10) 3 10 2 10 3).state.to_ = 10 ∧
      ownLast (dispatch Mode.sum false (programWorkers Mode.sum false 10) 3 10 2 10 3).state.trace
        = true := by
  refine ⟨?_, by decide!, by decide!, by decide!, by decide!, by decide!⟩
  rintro ⟨mode, debug, w, p0, fuel, h⟩
  rw [dispatch_never_ends] at h
  exact absurd h (by decide)

end Psum
